import Mathlib

/-!
# ExifToolProcess: a persistent co-process driver

A shallow embedding of `src/exiftoolprocess.cpp` (class `Digikam::ExifToolProcess`).

* A `QByteArray` is a list of characters, one per byte.
* The child process handle (`QProcess`) is an explicit record: its state, the chunks
  written to its standard input, and the complete lines it has produced on each output
  channel that the driver has not read yet.
* The static id counter `s_nextCmdId`, the private data `d` and the log of emitted Qt
  signals form a `World`; every member function is a function on that record.
* `QElapsedTimer` is modelled by passing the current time `now` to the functions that
  start or query the timer.
-/

namespace Digikam

/-! ## Byte arrays -/

/-- A byte array: one character per byte. -/
abbrev QByteArray := List Char

/-- The Qt member `QByteArray::startsWith`. -/
def startsWith (a p : QByteArray) : Bool := p.isPrefixOf a

/-- The Qt member `QByteArray::endsWith`. -/
def endsWith (a s : QByteArray) : Bool := s.isSuffixOf a

/-- The Qt member `QByteArray::contains(const QByteArray&)`: `needle` occurs in `a` as a
contiguous block. -/
def contains : QByteArray → QByteArray → Bool
  | [], needle => needle.isEmpty
  | c :: cs, needle => needle.isPrefixOf (c :: cs) || contains cs needle

/-- The Qt member `QByteArray::toLower`: ASCII upper-case letters become lower-case (Qt 5 also
lowers Latin-1 letters above 0x7f, which never yields an ASCII byte). -/
def toLower (a : QByteArray) : QByteArray := a.map Char.toLower

/-- The Qt member `QByteArray::mid(pos, len)` for `0 ≤ len`. -/
def mid (a : QByteArray) (pos len : Nat) : QByteArray := (a.drop pos).take len

/-- The Qt member `QByteArray::chop(n)`: drop the last `n` bytes (everything when `n` exceeds the size). -/
def chop (a : QByteArray) (n : Nat) : QByteArray := a.take (a.length - n)

/-- The Qt member `QByteArray::remove(pos, len)`. -/
def remove (a : QByteArray) (pos len : Nat) : QByteArray := a.take pos ++ a.drop (pos + len)

/-- The Qt member `QByteArray::rightJustified(width, fill)` without truncation. -/
def rightJustified (a : QByteArray) (width : Nat) (fill : Char) : QByteArray :=
  List.replicate (width - a.length) fill ++ a

/-- The Qt static `QByteArray::number(int)`: decimal digits, with a leading minus sign for
negative values. -/
def number (n : Int) : QByteArray :=
  if n < 0 then '-' :: Nat.toDigits 10 n.natAbs else Nat.toDigits 10 n.toNat

/-- White space skipped by the Qt number parser. -/
def isSpace (c : Char) : Bool :=
  c = ' ' || c = '\t' || c = '\n' || c = '\x0b' || c = '\x0c' || c = '\r'

/-- Value of a list of decimal digit characters, most significant first. -/
def decimalValue (ds : QByteArray) : Nat :=
  ds.foldl (fun acc c => 10 * acc + (c.toNat - 48)) 0

/-- The Qt member `QByteArray::toInt()` in base 10: optional surrounding white space, an optional
sign, at least one decimal digit and nothing else; the value must fit a 32-bit `int`.
Every failure yields 0. -/
def toInt (a : QByteArray) : Int :=
  let t := a.dropWhile isSpace
  let neg := t.head? = some '-'
  let u := if t.head? = some '-' ∨ t.head? = some '+' then t.tail else t
  let ds := u.takeWhile Char.isDigit
  let rest := (u.dropWhile Char.isDigit).dropWhile isSpace
  if ds.isEmpty || !rest.isEmpty then 0
  else
    let v : Int := if neg then - (decimalValue ds : Int) else (decimalValue ds : Int)
    if -2147483648 ≤ v ∧ v ≤ 2147483647 then v else 0

/-! ## Data model -/

/-- The enum `QProcess::ProcessState`. -/
inductive ProcessState
  | NotRunning
  | Starting
  | Running
  deriving DecidableEq, Repr

/-- The enum `QProcess::ProcessError`. -/
inductive ProcessError
  | FailedToStart
  | Crashed
  | Timedout
  | ReadError
  | WriteError
  | UnknownError
  deriving DecidableEq, Repr

/-- The enum `QProcess::ExitStatus`. -/
inductive ExitStatus
  | NormalExit
  | CrashExit
  deriving DecidableEq, Repr

/-- The enum `QProcess::ProcessChannel`: index 0 is standard output, index 1 standard error. -/
inductive ProcessChannel
  | StandardOutput
  | StandardError
  deriving DecidableEq, Repr

/-- The struct `ExifToolProcess::Private::Command`. -/
structure Command where
  id : Int
  argsStr : QByteArray
  deriving DecidableEq, Repr

/-- The child process handle `d->process`, as far as the driver observes it. -/
structure QProcess where
  /-- Value of `state()`. -/
  state : ProcessState
  /-- Every `start(program, args, ReadWrite)` call, oldest first. -/
  launched : List (String × List String)
  /-- Every chunk passed to `write`, oldest first. -/
  written : List QByteArray
  /-- Whether `closeWriteChannel()` was called since the last start. -/
  writeChannelClosed : Bool
  /-- Number of `terminate()` requests sent to the operating system. -/
  terminateRequests : Nat
  /-- Number of `kill()` requests sent to the operating system. -/
  killRequests : Nat
  /-- Complete lines waiting on standard output (`canReadLine` / `readLine`). -/
  unreadOut : List QByteArray
  /-- Complete lines waiting on standard error. -/
  unreadErr : List QByteArray
  deriving DecidableEq, Repr

/-- One slot of the arrays `outAwait[2]`, `outReady[2]`, `outBuff[2]`. -/
structure ChannelState where
  outAwait : Int
  outReady : Bool
  outBuff : QByteArray
  deriving DecidableEq, Repr

/-- The class `ExifToolProcess::Private`. -/
structure Private where
  etExePath : String
  perlExePath : String
  process : QProcess
  /-- Time at which `execTimer.start()` was last called. -/
  execTimer : Int
  cmdQueue : List Command
  cmdRunning : Int
  /-- Slot `[0]` of the per-channel arrays (standard output). -/
  out : ChannelState
  /-- Slot `[1]` of the per-channel arrays (standard error). -/
  err : ChannelState
  writeChannelIsClosed : Bool
  processError : ProcessError
  errorString : String
  deriving DecidableEq, Repr

/-- The Qt signals of `ExifToolProcess`. -/
inductive Signal
  | Started
  | StateChanged (newState : ProcessState)
  | ErrorOccurred (error : ProcessError)
  | Finished (exitCode : Int) (exitStatus : ExitStatus)
  | CmdCompleted (cmdId : Int) (execTime : Int) (cmdOutputChannel cmdErrorChannel : QByteArray)
  deriving DecidableEq, Repr

/-- One `ExifToolProcess` object together with the static counter it shares with every other
instance, and the signals it has emitted so far (oldest first). -/
structure World where
  s_nextCmdId : Int
  d : Private
  emitted : List Signal
  deriving DecidableEq, Repr

/-- The constant `Private::CMD_ID_MIN`. -/
def CMD_ID_MIN : Int := 1

/-- The constant `Private::CMD_ID_MAX`. -/
def CMD_ID_MAX : Int := 2000000000

/-- State of `d` after the constructor `Private()`, with a child handle that was never started. -/
def Private.new : Private :=
  { etExePath := ""
    perlExePath := ""
    process :=
      { state := ProcessState.NotRunning, launched := [], written := [],
        writeChannelClosed := false, terminateRequests := 0, killRequests := 0,
        unreadOut := [], unreadErr := [] }
    execTimer := 0
    cmdQueue := []
    cmdRunning := 0
    out := { outAwait := 0, outReady := false, outBuff := [] }
    err := { outAwait := 0, outReady := false, outBuff := [] }
    writeChannelIsClosed := true
    processError := ProcessError.UnknownError
    errorString := "" }

/-- A freshly constructed object at program start: the counter holds `CMD_ID_MIN`. -/
def World.new : World :=
  { s_nextCmdId := CMD_ID_MIN, d := Private.new, emitted := [] }

/-- Read access `array[channel]`. -/
def Private.chan (d : Private) : ProcessChannel → ChannelState
  | ProcessChannel.StandardOutput => d.out
  | ProcessChannel.StandardError => d.err

/-- Write access `array[channel] = ...`. -/
def Private.setChan (d : Private) (ch : ProcessChannel) (c : ChannelState) : Private :=
  match ch with
  | ProcessChannel.StandardOutput => { d with out := c }
  | ProcessChannel.StandardError => { d with err := c }

/-- Unread lines of the selected read channel. -/
def QProcess.unread (p : QProcess) : ProcessChannel → List QByteArray
  | ProcessChannel.StandardOutput => p.unreadOut
  | ProcessChannel.StandardError => p.unreadErr

/-- Replace the unread lines of the selected read channel. -/
def QProcess.setUnread (p : QProcess) (ch : ProcessChannel) (ls : List QByteArray) : QProcess :=
  match ch with
  | ProcessChannel.StandardOutput => { p with unreadOut := ls }
  | ProcessChannel.StandardError => { p with unreadErr := ls }

/-! ## Command submission -/

/-- Characters that can occur in the two await directives. -/
def framingAlphabet : List Char := "-echo12\n\x7bawait\x7d0123456789".toList

/-- The condition of lines 338-341 of `command` on the text built so far. -/
def quietOrTable (cmdStr : QByteArray) : Bool :=
  contains cmdStr "-q".toList || contains (toLower cmdStr) "-quiet".toList ||
    contains cmdStr "-T".toList || contains (toLower cmdStr) "-table".toList

/-- Lines 320-347 of `command`: the script built for `cmdId` and `args`. -/
def buildScript (cmdId : Int) (args : List QByteArray) : QByteArray :=
  let cmdIdStr := rightJustified (number cmdId) 10 '0'
  let cmdStr : QByteArray := (args.map (fun arg => arg ++ ['\n'])).flatten
  let cmdStr := cmdStr ++ ("-echo1\n\x7bawait".toList ++ cmdIdStr ++ "\x7d\n".toList)
  let cmdStr := cmdStr ++ ("-echo2\n\x7bawait".toList ++ cmdIdStr ++ "\x7d\n".toList)
  let cmdStr :=
    if quietOrTable cmdStr then cmdStr ++ "-echo3\n\x7bready\x7d\n".toList else cmdStr
  let cmdStr := cmdStr ++ "-echo4\n\x7bready\x7d\n".toList
  cmdStr ++ "-execute\n".toList

/-- The member `ExifToolProcess::execNextCmd`. -/
def execNextCmd (d : Private) (now : Int) : Private :=
  if d.process.state ≠ ProcessState.Running ∨ d.writeChannelIsClosed = true then d
  else if d.cmdRunning ≠ 0 ∨ d.cmdQueue.isEmpty = true then d
  else
    match d.cmdQueue with
    | [] => d
    | command :: queue =>
      { d with
        process :=
          { d.process with
            unreadOut := [], unreadErr := [],
            written := d.process.written ++ [command.argsStr] }
        out := { outAwait := 0, outReady := false, outBuff := [] }
        err := { outAwait := 0, outReady := false, outBuff := [] }
        execTimer := now
        cmdQueue := queue
        cmdRunning := command.id }

/-- Lines 313-316 of `command`: the counter after `s_nextCmdId++` and the wrap-around test on
its previous value `s`. -/
def nextCmdId (s : Int) : Int :=
  if s ≥ CMD_ID_MAX then CMD_ID_MIN else s + 1

/-- The member `ExifToolProcess::command`: the returned id and the state afterwards. -/
def command (w : World) (now : Int) (args : List QByteArray) : Int × World :=
  if w.d.process.state ≠ ProcessState.Running ∨ w.d.writeChannelIsClosed = true ∨ args.isEmpty = true then
    (0, w)
  else
    let cmdId := w.s_nextCmdId
    let next := nextCmdId w.s_nextCmdId
    let command : Command := { id := cmdId, argsStr := buildScript cmdId args }
    let d := { w.d with cmdQueue := w.d.cmdQueue ++ [command] }
    (cmdId, { w with s_nextCmdId := next, d := execNextCmd d now })

/-! ## Reading the child's output -/

/-- Lines 445-448 of `readOutput`: a trailing `\r\n` loses its `\r`. -/
def normalizeLine (line : QByteArray) : QByteArray :=
  if endsWith line "\r\n".toList then remove line (line.length - 2) 1 else line

/-- The `while` loop of `readOutput` (lines 441-471) on one channel: the channel slot and the
unread lines when the loop ends. -/
def readLines (c : ChannelState) : List QByteArray → ChannelState × List QByteArray
  | [] => (c, [])
  | raw :: rest =>
    if c.outReady then (c, raw :: rest)
    else
      let line := normalizeLine raw
      if c.outAwait = 0 then
        if startsWith line "\x7bawait".toList && endsWith line "\x7d\n".toList then
          readLines { c with outAwait := toInt (mid line 6 (line.length - 8)) } rest
        else readLines c rest
      else
        let buff := c.outBuff ++ line
        if endsWith line "\x7bready\x7d\n".toList then
          ({ c with outBuff := chop buff 8, outReady := true }, rest)
        else readLines { c with outBuff := buff } rest

/-- State of `d` when the `while` loop of `readOutput(channel)` has ended. -/
def readLoop (d : Private) (channel : ProcessChannel) : Private :=
  let r := readLines (d.chan channel) (d.process.unread channel)
  { d.setChan channel r.1 with process := d.process.setUnread channel r.2 }

/-- Conversion of a `qint64` to `int`, as applied to an argument passed for an `int` parameter:
the value modulo 2^32, taken in the range of a 32-bit `int`. -/
def toInt32 (x : Int) : Int := (x + 2147483648) % 4294967296 - 2147483648

/-- The member `ExifToolProcess::readOutput`. The value of `d->execTimer.elapsed()`, a `qint64`,
is `now - d.execTimer`; it is passed for the parameter `int execTime` of `signalCmdCompleted`. -/
def readOutput (w : World) (channel : ProcessChannel) (now : Int) : World :=
  let d := readLoop w.d channel
  if !(d.out.outReady && d.err.outReady) then { w with d := d }
  else
    let emitted :=
      if d.cmdRunning ≠ d.out.outAwait ∨ d.cmdRunning ≠ d.err.outAwait then w.emitted
      else
        w.emitted ++
          [Signal.CmdCompleted d.cmdRunning (toInt32 (now - d.execTimer)) d.out.outBuff
            d.err.outBuff]
    { w with d := execNextCmd { d with cmdRunning := 0 } now, emitted := emitted }

/-! ## Life cycle -/

/-- The member `ExifToolProcess::setProcessErrorAndEmit`. -/
def setProcessErrorAndEmit (w : World) (error : ProcessError) (description : String) : World :=
  { w with
    d := { w.d with processError := error, errorString := description }
    emitted := w.emitted ++ [Signal.ErrorOccurred error] }

/-- The member `ExifToolProcess::setProgram`. -/
def setProgram (w : World) (etExePath perlExePath : String) : World :=
  if w.d.process.state ≠ ProcessState.NotRunning then w
  else { w with d := { w.d with etExePath := etExePath, perlExePath := perlExePath } }

/-- The member `ExifToolProcess::start`. The file system is consulted through `fileExists`
(`QFile::exists`) and `exeUser` (`QFile::permissions(path) & QFile::ExeUser`). The call
`d->process->start` moves the handle to `Starting`, which is reported through
`slotStateChanged`. -/
def start (w : World) (fileExists exeUser : String → Bool) : World :=
  if w.d.process.state ≠ ProcessState.NotRunning then w
  else if !fileExists w.d.etExePath || !exeUser w.d.etExePath then
    setProcessErrorAndEmit w ProcessError.FailedToStart
      "ExifTool does not exists or exec permission is missing"
  else if !w.d.perlExePath.isEmpty && (!fileExists w.d.perlExePath || !exeUser w.d.perlExePath) then
    setProcessErrorAndEmit w ProcessError.FailedToStart
      "Perl does not exists or exec permission is missing"
  else
    let program := if !w.d.perlExePath.isEmpty then w.d.perlExePath else w.d.etExePath
    let args : List String := if !w.d.perlExePath.isEmpty then [w.d.etExePath] else []
    let args := args ++ ["-stay_open", "true", "-@", "-"]
    { w with
      d :=
        { w.d with
          cmdQueue := []
          cmdRunning := 0
          processError := ProcessError.UnknownError
          errorString := ""
          writeChannelIsClosed := false
          process :=
            { w.d.process with
              state := ProcessState.Starting
              launched := w.d.process.launched ++ [(program, args)]
              writeChannelClosed := false
              unreadOut := []
              unreadErr := [] } }
      emitted := w.emitted ++ [Signal.StateChanged ProcessState.Starting] }

/-- The slot `ExifToolProcess::terminate`. -/
def terminate (w : World) : World :=
  if w.d.process.state = ProcessState.Running then
    { w with
      d :=
        { w.d with
          cmdQueue := []
          writeChannelIsClosed := true
          process :=
            { w.d.process with
              written := w.d.process.written ++ ["-stay_open\nfalse\n".toList]
              writeChannelClosed := true } } }
  else
    { w with
      d :=
        { w.d with
          process :=
            { w.d.process with terminateRequests := w.d.process.terminateRequests + 1 } } }

/-- The slot `ExifToolProcess::kill`. -/
def kill (w : World) : World :=
  { w with
    d := { w.d with process := { w.d.process with killRequests := w.d.process.killRequests + 1 } } }

/-- The slot `ExifToolProcess::slotStarted`. -/
def slotStarted (w : World) : World :=
  { w with emitted := w.emitted ++ [Signal.Started] }

/-- The slot `ExifToolProcess::slotFinished`. -/
def slotFinished (w : World) (exitCode : Int) (exitStatus : ExitStatus) : World :=
  { w with
    d := { w.d with cmdRunning := 0 }
    emitted := w.emitted ++ [Signal.Finished exitCode exitStatus] }

/-- The slot `ExifToolProcess::slotStateChanged`. -/
def slotStateChanged (w : World) (newState : ProcessState) : World :=
  { w with emitted := w.emitted ++ [Signal.StateChanged newState] }

/-- The slot `ExifToolProcess::slotErrorOccurred`; `description` is `d->process->errorString()`. -/
def slotErrorOccurred (w : World) (error : ProcessError) (description : String) : World :=
  setProcessErrorAndEmit w error description

/-- The member `ExifToolProcess::isBusy`. -/
def isBusy (w : World) : Bool := w.d.cmdRunning ≠ 0

/-- The member `ExifToolProcess::isRunning`. -/
def isRunning (w : World) : Bool := w.d.process.state = ProcessState.Running

/-! ## Executions -/

/-- What can happen to one `ExifToolProcess` object: calls of its public members, events of the
child process handle delivered to its slots, and id allocations by other instances of the class. -/
inductive Op
  | setProgram (etExePath perlExePath : String)
  | start (fileExists exeUser : String → Bool)
  | terminate
  | kill
  | command (now : Int) (args : List QByteArray)
  /-- Another instance has a `command()` call accepted: it takes one id from the shared counter. -/
  | otherInstanceCommand
  /-- The child reports that it is running: `stateChanged(Running)` and `started()`. -/
  | processStarted
  /-- The child could not be launched: `errorOccurred(FailedToStart)`, back to `NotRunning`. -/
  | processFailedToStart (description : String)
  /-- A read or write error on the pipes: `errorOccurred(error)`. -/
  | processError (error : ProcessError) (description : String)
  /-- The child has exited: `stateChanged(NotRunning)` and `finished(exitCode, exitStatus)`. -/
  | processFinished (exitCode : Int) (exitStatus : ExitStatus)
  /-- The child has produced complete lines on one channel. -/
  | childOutput (channel : ProcessChannel) (lines : List QByteArray)
  /-- Delivery of `readyReadStandardOutput` / `readyReadStandardError`. -/
  | readyRead (channel : ProcessChannel) (now : Int)

/-- The precondition of `command`: the call is accepted. -/
def accepts (w : World) (args : List QByteArray) : Bool :=
  w.d.process.state = ProcessState.Running && !w.d.writeChannelIsClosed && !args.isEmpty

/-- An execution: the current state with two observation logs. -/
structure Execution where
  world : World
  /-- Commands accepted by `command()` so far (returned id and script), oldest first. -/
  accepted : List Command
  /-- Number of ids taken from the shared counter so far, by all instances. -/
  allocated : Nat

/-- The execution at program start. -/
def Execution.new : Execution :=
  { world := World.new, accepted := [], allocated := 0 }

/-- One step of an execution. -/
def step (e : Execution) : Op → Execution
  | Op.setProgram etExePath perlExePath =>
    { e with world := setProgram e.world etExePath perlExePath }
  | Op.start fileExists exeUser => { e with world := start e.world fileExists exeUser }
  | Op.terminate => { e with world := terminate e.world }
  | Op.kill => { e with world := kill e.world }
  | Op.command now args =>
    let r := command e.world now args
    if accepts e.world args then
      { world := r.2
        accepted := e.accepted ++ [{ id := r.1, argsStr := buildScript r.1 args }]
        allocated := e.allocated + 1 }
    else { e with world := r.2 }
  | Op.otherInstanceCommand =>
    { e with
      world := { e.world with s_nextCmdId := nextCmdId e.world.s_nextCmdId }
      allocated := e.allocated + 1 }
  | Op.processStarted =>
    if e.world.d.process.state = ProcessState.Starting then
      let w := e.world
      let w := { w with d := { w.d with process := { w.d.process with state := ProcessState.Running } } }
      { e with world := slotStarted (slotStateChanged w ProcessState.Running) }
    else e
  | Op.processFailedToStart description =>
    if e.world.d.process.state = ProcessState.Starting then
      let w := slotErrorOccurred e.world ProcessError.FailedToStart description
      let w := { w with d := { w.d with process := { w.d.process with state := ProcessState.NotRunning } } }
      { e with world := slotStateChanged w ProcessState.NotRunning }
    else e
  | Op.processError error description =>
    { e with world := slotErrorOccurred e.world error description }
  | Op.processFinished exitCode exitStatus =>
    if e.world.d.process.state = ProcessState.Running then
      let w := e.world
      let w :=
        if exitStatus = ExitStatus.CrashExit then
          slotErrorOccurred w ProcessError.Crashed "Process crashed"
        else w
      let w := { w with d := { w.d with process := { w.d.process with state := ProcessState.NotRunning } } }
      { e with world := slotFinished (slotStateChanged w ProcessState.NotRunning) exitCode exitStatus }
    else e
  | Op.childOutput channel lines =>
    if e.world.d.process.state = ProcessState.Running then
      let p := e.world.d.process
      { e with
        world := { e.world with d := { e.world.d with process := p.setUnread channel (p.unread channel ++ lines) } } }
    else e
  | Op.readyRead channel now => { e with world := readOutput e.world channel now }

/-- The execution after the operations `ops`, oldest first. -/
def run (e : Execution) (ops : List Op) : Execution := ops.foldl step e

/-- Ids carried by the command-completed signals of a signal log, oldest first. -/
def completedIds : List Signal → List Int
  | [] => []
  | Signal.CmdCompleted cmdId _ _ _ :: rest => cmdId :: completedIds rest
  | _ :: rest => completedIds rest

/-- Ids of the commands that were submitted and have not completed: the running one, then the queue. -/
def pendingIds (d : Private) : List Int :=
  (if d.cmdRunning ≠ 0 then [d.cmdRunning] else []) ++ d.cmdQueue.map Command.id

/-- A sequence of `command()` calls, each on some instance of the class (`inst`, whose own
counter field is ignored), all sharing the static counter that starts at `s`. For every call:
whether it was accepted, the value it returned, and the counter afterwards. -/
def callSequence (s : Int) : List (World × Int × List QByteArray) → List (Bool × Int × Int)
  | [] => []
  | (inst, now, args) :: rest =>
    let r := command { inst with s_nextCmdId := s } now args
    (accepts inst args, r.1, r.2.s_nextCmdId) :: callSequence r.2.s_nextCmdId rest

/-- Ids returned by the accepted calls of a call sequence, in call order. -/
def acceptedIds : List (Bool × Int × Int) → List Int
  | [] => []
  | (true, cmdId, _) :: rest => cmdId :: acceptedIds rest
  | (false, _, _) :: rest => acceptedIds rest

/-- The relation between the ids of two consecutive accepted submissions. -/
def NextId (a b : Int) : Prop :=
  (a < 2000000000 → b = a + 1) ∧ (a = 2000000000 → b = 1)

/-- The object of `World.new` once its helper has been launched and reports that it runs. -/
def World.started : World :=
  (run Execution.new
    [Op.setProgram "exiftool" "", Op.start (fun _ => true) (fun _ => true),
      Op.processStarted]).world

/-- The started object with one accepted command, which is in flight. -/
def World.busy : World :=
  (command World.started 0 ["-json".toList, "a.jpg".toList]).2

/-- The object of `World.busy` once the helper has answered on both channels and the driver has
read standard output; standard error is still unread. -/
def World.stdoutRead : World :=
  (run { world := World.busy, accepted := [], allocated := 1 }
    [Op.childOutput ProcessChannel.StandardOutput
        ["\x7bawait0000000001\x7d\n".toList, "[\x7b\"SourceFile\":\"a.jpg\"\x7d]\n".toList,
          "\x7bready\x7d\n".toList],
      Op.childOutput ProcessChannel.StandardError
        ["\x7bawait0000000001\x7d\n".toList, "\x7bready\x7d\n".toList],
      Op.readyRead ProcessChannel.StandardOutput 3]).world

/-- Invariant of the allocator and the pending commands while the counter has not wrapped:
the counter is one more than the number of ids handed out, and the pending ids are strictly
increasing and below the counter. -/
def FreshIds (e : Execution) : Prop :=
  (e.allocated : Int) < CMD_ID_MAX →
    e.world.s_nextCmdId = 1 + (e.allocated : Int) ∧
      (pendingIds e.world.d).Pairwise (· < ·) ∧
      ∀ p ∈ pendingIds e.world.d, p < e.world.s_nextCmdId

/-- The chunk written by `terminate`. -/
def stayOpenFalse : QByteArray := "-stay_open\nfalse\n".toList

/-- The scripts among the chunks written to the child: everything but the chunk of `terminate`. -/
def scriptsWritten (written : List QByteArray) : List QByteArray :=
  written.filter (fun chunk => decide (chunk ≠ stayOpenFalse))

/-- Invariant relating the dispatched commands `disp` (a proof-only history) to the state. -/
def InOrder (d : Private) (emitted : List Signal) (accepted : List Command) : Prop :=
  (d.out.outReady = true → d.out.outAwait ≠ 0) ∧
    (d.err.outReady = true → d.err.outAwait ≠ 0) ∧
    (∀ c ∈ accepted, c.argsStr ≠ stayOpenFalse) ∧
    ∃ disp : List Command,
      scriptsWritten d.process.written = disp.map Command.argsStr ∧
        (disp ++ d.cmdQueue).Sublist accepted ∧
        (completedIds emitted).Sublist (disp.map Command.id) ∧
        (d.cmdRunning ≠ 0 →
          ∃ (init : List Command) (last : Command),
            disp = init ++ [last] ∧ last.id = d.cmdRunning ∧
              (completedIds emitted).Sublist (init.map Command.id))

/-- A reference point of an execution: the running id, the queue, the scripts written, the
completed ids and the accepted commands at that point. -/
structure Baseline where
  running : Int
  queue : List Command
  scripts : List QByteArray
  completed : List Int
  accepted : List Command

/-- The reference point given by the current state of an execution. -/
def Execution.baseline (e : Execution) : Baseline :=
  { running := e.world.d.cmdRunning
    queue := e.world.d.cmdQueue
    scripts := scriptsWritten e.world.d.process.written
    completed := completedIds e.world.emitted
    accepted := e.accepted }

/-- The id in flight at a reference point, as a list. -/
def Baseline.inFlight (b : Baseline) : List Int :=
  if b.running ≠ 0 then [b.running] else []

/-- Invariant relating a state to an earlier reference point `b`: `later` are the commands
accepted since, `disp` the commands dispatched since and `newIds` the ids completed since
(proof-only histories). -/
def InOrderFrom (b : Baseline) (d : Private) (emitted : List Signal) (accepted : List Command) :
    Prop :=
  (d.out.outReady = true → d.out.outAwait ≠ 0) ∧
    (d.err.outReady = true → d.err.outAwait ≠ 0) ∧
    ∃ (disp later : List Command) (newIds : List Int),
      accepted = b.accepted ++ later ∧
        (∀ c ∈ b.queue ++ later, c.argsStr ≠ stayOpenFalse) ∧
        scriptsWritten d.process.written = b.scripts ++ disp.map Command.argsStr ∧
        (disp ++ d.cmdQueue).Sublist (b.queue ++ later) ∧
        completedIds emitted = b.completed ++ newIds ∧
        newIds.Sublist (b.inFlight ++ disp.map Command.id) ∧
        (d.cmdRunning ≠ 0 →
          (disp = [] ∧ d.cmdRunning = b.running ∧ newIds = []) ∨
            ∃ (init : List Command) (last : Command),
              disp = init ++ [last] ∧ last.id = d.cmdRunning ∧
                newIds.Sublist (b.inFlight ++ init.map Command.id))

/-- Invariant of an execution whose child has exited and has not been started again, relative
to a reference point `b`: nothing was written, completed or accepted since `b`. -/
def StoppedSince (b : Baseline) (e : Execution) : Prop :=
  e.world.d.process.state = ProcessState.NotRunning ∧ e.world.d.cmdRunning = 0 ∧
    (e.world.d.out.outReady = true → e.world.d.out.outAwait ≠ 0) ∧
    (e.world.d.err.outReady = true → e.world.d.err.outAwait ≠ 0) ∧
    scriptsWritten e.world.d.process.written = b.scripts ∧
    completedIds e.world.emitted = b.completed ∧ e.accepted = b.accepted

/-- Whether an operation is a call of `start()`. -/
def Op.isStart : Op → Bool
  | Op.start _ _ => true
  | _ => false

/-- The lines of one channel hold a frame for id `N` with content `buff`: lines that are not await
markers, then an await marker whose payload parses to `N`, then payload lines, then a line ending
with the ready marker; every line is taken after the line-ending normalisation. -/
def Frame (lines : List QByteArray) (N : Int) (buff : QByteArray) : Prop :=
  ∃ (pre payload later : List QByteArray) (awaitLine readyLine t s : QByteArray),
    lines = pre ++ awaitLine :: (payload ++ readyLine :: later) ∧
      (∀ l ∈ pre, (startsWith (normalizeLine l) "\x7bawait".toList &&
        endsWith (normalizeLine l) "\x7d\n".toList) = false) ∧
      normalizeLine awaitLine = "\x7bawait".toList ++ t ++ "\x7d\n".toList ∧
      toInt t = N ∧
      (∀ p ∈ payload, endsWith (normalizeLine p) "\x7bready\x7d\n".toList = false) ∧
      normalizeLine readyLine = s ++ "\x7bready\x7d\n".toList ∧
      buff = (payload.map normalizeLine).flatten ++ s

/-! ## The JSON response adapter (`src/exiftoolparser.cpp`) -/

/-- A `QString`: one character per code unit. -/
abbrev QString := List Char

/-- The Qt member `QString::split(sep)` with the default `KeepEmptyParts`. -/
def split (sep : Char) : QString → List QString
  | [] => [[]]
  | c :: cs =>
    if c = sep then [] :: split sep cs
    else
      match split sep cs with
      | [] => [[c]]
      | part :: parts => (c :: part) :: parts

/-- A place marker of `QString::arg` right after a `%`: an optional `L`, then one or two decimal
digits. The result is the marker number and the number of characters after the `%` that belong
to the marker. (`QChar::digitValue` is taken on ASCII digits.) -/
def markerAt (rest : QString) : Option (Nat × Nat) :=
  let r := match rest with
    | 'L' :: r' => (r', 1)
    | _ => (rest, 0)
  match r.1 with
  | [] => none
  | c :: r1 =>
    if c.isDigit then
      match r1 with
      | [] => some (c.toNat - 48, r.2 + 1)
      | c2 :: _ =>
        if c2.isDigit then some (10 * (c.toNat - 48) + (c2.toNat - 48), r.2 + 2)
        else some (c.toNat - 48, r.2 + 1)
    else none

/-- The numbers of the place markers of a string, in order (`findArgEscapes`). -/
def argEscapes : QString → List Nat
  | [] => []
  | c :: rest =>
    if c = '%' then
      match markerAt rest with
      | some (escape, _) => escape :: argEscapes rest
      | none => argEscapes rest
    else argEscapes rest

/-- Copy of a string in which every place marker numbered `minEscape` is replaced by `a`
(`replaceArgEscapes`); `skip` counts the characters of a replaced marker still to be dropped. -/
def replaceArgEscapes (minEscape : Nat) (a : QString) : Nat → QString → QString
  | _, [] => []
  | skip + 1, _ :: rest => replaceArgEscapes minEscape a skip rest
  | 0, c :: rest =>
    if c = '%' then
      match markerAt rest with
      | some (escape, len) =>
        if escape = minEscape then a ++ replaceArgEscapes minEscape a len rest
        else c :: replaceArgEscapes minEscape a 0 rest
      | none => c :: replaceArgEscapes minEscape a 0 rest
    else c :: replaceArgEscapes minEscape a 0 rest

/-- The Qt member `QString::arg(const QString&)`: every occurrence of the lowest numbered place
marker is replaced by `a`; a string without place marker is returned unchanged. -/
def arg (s a : QString) : QString :=
  match (argEscapes s).min? with
  | none => s
  | some minEscape => replaceArgEscapes minEscape a 0 s

/-- A `QVariant` as produced from JSON by `toVariantMap`. -/
inductive QVariant
  /-- An invalid variant (JSON `null`, or a missing value). -/
  | invalid
  | string (s : QString)
  /-- A boolean or a number; `text` is what `toString()` returns for it. -/
  | scalar (text : QString)
  | list (items : List QVariant)
  | map (members : List (QString × QVariant))

/-- The Qt member `QVariant::toString`. -/
def QVariant.toString : QVariant → QString
  | QVariant.string s => s
  | QVariant.scalar text => text
  | _ => []

/-- The Qt member `QVariant::toMap`. -/
def QVariant.toMap : QVariant → List (QString × QVariant)
  | QVariant.map members => members
  | _ => []

/-- The call `propsMap.find(key).value()`: the value stored under `key`; dereferencing the end
iterator of a map without that key is undefined, which is `none` here. -/
def findValue (propsMap : List (QString × QVariant)) (key : QString) : Option QVariant :=
  (propsMap.find? (fun member => member.1 = key)).map (fun member => member.2)

/-- The type `ExifToolParser::TagsMap`, a `QHash<QString, QVariantList>`; the properties of a tag
are strings in raw mode. -/
structure TagsMap where
  entries : List (QString × List QString)
  deriving DecidableEq, Repr

/-- The Qt member `QHash::insert`: the value of an existing key is replaced. -/
def TagsMap.insert (m : TagsMap) (key : QString) (value : List QString) : TagsMap :=
  { entries := (key, value) :: m.entries.filter (fun entry => decide (entry.1 ≠ key)) }

/-- The properties stored under `key`, if any (`QHash::find`). -/
def TagsMap.find (m : TagsMap) (key : QString) : Option (List QString) :=
  (m.entries.find? (fun entry => entry.1 = key)).map (fun entry => entry.2)

/-- The Qt member `QHash::keys`. -/
def TagsMap.keys (m : TagsMap) : List QString := m.entries.map (fun entry => entry.1)

/-- The Qt member `QHash::size`. -/
def TagsMap.size (m : TagsMap) : Nat := m.entries.length

/-- The class `ExifToolParser::Private` (without the process and event loop pointers). -/
structure ExifToolParser.Private where
  translate : Bool
  parsedPath : QString
  parsedMap : TagsMap
  ignoredMap : TagsMap
  deriving DecidableEq, Repr

/-- State of `d` after the constructor `Private()`. -/
def ExifToolParser.Private.new : ExifToolParser.Private :=
  { translate := true, parsedPath := [], parsedMap := { entries := [] },
    ignoredMap := { entries := [] } }

/-- The member `ExifToolParser::setTranslations`. -/
def ExifToolParser.setTranslations (d : ExifToolParser.Private) (b : Bool) :
    ExifToolParser.Private :=
  { d with translate := b }

/-- The expression `QString::fromLatin1("%1.%2.%3.%4").arg(a).arg(b).arg(c).arg(e)` of lines
213-217 and 222-226. -/
def tagName (a b c e : QString) : QString :=
  arg (arg (arg (arg "%1.%2.%3.%4".toList a) b) c) e

/-- Lines 238-346 of `slotCmdCompleted`: the properties of one tag are read and, in raw mode,
stored. -/
def ExifToolParser.storeTag (d : ExifToolParser.Private) (tagNameExifTool tagType : QString)
    (value : QVariant) : Option ExifToolParser.Private :=
  let propsMap := value.toMap
  match findValue propsMap "val".toList, findValue propsMap "desc".toList with
  | some val, some descValue =>
    let data := val.toString
    let desc := descValue.toString
    if d.translate then some d
    else
      let data := if startsWith data "base64:".toList then "binary data...".toList else data
      some { d with parsedMap := d.parsedMap.insert tagNameExifTool [[], data, tagType, desc] }
  | _, _ => none

/-- The body of the loop of `slotCmdCompleted` (lines 207-346) for one member of the JSON
object; `none` when the source dereferences an end iterator. -/
def ExifToolParser.processEntry (d : ExifToolParser.Private) (key : QString)
    (value : QVariant) : Option ExifToolParser.Private :=
  match split ':' key with
  | [s0, s1, s2, s3, s4] => ExifToolParser.storeTag d (tagName s0 s1 s2 s4) s3 value
  | [s0, s1, s2, s3] => ExifToolParser.storeTag d (tagName s0 s1 s2 s3) [] value
  | s0 :: _ =>
    if s0 = "SourceFile".toList then some { d with parsedPath := value.toString } else some d
  | [] => some d

/-- The loop of `slotCmdCompleted` over the members of the JSON object, in iteration order. -/
def ExifToolParser.processEntries (d : ExifToolParser.Private) :
    List (QString × QVariant) → Option ExifToolParser.Private
  | [] => some d
  | (key, value) :: rest =>
    match ExifToolParser.processEntry d key value with
    | some d' => ExifToolParser.processEntries d' rest
    | none => none

/-- A `QJsonDocument` as returned by `QJsonDocument::fromJson`. -/
inductive QJsonDocument
  /-- The null document of a parse failure. -/
  | null
  | array (items : List QVariant)
  | object (members : List (QString × QVariant))

/-- The expression `jsonDoc.array().at(0).toObject().toVariantMap()` of lines 200-202. -/
def QJsonDocument.firstObject : QJsonDocument → List (QString × QVariant)
  | QJsonDocument.array (QVariant.map members :: _) => members
  | _ => []

/-- The slot `ExifToolParser::slotCmdCompleted`; `fromJson` is `QJsonDocument::fromJson`. -/
def ExifToolParser.slotCmdCompleted (fromJson : QByteArray → QJsonDocument)
    (d : ExifToolParser.Private) (stdOut : QByteArray) : Option ExifToolParser.Private :=
  ExifToolParser.processEntries d (fromJson stdOut).firstObject

/-- The strings of a list joined by dots. -/
def joinDots : List QString → QString
  | [] => []
  | [s] => s
  | s :: rest => s ++ '.' :: joinDots rest

/-- Whether a key has four or five colon-separated segments. -/
def isTagKey (key : QString) : Bool :=
  (split ':' key).length = 4 || (split ':' key).length = 5

/-- The segments `g0, g1, g2, name` of a key with four or five segments. -/
def keySegments (key : QString) : List QString :=
  match split ':' key with
  | [s0, s1, s2, _, s4] => [s0, s1, s2, s4]
  | [s0, s1, s2, s3] => [s0, s1, s2, s3]
  | _ => []

/-- The type segment of a key: the fourth of five segments, empty for four segments. -/
def keyType (key : QString) : QString :=
  match split ':' key with
  | [_, _, _, s3, _] => s3
  | _ => []

/-- Whether a JSON value is an object with members `val` and `desc`. -/
def hasProps (value : QVariant) : Bool :=
  (findValue value.toMap "val".toList).isSome && (findValue value.toMap "desc".toList).isSome

/-- The raw value stored for the JSON member `val` (lines 336-339). -/
def rawData (data : QString) : QString :=
  if startsWith data "base64:".toList then "binary data...".toList else data

/-- The dotted names of the keys with four or five segments among the members of a JSON object,
in iteration order. -/
def tagNames (entries : List (QString × QVariant)) : List QString :=
  (entries.filter (fun entry => isTagKey entry.1)).map (fun entry => joinDots (keySegments entry.1))

/-- Lines 121-123 of `ExifToolParser::load`: the results of the previous call are cleared before
the command is sent. -/
def ExifToolParser.clearResults (d : ExifToolParser.Private) : ExifToolParser.Private :=
  { d with parsedPath := [], parsedMap := { entries := [] }, ignoredMap := { entries := [] } }

/-- The object `d` with other leftovers of earlier commands: the per-channel buffers, awaited
ids and ready flags, and the lines of the child not read yet. -/
def Private.withLeftovers (d : Private) (out err : ChannelState)
    (unreadOut unreadErr : List QByteArray) : Private :=
  { d with
    out := out
    err := err
    process := { d.process with unreadOut := unreadOut, unreadErr := unreadErr } }

/-- The Qt member `QByteArray::count(const QByteArray&)`: the number of (possibly overlapping)
occurrences of `needle` in `a`. -/
def count : QByteArray → QByteArray → Nat
  | [], needle => if needle.isEmpty then 1 else 0
  | c :: cs, needle => (if needle.isPrefixOf (c :: cs) then 1 else 0) + count cs needle

/-- The text `-echo<k>\n{await<cmdIdStr>}\n` appended by `command` (lines 334-335) for the
channel digit `k` (`1` for standard output, `2` for standard error). -/
def awaitDirective (k : Char) (cmdId : Int) : QByteArray :=
  "-echo".toList ++ k :: ("\n\x7bawait".toList ++ rightJustified (number cmdId) 10 '0' ++
    "\x7d\n".toList)

/-- The execution right after the most recent launch of the child (a `start()` that reached
`d->process->start`) along the operations `ops` from `e`; `mark` when `ops` launches nothing. -/
def lastLaunch (e mark : Execution) : List Op → Execution
  | [] => mark
  | op :: ops =>
    if (step e op).world.d.process.launched.length = e.world.d.process.launched.length then
      lastLaunch (step e op) mark ops
    else lastLaunch (step e op) (step e op) ops

/-- The scripts written to the child since its last launch, along `ops` from program start. -/
def scriptsSinceStart (ops : List Op) : List QByteArray :=
  (scriptsWritten (run Execution.new ops).world.d.process.written).drop
    (scriptsWritten
      (lastLaunch Execution.new Execution.new ops).world.d.process.written).length

/-- Invariant relating the running id to the scripts written since the last launch; `base` are
the scripts written before that launch and `extra` the scripts written since. -/
def SinceLaunch (base : List QByteArray) (d : Private) (s : Int) : Prop :=
  1 ≤ s ∧ s ≤ 2000000000 ∧
    (∀ c ∈ d.cmdQueue, c.id ≠ 0 ∧ c.argsStr ≠ stayOpenFalse) ∧
    ∃ extra : List QByteArray,
      scriptsWritten d.process.written = base ++ extra ∧
        (d.process.state = ProcessState.Starting → extra = []) ∧
        (d.cmdRunning ≠ 0 →
          d.process.state = ProcessState.Running ∧ extra ≠ [] ∧
            (d.out.outReady && d.err.outReady) = false) ∧
        (d.process.state = ProcessState.Running → extra ≠ [] →
          (d.out.outReady && d.err.outReady) = false → d.cmdRunning ≠ 0)

/-- Whether an operation is the arrival of lines from the child or the delivery of a `readyRead`
signal. -/
def Op.isIo : Op → Bool
  | Op.childOutput _ _ => true
  | Op.readyRead _ _ => true
  | _ => false

/-- The lines that the child produces on `channel` during `ops`, in order of arrival. -/
def delivered (channel : ProcessChannel) : List Op → List QByteArray
  | [] => []
  | Op.childOutput ch lines :: ops =>
    if ch = channel then lines ++ delivered channel ops else delivered channel ops
  | _ :: ops => delivered channel ops

/-- Whether at the end of `ops` every line that arrived on `channel` has been followed by the
delivery of `readyRead` for that channel (Qt signals `readyRead` whenever new data is available);
`pending` tells whether lines wait for such a delivery at the start. -/
def readAfter (channel : ProcessChannel) (pending : Bool) : List Op → Bool
  | [] => !pending
  | Op.childOutput ch _ :: ops => readAfter channel (pending || decide (ch = channel)) ops
  | Op.readyRead ch _ :: ops => readAfter channel (pending && decide (ch ≠ channel)) ops
  | _ :: ops => readAfter channel pending ops

/-- Invariant of one channel while a frame arrives in pieces: the slot and the unread lines,
continued with the lines still to arrive during `ops`, lead to the slot `target`; when nothing
is pending the read loop has nothing left to do; and every arrival during `ops` is followed by a
`readyRead` of the channel. -/
def Arriving (d : Private) (channel : ProcessChannel) (pending : Bool) (ops : List Op)
    (target : ChannelState) : Prop :=
  (readLines (d.chan channel) (d.process.unread channel ++ delivered channel ops)).1 = target ∧
    (pending = false →
      readLines (d.chan channel) (d.process.unread channel) =
        (d.chan channel, d.process.unread channel)) ∧
    readAfter channel pending ops = true

/-- The id that the shared counter hands out after `n` ids have been taken from it since program
start: ids count up from `CMD_ID_MIN` and start again after `CMD_ID_MAX`. -/
def idAt (n : Nat) : Int := 1 + ((n % 2000000000 : Nat) : Int)

/-- Observation of one step: for every command pending after the step (the running one first,
then the queue), the number of ids that had been taken from the shared counter when it was
accepted; `since` is that list before the step. An accepted `command()` appends the current
count. The running command leaves the list when `cmdRunning` is cleared (`readOutput` with both
channels ready, `slotFinished`), the queued commands when `terminate()` clears the queue, and
all of them when `start()` launches the child. -/
def stepSince (e : Execution) (since : List Nat) : Op → List Nat
  | Op.command _ args => if accepts e.world args then since ++ [e.allocated] else since
  | Op.start fileExists exeUser =>
    if (start e.world fileExists exeUser).d.process.launched.length =
        e.world.d.process.launched.length then since
    else []
  | Op.terminate =>
    if e.world.d.process.state = ProcessState.Running then
      since.take (if e.world.d.cmdRunning ≠ 0 then 1 else 0)
    else since
  | Op.processFinished _ _ =>
    if e.world.d.process.state = ProcessState.Running then
      since.drop (if e.world.d.cmdRunning ≠ 0 then 1 else 0)
    else since
  | Op.readyRead channel _ =>
    if (readLoop e.world.d channel).out.outReady && (readLoop e.world.d channel).err.outReady then
      since.drop (if e.world.d.cmdRunning ≠ 0 then 1 else 0)
    else since
  | _ => since

/-- For every command pending after the operations `ops` from `e`, the number of ids that had
been taken from the shared counter when it was accepted. -/
def pendingSince (e : Execution) (since : List Nat) : List Op → List Nat
  | [] => since
  | op :: ops => pendingSince (step e op) (stepSince e since op) ops

/-- Invariant of the allocator: the counter and the pending ids are determined by the number of
ids taken so far and by the numbers recorded in `since`. -/
def Indexed (e : Execution) (since : List Nat) : Prop :=
  e.world.s_nextCmdId = idAt e.allocated ∧ pendingIds e.world.d = since.map idAt ∧
    since.Pairwise (· < ·) ∧ ∀ i ∈ since, i < e.allocated

/-! ## Decimal rendering of ids -/

theorem digitChar_isDigit (k : Nat) (h : k < 10) : (Nat.digitChar k).isDigit = true := by
  interval_cases k <;> decide

theorem digitChar_value (k : Nat) (h : k < 10) : (Nat.digitChar k).toNat - 48 = k := by
  interval_cases k <;> decide

theorem toDigitsCore_allDigits (fuel : Nat) :
    ∀ (n : Nat) (acc : List Char), (∀ c ∈ acc, c.isDigit = true) →
      ∀ c ∈ Nat.toDigitsCore 10 fuel n acc, c.isDigit = true := by
  induction fuel with
  | zero => intro n acc h; simpa [Nat.toDigitsCore] using h
  | succ f ih =>
    intro n acc h
    have hd : (Nat.digitChar (n % 10)).isDigit = true := digitChar_isDigit _ (Nat.mod_lt _ (by norm_num))
    have h2 : ∀ c ∈ Nat.digitChar (n % 10) :: acc, c.isDigit = true := by
      intro c hc
      rcases List.mem_cons.mp hc with rfl | hc
      · exact hd
      · exact h c hc
    simp only [Nat.toDigitsCore]
    split
    · exact h2
    · exact ih _ _ h2

theorem toDigits_allDigits (n : Nat) : ∀ c ∈ Nat.toDigits 10 n, c.isDigit = true :=
  toDigitsCore_allDigits _ _ _ (by simp)

theorem decimalValue_toDigitsCore (fuel : Nat) :
    ∀ (n : Nat) (acc : List Char), n < fuel →
      (Nat.toDigitsCore 10 fuel n acc).foldl (fun a c => 10 * a + (c.toNat - 48)) 0 =
        acc.foldl (fun a c => 10 * a + (c.toNat - 48)) n := by
  induction fuel with
  | zero => intro n acc h; omega
  | succ f ih =>
    intro n acc h
    simp only [Nat.toDigitsCore]
    split
    · rename_i h0
      have hn : n % 10 = n := by omega
      have hv := digitChar_value _ (Nat.mod_lt n (by norm_num))
      rw [hn] at hv
      simp only [List.foldl, hn, hv, Nat.mul_zero, Nat.zero_add]
    · rename_i h0
      rw [ih (n / 10) _ (by omega)]
      simp only [List.foldl, digitChar_value _ (Nat.mod_lt n (by norm_num))]
      congr 1
      omega

theorem decimalValue_toDigits (n : Nat) : decimalValue (Nat.toDigits 10 n) = n := by
  unfold decimalValue Nat.toDigits
  rw [decimalValue_toDigitsCore _ _ _ (Nat.lt_succ_self n)]
  rfl

theorem decimalValue_zeros (k : Nat) (l : QByteArray) :
    decimalValue (List.replicate k '0' ++ l) = decimalValue l := by
  unfold decimalValue
  induction k with
  | zero => simp
  | succ k ih => simpa [List.replicate_succ, List.foldl] using ih

theorem toDigits_length_le (n : Nat) (h : n < 10 ^ 10) : (Nat.toDigits 10 n).length ≤ 10 :=
  Nat.toDigitsCore_length 10 (by norm_num) (n + 1) n 10 h (by norm_num)


theorem cmdIdStr_length (C : Int) (h1 : 1 ≤ C) (h2 : C ≤ 2000000000) :
    (rightJustified (number C) 10 '0').length = 10 := by
  have hneg : ¬ C < 0 := by omega
  have hlen : (Nat.toDigits 10 C.toNat).length ≤ 10 :=
    toDigits_length_le _ (by have : C.toNat ≤ 2000000000 := by omega
                             omega)
  simp only [rightJustified, number, hneg, if_false, List.length_append, List.length_replicate]
  omega

theorem cmdIdStr_allDigits (C : Int) (h1 : 1 ≤ C) :
    ∀ c ∈ rightJustified (number C) 10 '0', c.isDigit = true := by
  have hneg : ¬ C < 0 := by omega
  intro c hc
  simp only [rightJustified, number, hneg, if_false, List.mem_append] at hc
  rcases hc with hc | hc
  · rw [(List.mem_replicate.mp hc).2]; decide
  · exact toDigits_allDigits _ c hc

theorem cmdIdStr_value (C : Int) (h1 : 1 ≤ C) :
    (decimalValue (rightJustified (number C) 10 '0') : Int) = C := by
  have hneg : ¬ C < 0 := by omega
  simp only [rightJustified, number, hneg, if_false, decimalValue_zeros, decimalValue_toDigits]
  omega

/-! ## Command submission -/

/-- C1: `command(args)` returns 0 whenever the process is not in the `Running` state, or the
write channel is closed, or `args` is empty; the whole state is then unchanged: the shared
counter, the queue, the running id, the chunks written to the child and the emitted signals. -/
theorem command_refused (w : World) (now : Int) (args : List QByteArray)
    (h : w.d.process.state ≠ ProcessState.Running ∨ w.d.writeChannelIsClosed = true ∨ args = []) :
    (command w now args).1 = 0 ∧ (command w now args).2 = w ∧
      (command w now args).2.s_nextCmdId = w.s_nextCmdId ∧
      (command w now args).2.d.cmdQueue = w.d.cmdQueue ∧
      (command w now args).2.d.cmdRunning = w.d.cmdRunning ∧
      (command w now args).2.d.process.written = w.d.process.written ∧
      (command w now args).2.emitted = w.emitted := by
  have h2 : w.d.process.state ≠ ProcessState.Running ∨ w.d.writeChannelIsClosed = true ∨
      args.isEmpty = true := by
    rcases h with h | h | h
    · exact Or.inl h
    · exact Or.inr (Or.inl h)
    · exact Or.inr (Or.inr (by simp [h]))
  simp only [command, if_pos h2, and_self]

theorem command_refused_witness :
    (World.new.d.process.state ≠ ProcessState.Running ∨ World.new.d.writeChannelIsClosed = true ∨
        ["-json".toList] = []) ∧
      (command World.new 0 ["-json".toList]).1 = 0 ∧
      (command World.new 0 ["-json".toList]).2 = World.new ∧
      (command World.new 0 ["-json".toList]).2.s_nextCmdId = World.new.s_nextCmdId ∧
      (command World.new 0 ["-json".toList]).2.d.cmdQueue = World.new.d.cmdQueue ∧
      (command World.new 0 ["-json".toList]).2.d.cmdRunning = World.new.d.cmdRunning ∧
      (command World.new 0 ["-json".toList]).2.d.process.written = World.new.d.process.written ∧
      (command World.new 0 ["-json".toList]).2.emitted = World.new.emitted :=
  ⟨Or.inl (by decide), command_refused World.new 0 ["-json".toList] (Or.inl (by decide))⟩

theorem accepts_iff (w : World) (args : List QByteArray) :
    accepts w args = true ↔
      ¬ (w.d.process.state ≠ ProcessState.Running ∨ w.d.writeChannelIsClosed = true ∨
        args.isEmpty = true) := by
  simp only [accepts, Bool.and_eq_true, Bool.not_eq_true', decide_eq_true_eq, not_or,
    Decidable.not_not, Bool.not_eq_true, and_assoc]

theorem command_accepted (w : World) (now : Int) (args : List QByteArray)
    (h : accepts w args = true) :
    command w now args =
      (w.s_nextCmdId,
        { w with
          s_nextCmdId := nextCmdId w.s_nextCmdId
          d := execNextCmd
            { w.d with
              cmdQueue := w.d.cmdQueue ++
                [{ id := w.s_nextCmdId, argsStr := buildScript w.s_nextCmdId args }] } now }) := by
  simp only [command, if_neg ((accepts_iff w args).mp h)]

/-- C2: an accepted `command()` whose id `C` lies in [1, 2000000000] returns `C` and queues
(at the tail, before the dispatcher runs) exactly the script made of each argument followed by
a newline, then `-echo1\n{await<C>}\n`, then `-echo2\n{await<C>}\n`, then optionally
`-echo3\n{ready}\n`, then `-echo4\n{ready}\n`, then `-execute\n`, where `<C>` is the
10-character string of decimal digits whose value is `C`. -/
theorem command_script_layout (w : World) (now : Int) (args : List QByteArray)
    (hacc : accepts w args = true)
    (h1 : 1 ≤ w.s_nextCmdId) (h2 : w.s_nextCmdId ≤ 2000000000) :
    ∃ idStr echo3 : QByteArray,
      idStr.length = 10 ∧ (∀ c ∈ idStr, c.isDigit = true) ∧
      (decimalValue idStr : Int) = w.s_nextCmdId ∧
      (echo3 = [] ∨ echo3 = "-echo3\n\x7bready\x7d\n".toList) ∧
      buildScript w.s_nextCmdId args =
        (args.map (fun a => a ++ ['\n'])).flatten ++
          ("-echo1\n\x7bawait".toList ++ idStr ++ "\x7d\n".toList) ++
          ("-echo2\n\x7bawait".toList ++ idStr ++ "\x7d\n".toList) ++
          echo3 ++ "-echo4\n\x7bready\x7d\n".toList ++ "-execute\n".toList ∧
      (command w now args).1 = w.s_nextCmdId ∧
      (command w now args).2.d =
        execNextCmd
          { w.d with
            cmdQueue := w.d.cmdQueue ++
              [{ id := w.s_nextCmdId, argsStr := buildScript w.s_nextCmdId args }] } now := by
  by_cases hq : quietOrTable
      ((args.map (fun a => a ++ ['\n'])).flatten ++
        ("-echo1\n\x7bawait".toList ++ rightJustified (number w.s_nextCmdId) 10 '0' ++
          "\x7d\n".toList) ++
        ("-echo2\n\x7bawait".toList ++ rightJustified (number w.s_nextCmdId) 10 '0' ++
          "\x7d\n".toList)) = true
  · refine ⟨rightJustified (number w.s_nextCmdId) 10 '0', "-echo3\n\x7bready\x7d\n".toList,
      cmdIdStr_length _ h1 h2, cmdIdStr_allDigits _ h1, cmdIdStr_value _ h1, Or.inr rfl, ?_, ?_⟩
    · simp only [buildScript, hq, if_true]
    · simp only [command_accepted w now args hacc, and_self]
  · refine ⟨rightJustified (number w.s_nextCmdId) 10 '0', [],
      cmdIdStr_length _ h1 h2, cmdIdStr_allDigits _ h1, cmdIdStr_value _ h1, Or.inl rfl, ?_, ?_⟩
    · simp only [buildScript, hq, if_false, List.append_nil, Bool.false_eq_true]
    · simp only [command_accepted w now args hacc, and_self]

theorem command_script_layout_witness :
    accepts World.started ["-json".toList, "a.jpg".toList] = true ∧
      1 ≤ World.started.s_nextCmdId ∧ World.started.s_nextCmdId ≤ 2000000000 ∧
      ∃ idStr echo3 : QByteArray,
        idStr.length = 10 ∧ (∀ c ∈ idStr, c.isDigit = true) ∧
        (decimalValue idStr : Int) = World.started.s_nextCmdId ∧
        (echo3 = [] ∨ echo3 = "-echo3\n\x7bready\x7d\n".toList) ∧
        buildScript World.started.s_nextCmdId ["-json".toList, "a.jpg".toList] =
          (["-json".toList, "a.jpg".toList].map (fun a => a ++ ['\n'])).flatten ++
            ("-echo1\n\x7bawait".toList ++ idStr ++ "\x7d\n".toList) ++
            ("-echo2\n\x7bawait".toList ++ idStr ++ "\x7d\n".toList) ++
            echo3 ++ "-echo4\n\x7bready\x7d\n".toList ++ "-execute\n".toList ∧
        (command World.started 0 ["-json".toList, "a.jpg".toList]).1 =
          World.started.s_nextCmdId ∧
        (command World.started 0 ["-json".toList, "a.jpg".toList]).2.d =
          execNextCmd
            { World.started.d with
              cmdQueue := World.started.d.cmdQueue ++
                [{ id := World.started.s_nextCmdId,
                   argsStr := buildScript World.started.s_nextCmdId
                     ["-json".toList, "a.jpg".toList] }] } 0 :=
  ⟨by decide, by decide, by decide,
    command_script_layout World.started 0 ["-json".toList, "a.jpg".toList]
      (by decide) (by decide) (by decide)⟩

/-! ## The quiet / table trigger -/


theorem isPrefixOf_before_newline (needle : QByteArray) :
    ∀ (a b : QByteArray), needle ≠ [] → '\n' ∉ needle →
      needle.isPrefixOf (a ++ '\n' :: b) = needle.isPrefixOf a := by
  induction needle with
  | nil => intro a b h; exact absurd rfl h
  | cons n ns ih =>
    intro a b _ hn
    have hn1 : n ≠ '\n' := fun h => hn (by simp [h])
    have hn2 : '\n' ∉ ns := fun h => hn (List.mem_cons_of_mem _ h)
    cases a with
    | nil => simp [List.isPrefixOf, hn1]
    | cons x a' =>
      cases ns with
      | nil => simp [List.isPrefixOf]
      | cons m ms =>
        have e := ih a' b (by simp) hn2
        show (n == x && (m :: ms).isPrefixOf (a' ++ '\n' :: b)) = (n == x && (m :: ms).isPrefixOf a')
        rw [e]

theorem contains_across_newline (needle : QByteArray) (hne : needle ≠ []) (hn : '\n' ∉ needle)
    (a b : QByteArray) :
    contains (a ++ '\n' :: b) needle = (contains a needle || contains b needle) := by
  have hemp : needle.isEmpty = false := by
    cases needle with
    | nil => exact absurd rfl hne
    | cons _ _ => rfl
  induction a with
  | nil =>
    have e := isPrefixOf_before_newline needle [] b hne hn
    simp only [List.nil_append] at e
    show (needle.isPrefixOf ('\n' :: b) || contains b needle) =
      (needle.isEmpty || contains b needle)
    rw [e, hemp]
    cases needle with
    | nil => exact absurd rfl hne
    | cons n ns => rfl
  | cons x a' ih =>
    have e := isPrefixOf_before_newline needle (x :: a') b hne hn
    show (needle.isPrefixOf (x :: a' ++ '\n' :: b) || contains (a' ++ '\n' :: b) needle) =
      ((needle.isPrefixOf (x :: a') || contains a' needle) || contains b needle)
    rw [e, ih, Bool.or_assoc]

theorem contains_argLines (needle : QByteArray) (hne : needle ≠ []) (hn : '\n' ∉ needle)
    (args : List QByteArray) (rest : QByteArray) :
    contains ((args.map (fun arg => arg ++ ['\n'])).flatten ++ rest) needle =
      (args.any (fun arg => contains arg needle) || contains rest needle) := by
  induction args with
  | nil => simp
  | cons a as ih =>
    have : ((a :: as).map (fun arg => arg ++ ['\n'])).flatten ++ rest =
        a ++ '\n' :: ((as.map (fun arg => arg ++ ['\n'])).flatten ++ rest) := by
      simp
    rw [this, contains_across_newline needle hne hn, ih]
    simp [Bool.or_assoc]

theorem contains_subset (hay needle : QByteArray) (h : contains hay needle = true) :
    ∀ c ∈ needle, c ∈ hay := by
  induction hay with
  | nil =>
    cases needle with
    | nil => intro c hc; exact absurd hc (List.not_mem_nil c)
    | cons _ _ => simp [contains] at h
  | cons x xs ih =>
    simp only [contains, Bool.or_eq_true, List.isPrefixOf_iff_prefix] at h
    rcases h with h | h
    · exact fun c hc => h.subset hc
    · exact fun c hc => List.mem_cons_of_mem _ (ih h c hc)


theorem toDigitsCore_forall (P : Char → Prop) (hP : ∀ k, k < 10 → P (Nat.digitChar k)) (fuel : Nat) :
    ∀ (n : Nat) (acc : List Char), (∀ c ∈ acc, P c) →
      ∀ c ∈ Nat.toDigitsCore 10 fuel n acc, P c := by
  induction fuel with
  | zero => intro n acc h; simpa [Nat.toDigitsCore] using h
  | succ f ih =>
    intro n acc h
    have h2 : ∀ c ∈ Nat.digitChar (n % 10) :: acc, P c := by
      intro c hc
      rcases List.mem_cons.mp hc with rfl | hc
      · exact hP _ (Nat.mod_lt _ (by norm_num))
      · exact h c hc
    simp only [Nat.toDigitsCore]
    split
    · exact h2
    · exact ih _ _ h2

theorem cmdIdStr_alphabet (C : Int) : ∀ c ∈ rightJustified (number C) 10 '0', c ∈ framingAlphabet := by
  have hd : ∀ n, ∀ c ∈ Nat.toDigits 10 n, c ∈ framingAlphabet := fun n =>
    toDigitsCore_forall (fun c => c ∈ framingAlphabet)
      (fun k hk => by interval_cases k <;> decide) _ _ _ (by simp)
  intro c hc
  simp only [rightJustified, number, List.mem_append] at hc
  rcases hc with hc | hc
  · rw [(List.mem_replicate.mp hc).2]; decide
  · split at hc
    · rcases List.mem_cons.mp hc with rfl | hc
      · decide
      · exact hd _ c hc
    · exact hd _ c hc

theorem awaitDirectives_alphabet (C : Int) :
    ∀ c ∈ ("-echo1\n\x7bawait".toList ++ rightJustified (number C) 10 '0' ++ "\x7d\n".toList) ++
        ("-echo2\n\x7bawait".toList ++ rightJustified (number C) 10 '0' ++ "\x7d\n".toList),
      c ∈ framingAlphabet := by
  intro c hc
  simp only [List.mem_append] at hc
  rcases hc with ((hc | hc) | hc) | ((hc | hc) | hc)
  · revert c; decide
  · exact cmdIdStr_alphabet C c hc
  · revert c; decide
  · revert c; decide
  · exact cmdIdStr_alphabet C c hc
  · revert c; decide

theorem not_contains_of_not_mem (hay needle : QByteArray) (c : Char) (hc : c ∈ needle)
    (h : c ∉ hay) : contains hay needle = false := by
  cases hq : contains hay needle with
  | false => rfl
  | true => exact absurd (contains_subset hay needle hq c hc) h

theorem toLower_argLines (args : List QByteArray) (rest : QByteArray) :
    toLower ((args.map (fun arg => arg ++ ['\n'])).flatten ++ rest) =
      ((args.map toLower).map (fun arg => arg ++ ['\n'])).flatten ++ toLower rest := by
  induction args with
  | nil => simp [toLower]
  | cons a as ih =>
    simp only [toLower, List.map_cons, List.flatten_cons, List.append_assoc, List.map_append] at ih ⊢
    rw [ih]
    rfl

theorem toLower_alphabet (hay : QByteArray) (h : ∀ c ∈ hay, c ∈ framingAlphabet) :
    ∀ c ∈ toLower hay, c ∈ framingAlphabet := by
  intro c hc
  simp only [toLower, List.mem_map] at hc
  obtain ⟨c0, hc0, rfl⟩ := hc
  have key : ∀ c ∈ framingAlphabet, c.toLower ∈ framingAlphabet := by decide
  exact key c0 (h c0 hc0)

theorem quietOrTable_argLines (C : Int) (args : List QByteArray) :
    quietOrTable ((args.map (fun arg => arg ++ ['\n'])).flatten ++
        ("-echo1\n\x7bawait".toList ++ rightJustified (number C) 10 '0' ++ "\x7d\n".toList) ++
        ("-echo2\n\x7bawait".toList ++ rightJustified (number C) 10 '0' ++ "\x7d\n".toList)) =
      args.any quietOrTable := by
  have hin := awaitDirectives_alphabet C
  have hlow := toLower_alphabet _ hin
  rw [List.append_assoc]
  simp only [quietOrTable]
  rw [toLower_argLines, contains_argLines _ (by decide) (by decide),
    contains_argLines _ (by decide) (by decide), contains_argLines _ (by decide) (by decide),
    contains_argLines _ (by decide) (by decide),
    not_contains_of_not_mem _ "-q".toList 'q' (by decide) (fun h => absurd (hin _ h) (by decide)),
    not_contains_of_not_mem _ "-T".toList 'T' (by decide) (fun h => absurd (hin _ h) (by decide)),
    not_contains_of_not_mem _ "-quiet".toList 'q' (by decide)
      (fun h => absurd (hlow _ h) (by decide)),
    not_contains_of_not_mem _ "-table".toList 'b' (by decide)
      (fun h => absurd (hlow _ h) (by decide))]
  simp only [Bool.or_false]
  induction args with
  | nil => rfl
  | cons a as ih =>
    simp only [List.map_cons, List.any_cons]
    rw [← ih]
    simp only [quietOrTable, Bool.or_assoc, Bool.or_comm, Bool.or_left_comm]


/-- C3 (as stated, refuted): for the arguments `-json` and `IMG-q1.jpg` the script carries the
directive `-echo3\n{ready}\n` although no argument equals `-q` or `-T`, or equals `-quiet` or
`-table` up to case. -/
theorem echo3_without_equal_argument :
    buildScript 1 ["-json".toList, "IMG-q1.jpg".toList] =
        ("-json\nIMG-q1.jpg\n-echo1\n\x7bawait0000000001\x7d\n" ++
          "-echo2\n\x7bawait0000000001\x7d\n-echo3\n\x7bready\x7d\n" ++
          "-echo4\n\x7bready\x7d\n-execute\n").toList ∧
      ¬ ∃ a ∈ ["-json".toList, "IMG-q1.jpg".toList],
          a = "-q".toList ∨ a = "-T".toList ∨ toLower a = "-quiet".toList ∨
            toLower a = "-table".toList := by
  decide

/-- C3 (amended): the framing part of the script built by `command()` carries the directive
`-echo3\n{ready}\n` if and only if some argument contains `-q` or `-T` as a substring, or
contains `-quiet` or `-table` after lower-casing; otherwise its only `{ready}` directive is
`-echo4\n{ready}\n`. An argument equal to `-q` or `-T`, or equal to `-quiet` or `-table` up to
case, is such an argument. -/
theorem echo3_iff_substring (C : Int) (args : List QByteArray) :
    buildScript C args =
        (args.map (fun a => a ++ ['\n'])).flatten ++
          ("-echo1\n\x7bawait".toList ++ rightJustified (number C) 10 '0' ++ "\x7d\n".toList) ++
          ("-echo2\n\x7bawait".toList ++ rightJustified (number C) 10 '0' ++ "\x7d\n".toList) ++
          (if args.any quietOrTable then "-echo3\n\x7bready\x7d\n".toList else []) ++
          "-echo4\n\x7bready\x7d\n".toList ++ "-execute\n".toList ∧
      (args.any quietOrTable = true ↔
        ∃ a ∈ args, contains a "-q".toList = true ∨ contains a "-T".toList = true ∨
          contains (toLower a) "-quiet".toList = true ∨
          contains (toLower a) "-table".toList = true) ∧
      ∀ a ∈ args,
        (a = "-q".toList ∨ a = "-T".toList ∨ toLower a = "-quiet".toList ∨
          toLower a = "-table".toList) → args.any quietOrTable = true := by
  refine ⟨?_, ?_, ?_⟩
  · simp only [buildScript, quietOrTable_argLines]
    split <;> simp
  · simp only [List.any_eq_true, quietOrTable, Bool.or_eq_true]
    constructor
    · rintro ⟨a, ha, h⟩
      exact ⟨a, ha, by tauto⟩
    · rintro ⟨a, ha, h⟩
      exact ⟨a, ha, by tauto⟩
  · intro a ha h
    refine List.any_eq_true.mpr ⟨a, ha, ?_⟩
    simp only [quietOrTable, Bool.or_eq_true]
    rcases h with h | h | h | h
    · subst h; decide
    · subst h; decide
    · rw [h]; exact Or.inl (Or.inl (Or.inr (by decide)))
    · rw [h]; exact Or.inr (by decide)

theorem echo3_iff_substring_witness :
    "-q".toList ∈ ["-q".toList, "a.jpg".toList] ∧
      List.any ["-q".toList, "a.jpg".toList] quietOrTable = true ∧
      ∃ a ∈ ["-q".toList, "a.jpg".toList],
        contains a "-q".toList = true ∨ contains a "-T".toList = true ∨
          contains (toLower a) "-quiet".toList = true ∨
          contains (toLower a) "-table".toList = true :=
  ⟨by decide,
    (echo3_iff_substring 1 ["-q".toList, "a.jpg".toList]).2.2 "-q".toList (by decide)
      (Or.inl rfl),
    (echo3_iff_substring 1 ["-q".toList, "a.jpg".toList]).2.1.mp (by decide)⟩

/-! ## The id allocator -/

theorem accepts_counter (inst : World) (s : Int) (args : List QByteArray) :
    accepts { inst with s_nextCmdId := s } args = accepts inst args := rfl

theorem callSequence_cons_accepted (s : Int) (inst : World) (now : Int) (args : List QByteArray)
    (rest : List (World × Int × List QByteArray)) (h : accepts inst args = true) :
    callSequence s ((inst, now, args) :: rest) =
      (true, s, nextCmdId s) :: callSequence (nextCmdId s) rest := by
  have h2 : accepts { inst with s_nextCmdId := s } args = true := h
  simp only [callSequence, command_accepted _ now args h2, h]

theorem callSequence_cons_refused (s : Int) (inst : World) (now : Int) (args : List QByteArray)
    (rest : List (World × Int × List QByteArray)) (h : accepts inst args = false) :
    callSequence s ((inst, now, args) :: rest) = (false, 0, s) :: callSequence s rest := by
  have h2 : ¬ accepts { inst with s_nextCmdId := s } args = true := by
    rw [accepts_counter, h]; decide
  have h3 := Decidable.not_not.mp (mt (accepts_iff { inst with s_nextCmdId := s } args).mpr h2)
  simp only [callSequence, command, if_pos h3, h]

theorem nextCmdId_range (s : Int) (h1 : 1 ≤ s) (h2 : s ≤ 2000000000) :
    1 ≤ nextCmdId s ∧ nextCmdId s ≤ 2000000000 := by
  unfold nextCmdId CMD_ID_MAX CMD_ID_MIN
  split <;> omega

theorem nextCmdId_ne (s : Int) : nextCmdId s ≠ 2000000001 := by
  unfold nextCmdId CMD_ID_MAX CMD_ID_MIN
  split <;> omega

theorem nextId_nextCmdId (a : Int) : NextId a (nextCmdId a) := by
  unfold NextId nextCmdId CMD_ID_MAX CMD_ID_MIN
  constructor <;> intro h <;> split <;> omega

theorem callSequence_range (calls : List (World × Int × List QByteArray)) :
    ∀ s : Int, 1 ≤ s → s ≤ 2000000000 →
      ∀ r ∈ callSequence s calls,
        (1 ≤ r.2.2 ∧ r.2.2 ≤ 2000000000) ∧ (r.1 = true → 1 ≤ r.2.1 ∧ r.2.1 ≤ 2000000000) := by
  induction calls with
  | nil => intro s _ _ r hr; simp [callSequence] at hr
  | cons c rest ih =>
    obtain ⟨inst, now, args⟩ := c
    intro s h1 h2 r hr
    cases hacc : accepts inst args with
    | true =>
      rw [callSequence_cons_accepted s inst now args rest hacc] at hr
      rcases List.mem_cons.mp hr with rfl | hr
      · exact ⟨nextCmdId_range s h1 h2, fun _ => ⟨h1, h2⟩⟩
      · exact ih _ (nextCmdId_range s h1 h2).1 (nextCmdId_range s h1 h2).2 r hr
    | false =>
      rw [callSequence_cons_refused s inst now args rest hacc] at hr
      rcases List.mem_cons.mp hr with rfl | hr
      · exact ⟨⟨h1, h2⟩, fun h => Bool.noConfusion h⟩
      · exact ih s h1 h2 r hr

/-- C4: along every sequence of `command()` calls on instances sharing the counter, which starts
at `CMD_ID_MIN` = 1, the counter lies in [1, 2000000000] after every call and every id returned
by an accepted call lies in [1, 2000000000]. -/
theorem allocator_range (calls : List (World × Int × List QByteArray)) :
    ∀ r ∈ callSequence CMD_ID_MIN calls,
      (1 ≤ r.2.2 ∧ r.2.2 ≤ 2000000000) ∧ (r.1 = true → 1 ≤ r.2.1 ∧ r.2.1 ≤ 2000000000) :=
  callSequence_range calls CMD_ID_MIN (by decide) (by decide)

theorem allocator_range_witness :
    ((true, 1, 2) : Bool × Int × Int) ∈
        callSequence CMD_ID_MIN
          [(World.started, 0, ["-ver".toList]), (World.new, 1, ["-ver".toList])] ∧
      ((1 : Int) ≤ 2 ∧ (2 : Int) ≤ 2000000000) ∧ ((1 : Int) ≤ 1 ∧ (1 : Int) ≤ 2000000000) :=
  ⟨by decide,
    (allocator_range [(World.started, 0, ["-ver".toList]), (World.new, 1, ["-ver".toList])]
      (true, 1, 2) (by decide)).1,
    (allocator_range [(World.started, 0, ["-ver".toList]), (World.new, 1, ["-ver".toList])]
      (true, 1, 2) (by decide)).2 rfl⟩

theorem acceptedIds_chain (calls : List (World × Int × List QByteArray)) :
    ∀ a : Int, List.Chain NextId a (acceptedIds (callSequence (nextCmdId a) calls)) := by
  induction calls with
  | nil => intro a; exact List.Chain.nil
  | cons c rest ih =>
    obtain ⟨inst, now, args⟩ := c
    intro a
    cases hacc : accepts inst args with
    | true =>
      rw [callSequence_cons_accepted _ inst now args rest hacc]
      exact List.Chain.cons (nextId_nextCmdId a) (ih _)
    | false =>
      rw [callSequence_cons_refused _ inst now args rest hacc]
      exact ih a

theorem acceptedIds_chain_from (calls : List (World × Int × List QByteArray)) :
    ∀ s : Int, List.Chain' NextId (acceptedIds (callSequence s calls)) := by
  induction calls with
  | nil => intro s; exact List.chain'_nil
  | cons c rest ih =>
    obtain ⟨inst, now, args⟩ := c
    intro s
    cases hacc : accepts inst args with
    | true =>
      rw [callSequence_cons_accepted _ inst now args rest hacc]
      exact acceptedIds_chain rest s
    | false =>
      rw [callSequence_cons_refused _ inst now args rest hacc]
      exact ih s

theorem callSequence_counter_ne (calls : List (World × Int × List QByteArray)) :
    ∀ s : Int, s ≠ 2000000001 → ∀ r ∈ callSequence s calls, r.2.2 ≠ 2000000001 := by
  induction calls with
  | nil => intro s _ r hr; simp [callSequence] at hr
  | cons c rest ih =>
    obtain ⟨inst, now, args⟩ := c
    intro s hs r hr
    cases hacc : accepts inst args with
    | true =>
      rw [callSequence_cons_accepted s inst now args rest hacc] at hr
      rcases List.mem_cons.mp hr with rfl | hr
      · exact nextCmdId_ne s
      · exact ih _ (nextCmdId_ne s) r hr
    | false =>
      rw [callSequence_cons_refused s inst now args rest hacc] at hr
      rcases List.mem_cons.mp hr with rfl | hr
      · exact hs
      · exact ih s hs r hr

theorem wrap_around_example :
    acceptedIds (callSequence 2000000000
      [(World.started, 0, ["-ver".toList]), (World.new, 0, ["-ver".toList]),
        (World.started, 1, ["-ver".toList])]) = [2000000000, 1] := by
  decide

/-- C5: along every sequence of `command()` calls on instances sharing the counter (starting
at 1), two consecutive accepted calls return `n` and then `n + 1` when `n < 2000000000`, and
`n` and then 1 when `n = 2000000000`; refused calls in between change nothing, and the counter
is never 2000000001 after a call. -/
theorem consecutive_ids (calls : List (World × Int × List QByteArray)) :
    List.Chain' NextId (acceptedIds (callSequence CMD_ID_MIN calls)) ∧
      ∀ r ∈ callSequence CMD_ID_MIN calls, r.2.2 ≠ 2000000001 :=
  ⟨acceptedIds_chain_from calls CMD_ID_MIN, callSequence_counter_ne calls CMD_ID_MIN (by decide)⟩

theorem consecutive_ids_witness :
    ((false, 0, 2) : Bool × Int × Int) ∈
        callSequence CMD_ID_MIN
          [(World.started, 0, ["-ver".toList]), (World.new, 1, ["-ver".toList]),
            (World.busy, 2, ["-ver".toList])] ∧
      acceptedIds (callSequence CMD_ID_MIN
          [(World.started, 0, ["-ver".toList]), (World.new, 1, ["-ver".toList]),
            (World.busy, 2, ["-ver".toList])]) = [1, 2] ∧
      List.Chain' NextId (acceptedIds (callSequence CMD_ID_MIN
          [(World.started, 0, ["-ver".toList]), (World.new, 1, ["-ver".toList]),
            (World.busy, 2, ["-ver".toList])])) ∧
      (2 : Int) ≠ 2000000001 :=
  ⟨by decide, by decide,
    (consecutive_ids [(World.started, 0, ["-ver".toList]), (World.new, 1, ["-ver".toList]),
      (World.busy, 2, ["-ver".toList])]).1,
    (consecutive_ids [(World.started, 0, ["-ver".toList]), (World.new, 1, ["-ver".toList]),
      (World.busy, 2, ["-ver".toList])]).2 (false, 0, 2) (by decide)⟩

/-! ## Dispatching -/


theorem execNextCmd_busy (d : Private) (now : Int) (h : d.cmdRunning ≠ 0) :
    execNextCmd d now = d := by
  unfold execNextCmd
  split
  · rfl
  · rw [if_pos (Or.inl h)]

theorem execNextCmd_dispatch (d : Private) (now : Int) (c : Command) (q : List Command)
    (hs : d.process.state = ProcessState.Running) (hw : d.writeChannelIsClosed = false)
    (hr : d.cmdRunning = 0) (hq : d.cmdQueue = c :: q) :
    execNextCmd d now =
      { d with
        process :=
          { d.process with
            unreadOut := [], unreadErr := [], written := d.process.written ++ [c.argsStr] }
        out := { outAwait := 0, outReady := false, outBuff := [] }
        err := { outAwait := 0, outReady := false, outBuff := [] }
        execTimer := now
        cmdQueue := q
        cmdRunning := c.id } := by
  unfold execNextCmd
  simp [hs, hw, hr, hq]

/-- C10: at most one command is in flight. An accepted `command()` on an idle object
(`cmdRunning` = 0, empty queue) writes exactly its own script to the child, sets `cmdRunning` to
the returned id and leaves the queue empty; an accepted `command()` on a busy object
(`cmdRunning` non-zero) writes nothing, leaves `cmdRunning` and both channel slots unchanged and
appends the new command at the tail of the queue. The dispatcher does nothing while `cmdRunning`
is non-zero, and `readOutput` writes only when it has found both channels ready. -/
theorem one_in_flight (w : World) (now : Int) (args : List QByteArray)
    (hacc : accepts w args = true) :
    (w.d.cmdRunning = 0 ∧ w.d.cmdQueue = [] →
        (command w now args).2.d.process.written =
            w.d.process.written ++ [buildScript (command w now args).1 args] ∧
          (command w now args).2.d.cmdRunning = (command w now args).1 ∧
          (command w now args).2.d.cmdQueue = []) ∧
      (w.d.cmdRunning ≠ 0 →
        (command w now args).2.d.process.written = w.d.process.written ∧
          (command w now args).2.d.cmdRunning = w.d.cmdRunning ∧
          (command w now args).2.d.out = w.d.out ∧ (command w now args).2.d.err = w.d.err ∧
          (command w now args).2.d.cmdQueue =
            w.d.cmdQueue ++
              [{ id := (command w now args).1,
                 argsStr := buildScript (command w now args).1 args }]) ∧
      (∀ (d : Private) (t : Int), d.cmdRunning ≠ 0 → execNextCmd d t = d) ∧
      ∀ (channel : ProcessChannel) (t : Int),
        (readOutput w channel t).d.process.written ≠ w.d.process.written →
          (readLoop w.d channel).out.outReady = true ∧
            (readLoop w.d channel).err.outReady = true := by
  have hpre := (accepts_iff w args).mp hacc
  simp only [not_or, Decidable.not_not, Bool.not_eq_true] at hpre
  obtain ⟨hs, hw, _⟩ := hpre
  refine ⟨?_, ?_, execNextCmd_busy, ?_⟩
  · rintro ⟨hr, hq⟩
    rw [command_accepted w now args hacc]
    simp only
    have e := execNextCmd_dispatch
      { w.d with
        cmdQueue := w.d.cmdQueue ++
          [{ id := w.s_nextCmdId, argsStr := buildScript w.s_nextCmdId args }] }
      now { id := w.s_nextCmdId, argsStr := buildScript w.s_nextCmdId args } [] hs hw hr
      (by simp [hq])
    rw [e]
    exact ⟨rfl, rfl, rfl⟩
  · intro hr
    rw [command_accepted w now args hacc]
    simp only
    have e := execNextCmd_busy
      { w.d with
        cmdQueue := w.d.cmdQueue ++
          [{ id := w.s_nextCmdId, argsStr := buildScript w.s_nextCmdId args }] }
      now hr
    rw [e]
    exact ⟨rfl, rfl, rfl, rfl, rfl⟩
  · intro channel t hne
    by_contra hcon
    apply hne
    have : (!((readLoop w.d channel).out.outReady && (readLoop w.d channel).err.outReady)) = true := by
      cases h1 : (readLoop w.d channel).out.outReady <;>
        cases h2 : (readLoop w.d channel).err.outReady <;> simp_all
    simp only [readOutput, this, if_true]
    cases channel <;> rfl

theorem one_in_flight_witness :
    (accepts World.started ["-ver".toList] = true ∧
        (World.started.d.cmdRunning = 0 ∧ World.started.d.cmdQueue = []) ∧
        (command World.started 5 ["-ver".toList]).2.d.process.written =
          World.started.d.process.written ++
            [buildScript (command World.started 5 ["-ver".toList]).1 ["-ver".toList]] ∧
        (command World.started 5 ["-ver".toList]).2.d.cmdRunning =
          (command World.started 5 ["-ver".toList]).1 ∧
        (command World.started 5 ["-ver".toList]).2.d.cmdQueue = []) ∧
      (World.busy.d.cmdRunning ≠ 0 ∧
        (command World.busy 5 ["-ver".toList]).2.d.process.written =
          World.busy.d.process.written) :=
  ⟨⟨by decide, by decide,
      (one_in_flight World.started 5 ["-ver".toList] (by decide)).1 (by decide)⟩,
    by decide,
    ((one_in_flight World.busy 5 ["-ver".toList] (by decide)).2.1 (by decide)).1⟩

/-! ## Reading output frames -/


theorem readLoop_cmdRunning (d : Private) (ch : ProcessChannel) :
    (readLoop d ch).cmdRunning = d.cmdRunning ∧ (readLoop d ch).execTimer = d.execTimer := by
  cases ch <;> exact ⟨rfl, rfl⟩

theorem toInt32_of_range (x : Int) (h0 : -2147483648 ≤ x) (h1 : x ≤ 2147483647) :
    toInt32 x = x := by
  unfold toInt32
  omega

/-- The event of `readOutput` when both channels are ready after its read loop: a
command-completed signal is emitted if and only if
`outAwait[stdout] = outAwait[stderr] = cmdRunning`; it carries `cmdRunning`, the elapsed time
converted to `int`, `outBuff[stdout]` and `outBuff[stderr]`, and the converted time is the elapsed
time itself up to 2147483647 ms; when the ids disagree with each other or with `cmdRunning`
nothing is emitted. -/
theorem readOutput_event (w : World) (channel : ProcessChannel) (now : Int)
    (hout : (readLoop w.d channel).out.outReady = true)
    (herr : (readLoop w.d channel).err.outReady = true) :
    ((readLoop w.d channel).out.outAwait = w.d.cmdRunning ∧
        (readLoop w.d channel).err.outAwait = w.d.cmdRunning →
      (readOutput w channel now).emitted =
          w.emitted ++
            [Signal.CmdCompleted w.d.cmdRunning (toInt32 (now - w.d.execTimer))
              (readLoop w.d channel).out.outBuff (readLoop w.d channel).err.outBuff] ∧
        (0 ≤ now - w.d.execTimer → now - w.d.execTimer ≤ 2147483647 →
          (readOutput w channel now).emitted =
            w.emitted ++
              [Signal.CmdCompleted w.d.cmdRunning (now - w.d.execTimer)
                (readLoop w.d channel).out.outBuff (readLoop w.d channel).err.outBuff])) ∧
      (¬ ((readLoop w.d channel).out.outAwait = w.d.cmdRunning ∧
          (readLoop w.d channel).err.outAwait = w.d.cmdRunning) →
        (readOutput w channel now).emitted = w.emitted) := by
  obtain ⟨hc, ht⟩ := readLoop_cmdRunning w.d channel
  constructor
  · rintro ⟨h0, h1⟩
    have hem : (readOutput w channel now).emitted =
        w.emitted ++
          [Signal.CmdCompleted w.d.cmdRunning (toInt32 (now - w.d.execTimer))
            (readLoop w.d channel).out.outBuff (readLoop w.d channel).err.outBuff] := by
      simp only [readOutput, hout, herr, hc, ht, h0, h1, Bool.and_self, Bool.not_true,
        Bool.false_eq_true, if_false, ne_eq, not_true_eq_false, or_self]
    refine ⟨hem, ?_⟩
    intro r0 r1
    rw [hem, toInt32_of_range _ (by omega) r1]
  · intro h
    have h2 : w.d.cmdRunning ≠ (readLoop w.d channel).out.outAwait ∨
        w.d.cmdRunning ≠ (readLoop w.d channel).err.outAwait := by
      by_contra hcon
      push_neg at hcon
      exact h ⟨hcon.1.symm, hcon.2.symm⟩
    simp only [readOutput, hout, herr, hc, Bool.and_self, Bool.not_true,
      Bool.false_eq_true, if_false, if_pos h2]

/-- C7 (the code at the failing input): command 1 was dispatched at time 0 and both channels
hold its frame; standard error is read 3000000000 ms later. Both channels are then ready with
awaited ids equal to `cmdRunning`, exactly one command-completed signal is emitted, with id 1 and
the two buffers, but the time it carries is -1294967296, not the elapsed 3000000000 ms. Read
within 2147483647 ms the signal carries the elapsed time itself, and with an awaited id different
from `cmdRunning` nothing is emitted. -/
theorem completion_time_narrowed :
    World.stdoutRead.d.cmdRunning = 1 ∧ World.stdoutRead.d.execTimer = 0 ∧
      (readLoop World.stdoutRead.d ProcessChannel.StandardError).out =
        { outAwait := 1, outReady := true,
          outBuff := "[\x7b\"SourceFile\":\"a.jpg\"\x7d]\n".toList } ∧
      (readLoop World.stdoutRead.d ProcessChannel.StandardError).err =
        { outAwait := 1, outReady := true, outBuff := [] } ∧
      (readOutput World.stdoutRead ProcessChannel.StandardError 3000000000).emitted =
        World.stdoutRead.emitted ++
          [Signal.CmdCompleted 1 (-1294967296)
            "[\x7b\"SourceFile\":\"a.jpg\"\x7d]\n".toList []] ∧
      (readOutput World.stdoutRead ProcessChannel.StandardError 2147483647).emitted =
        World.stdoutRead.emitted ++
          [Signal.CmdCompleted 1 2147483647
            "[\x7b\"SourceFile\":\"a.jpg\"\x7d]\n".toList []] ∧
      (readOutput
          { World.stdoutRead with d := { World.stdoutRead.d with cmdRunning := 2 } }
          ProcessChannel.StandardError 7).emitted = World.stdoutRead.emitted := by
  decide

theorem startsWith_append (p x : QByteArray) : startsWith (p ++ x) p = true := by
  simp [startsWith]

theorem endsWith_append (x s : QByteArray) : endsWith (x ++ s) s = true := by
  simp [endsWith]

theorem mid_await (t : QByteArray) :
    mid ("\x7bawait".toList ++ t ++ "\x7d\n".toList) 6
      (("\x7bawait".toList ++ t ++ "\x7d\n".toList).length - 8) = t := by
  have h6 : ("\x7bawait".toList).length = 6 := by decide
  have h2 : ("\x7d\n".toList).length = 2 := by decide
  unfold mid
  rw [List.append_assoc, List.drop_append_of_le_length (by omega)]
  have : List.drop 6 "\x7bawait".toList = [] := by decide
  rw [this, List.nil_append, List.length_append, List.length_append, h6, h2]
  have : 6 + (t.length + 2) - 8 = t.length := by omega
  rw [this, List.take_left']
  rfl

theorem chop_ready (b s : QByteArray) :
    chop (b ++ (s ++ "\x7bready\x7d\n".toList)) 8 = b ++ s := by
  have h8 : ("\x7bready\x7d\n".toList).length = 8 := by decide
  unfold chop
  rw [← List.append_assoc, List.length_append, h8, Nat.add_sub_cancel, List.take_left']
  rfl

theorem readLines_ready (c : ChannelState) (h : c.outReady = true) (ls : List QByteArray) :
    readLines c ls = (c, ls) := by
  cases ls with
  | nil => rfl
  | cons l rest => simp only [readLines, h, if_true]

theorem readLines_skip (c : ChannelState) (hr : c.outReady = false) (ha : c.outAwait = 0)
    (pre rest : List QByteArray)
    (hpre : ∀ l ∈ pre, (startsWith (normalizeLine l) "\x7bawait".toList &&
      endsWith (normalizeLine l) "\x7d\n".toList) = false) :
    readLines c (pre ++ rest) = readLines c rest := by
  induction pre with
  | nil => rfl
  | cons l ls ih =>
    have hl := hpre l (List.mem_cons_self _ _)
    rw [List.cons_append, readLines]
    simp only [hr, ha, hl, if_true, Bool.false_eq_true, if_false]
    exact ih (fun l hl => hpre l (List.mem_cons_of_mem _ hl))

theorem readLines_await (b t : QByteArray) (awaitLine : QByteArray) (rest : List QByteArray)
    (h : normalizeLine awaitLine = "\x7bawait".toList ++ t ++ "\x7d\n".toList) :
    readLines { outAwait := 0, outReady := false, outBuff := b } (awaitLine :: rest) =
      readLines { outAwait := toInt t, outReady := false, outBuff := b } rest := by
  rw [readLines]
  simp only [h, mid_await, endsWith_append, Bool.false_eq_true, if_false, if_true, Bool.and_true]
  rw [List.append_assoc, startsWith_append]
  simp

theorem readLines_collect (N : Int) (hN : N ≠ 0) (payload rest : List QByteArray)
    (hpay : ∀ p ∈ payload, endsWith (normalizeLine p) "\x7bready\x7d\n".toList = false) :
    ∀ b : QByteArray,
      readLines { outAwait := N, outReady := false, outBuff := b } (payload ++ rest) =
        readLines { outAwait := N, outReady := false,
                    outBuff := b ++ (payload.map normalizeLine).flatten } rest := by
  induction payload with
  | nil => intro b; simp
  | cons p ps ih =>
    intro b
    have hp := hpay p (List.mem_cons_self _ _)
    rw [List.cons_append, readLines]
    simp only [hN, hp, if_false, Bool.false_eq_true]
    rw [ih (fun p hp => hpay p (List.mem_cons_of_mem _ hp))]
    simp

theorem readLines_finish (N : Int) (hN : N ≠ 0) (b s readyLine : QByteArray)
    (later : List QByteArray)
    (h : normalizeLine readyLine = s ++ "\x7bready\x7d\n".toList) :
    readLines { outAwait := N, outReady := false, outBuff := b } (readyLine :: later) =
      ({ outAwait := N, outReady := true, outBuff := b ++ s }, later) := by
  rw [readLines]
  simp only [hN, h, endsWith_append, chop_ready, if_false, if_true, Bool.false_eq_true]

/-- C8 (as stated, refuted): after the await marker of id 1, the payload line `a\r\n` (which does
not end with `{ready}\n`) and the line `{ready}\n`, the buffer is `a\n`, not the payload line
as it was read. -/
theorem crlf_payload_not_verbatim :
    toInt "0000000001".toList = 1 ∧
      endsWith "a\r\n".toList "\x7bready\x7d\n".toList = false ∧
      readLines { outAwait := 0, outReady := false, outBuff := [] }
          ["\x7bawait0000000001\x7d\n".toList, "a\r\n".toList, "\x7bready\x7d\n".toList] =
        ({ outAwait := 1, outReady := true, outBuff := "a\n".toList }, []) ∧
      "a\n".toList ≠ "a\r\n".toList ++ [] := by
  decide

/-- C8 (amended): frame extraction on one channel, every line being taken after the `\r\n` to
`\n` normalisation. From a freshly dispatched channel state (empty buffer, no await seen, not
ready), after lines that are not of the form `{await...}\n`, then a line `{await<t>}\n` whose
payload `t` parses to a non-zero id `N`, then payload lines none of which ends with `{ready}\n`,
then a line `s ++ {ready}\n`, the channel has awaited = `N`, ready = true and buffer = the
normalised payload lines followed by `s`; the later lines stay unread, and no further line is
read into the buffer afterwards. -/
theorem frame_extraction (pre payload later : List QByteArray)
    (awaitLine readyLine t s : QByteArray) (N : Int)
    (hpre : ∀ l ∈ pre, (startsWith (normalizeLine l) "\x7bawait".toList &&
      endsWith (normalizeLine l) "\x7d\n".toList) = false)
    (hawait : normalizeLine awaitLine = "\x7bawait".toList ++ t ++ "\x7d\n".toList)
    (hN : toInt t = N) (hN0 : N ≠ 0)
    (hpay : ∀ p ∈ payload, endsWith (normalizeLine p) "\x7bready\x7d\n".toList = false)
    (hready : normalizeLine readyLine = s ++ "\x7bready\x7d\n".toList) :
    readLines { outAwait := 0, outReady := false, outBuff := [] }
        (pre ++ awaitLine :: (payload ++ readyLine :: later)) =
      ({ outAwait := N, outReady := true,
         outBuff := (payload.map normalizeLine).flatten ++ s }, later) ∧
    ∀ more : List QByteArray,
      readLines { outAwait := N, outReady := true,
                  outBuff := (payload.map normalizeLine).flatten ++ s } more =
        ({ outAwait := N, outReady := true,
           outBuff := (payload.map normalizeLine).flatten ++ s }, more) := by
  constructor
  · rw [readLines_skip _ rfl rfl pre _ hpre, readLines_await [] t awaitLine _ hawait, hN,
      readLines_collect N hN0 payload _ hpay, readLines_finish N hN0 _ s readyLine later hready]
    simp
  · intro more
    exact readLines_ready _ rfl more

theorem frame_extraction_witness :
    (∀ l ∈ ["garbage\n".toList],
        (startsWith (normalizeLine l) "\x7bawait".toList &&
          endsWith (normalizeLine l) "\x7d\n".toList) = false) ∧
      normalizeLine "\x7bawait0000000007\x7d\r\n".toList =
        "\x7bawait".toList ++ "0000000007".toList ++ "\x7d\n".toList ∧
      toInt "0000000007".toList = 7 ∧ (7 : Int) ≠ 0 ∧
      (∀ p ∈ ["a\r\n".toList, "b\n".toList],
        endsWith (normalizeLine p) "\x7bready\x7d\n".toList = false) ∧
      normalizeLine "c\x7bready\x7d\r\n".toList = "c".toList ++ "\x7bready\x7d\n".toList ∧
      readLines { outAwait := 0, outReady := false, outBuff := [] }
          (["garbage\n".toList] ++ "\x7bawait0000000007\x7d\r\n".toList ::
            (["a\r\n".toList, "b\n".toList] ++ "c\x7bready\x7d\r\n".toList ::
              ["x\n".toList])) =
        ({ outAwait := 7, outReady := true,
           outBuff := (["a\r\n".toList, "b\n".toList].map normalizeLine).flatten ++
             "c".toList }, ["x\n".toList]) :=
  ⟨by decide, by decide, by decide, by decide, by decide, by decide,
    (frame_extraction ["garbage\n".toList] ["a\r\n".toList, "b\n".toList] ["x\n".toList]
      "\x7bawait0000000007\x7d\r\n".toList "c\x7bready\x7d\r\n".toList
      "0000000007".toList "c".toList 7
      (by decide) (by decide) (by decide) (by decide) (by decide) (by decide)).1⟩

/-! ## Uniqueness of pending ids -/


theorem pendingIds_execNextCmd (d : Private) (now : Int) :
    (pendingIds (execNextCmd d now)).Sublist (pendingIds d) := by
  unfold execNextCmd
  split
  · exact List.Sublist.refl _
  · split
    · exact List.Sublist.refl _
    · rename_i h1 h2
      have hr : d.cmdRunning = 0 := by
        by_contra h; exact h2 (Or.inl h)
      split
      · exact List.Sublist.refl _
      · rename_i c q hq
        simp only [pendingIds, hr, hq, ne_eq, not_true_eq_false, if_false, List.nil_append,
          List.map_cons]
        split
        · exact List.Sublist.refl _
        · exact List.sublist_cons_self _ _

theorem pendingIds_zero (d : Private) :
    (pendingIds { d with cmdRunning := 0 }).Sublist (pendingIds d) := by
  simp only [pendingIds, ne_eq, not_true_eq_false, if_false, List.nil_append]
  exact List.sublist_append_right _ _

theorem readLoop_pending (d : Private) (ch : ProcessChannel) :
    pendingIds (readLoop d ch) = pendingIds d := by
  cases ch <;> rfl

theorem pendingIds_readOutput (w : World) (ch : ProcessChannel) (now : Int) :
    (pendingIds (readOutput w ch now).d).Sublist (pendingIds w.d) ∧
      (readOutput w ch now).s_nextCmdId = w.s_nextCmdId := by
  unfold readOutput
  simp only
  split
  · exact ⟨by rw [readLoop_pending], rfl⟩
  · refine ⟨?_, rfl⟩
    refine (pendingIds_execNextCmd _ now).trans ?_
    refine (pendingIds_zero _).trans ?_
    rw [readLoop_pending]

theorem pendingIds_start (w : World) (f g : String → Bool) :
    (pendingIds (start w f g).d).Sublist (pendingIds w.d) ∧
      (start w f g).s_nextCmdId = w.s_nextCmdId := by
  unfold start
  split
  · exact ⟨List.Sublist.refl _, rfl⟩
  · split
    · exact ⟨List.Sublist.refl _, rfl⟩
    · split
      · exact ⟨List.Sublist.refl _, rfl⟩
      · exact ⟨by simp [pendingIds], rfl⟩

theorem pendingIds_terminate (w : World) :
    (pendingIds (terminate w).d).Sublist (pendingIds w.d) ∧
      (terminate w).s_nextCmdId = w.s_nextCmdId := by
  unfold terminate
  split
  · exact ⟨by simp [pendingIds], rfl⟩
  · exact ⟨List.Sublist.refl _, rfl⟩

theorem FreshIds_of_sublist (e e' : Execution)
    (hs : e'.world.s_nextCmdId = e.world.s_nextCmdId) (ha : e'.allocated = e.allocated)
    (hp : (pendingIds e'.world.d).Sublist (pendingIds e.world.d)) (h : FreshIds e) :
    FreshIds e' := by
  intro hlt
  rw [ha] at hlt
  obtain ⟨h1, h2, h3⟩ := h hlt
  exact ⟨by rw [hs, ha, h1], h2.sublist hp, fun p hpm => by rw [hs]; exact h3 p (hp.subset hpm)⟩

theorem FreshIds_step (e : Execution) (op : Op) (h : FreshIds e) : FreshIds (step e op) := by
  cases op with
  | setProgram a b =>
    refine FreshIds_of_sublist e _ ?_ rfl ?_ h
    · simp only [step, setProgram]; split <;> rfl
    · simp only [step, setProgram]; split <;> exact List.Sublist.refl _
  | start f g =>
    exact FreshIds_of_sublist e _ (pendingIds_start e.world f g).2 rfl
      (pendingIds_start e.world f g).1 h
  | terminate =>
    exact FreshIds_of_sublist e _ (pendingIds_terminate e.world).2 rfl
      (pendingIds_terminate e.world).1 h
  | kill => exact FreshIds_of_sublist e _ rfl rfl (List.Sublist.refl _) h
  | command now args =>
    cases hacc : accepts e.world args with
    | false =>
      have h3 := Decidable.not_not.mp (mt (accepts_iff e.world args).mpr (by rw [hacc]; decide))
      have : step e (Op.command now args) = e := by
        simp only [step, hacc, command, if_pos h3, Bool.false_eq_true, if_false]
      rw [this]; exact h
    | true =>
      intro hlt
      have hstep : step e (Op.command now args) =
          { world := (command e.world now args).2
            accepted := e.accepted ++
              [{ id := (command e.world now args).1,
                 argsStr := buildScript (command e.world now args).1 args }]
            allocated := e.allocated + 1 } := by
        simp only [step, hacc, if_true]
      rw [hstep] at hlt ⊢
      simp only [command_accepted e.world now args hacc] at hlt ⊢
      have hlt' : (e.allocated : Int) < CMD_ID_MAX := by
        have : ((e.allocated + 1 : Nat) : Int) = (e.allocated : Int) + 1 := by push_cast; rfl
        omega
      obtain ⟨h1, h2, h3⟩ := h hlt'
      have hsub := pendingIds_execNextCmd
        { e.world.d with
          cmdQueue := e.world.d.cmdQueue ++
            [{ id := e.world.s_nextCmdId, argsStr := buildScript e.world.s_nextCmdId args }] } now
      have hpend : pendingIds
          { e.world.d with
            cmdQueue := e.world.d.cmdQueue ++
              [{ id := e.world.s_nextCmdId, argsStr := buildScript e.world.s_nextCmdId args }] } =
          pendingIds e.world.d ++ [e.world.s_nextCmdId] := by
        simp [pendingIds]
      rw [hpend] at hsub
      have hnext : nextCmdId e.world.s_nextCmdId = e.world.s_nextCmdId + 1 := by
        unfold nextCmdId; unfold CMD_ID_MAX at *
        rw [if_neg]; push_cast at hlt; omega
      refine ⟨?_, ?_, ?_⟩
      · rw [hnext, h1]; push_cast; ring
      · refine List.Pairwise.sublist hsub ?_
        rw [List.pairwise_append]
        exact ⟨h2, List.pairwise_singleton _ _, fun a ha b hb => by
          rw [List.mem_singleton.mp hb]; exact h3 a ha⟩
      · intro p hp
        rw [hnext]
        rcases List.mem_append.mp (hsub.subset hp) with hp | hp
        · have := h3 p hp; omega
        · rw [List.mem_singleton.mp hp]; omega
  | otherInstanceCommand =>
    intro hlt
    simp only [step] at hlt ⊢
    have hlt' : (e.allocated : Int) < CMD_ID_MAX := by
      have : ((e.allocated + 1 : Nat) : Int) = (e.allocated : Int) + 1 := by push_cast; rfl
      omega
    obtain ⟨h1, h2, h3⟩ := h hlt'
    have hnext : nextCmdId e.world.s_nextCmdId = e.world.s_nextCmdId + 1 := by
      unfold nextCmdId; unfold CMD_ID_MAX at *
      rw [if_neg]; push_cast at hlt; omega
    refine ⟨?_, h2, ?_⟩
    · rw [hnext, h1]; push_cast; ring
    · intro p hp; rw [hnext]; have := h3 p hp; omega
  | processStarted =>
    refine FreshIds_of_sublist e _ ?_ ?_ ?_ h <;> simp only [step] <;> split <;> rfl
  | processFailedToStart desc =>
    refine FreshIds_of_sublist e _ ?_ ?_ ?_ h <;> simp only [step] <;> split <;> rfl
  | processError err desc => exact FreshIds_of_sublist e _ rfl rfl (List.Sublist.refl _) h
  | processFinished code status =>
    refine FreshIds_of_sublist e _ ?_ ?_ ?_ h
    · simp only [step]; split
      · split <;> rfl
      · rfl
    · simp only [step]; split <;> rfl
    · simp only [step]; split
      · split
        · exact pendingIds_zero _
        · exact pendingIds_zero _
      · exact List.Sublist.refl _
  | childOutput ch lines =>
    refine FreshIds_of_sublist e _ ?_ ?_ ?_ h <;> simp only [step] <;> split <;> rfl
  | readyRead ch now =>
    exact FreshIds_of_sublist e _ (pendingIds_readOutput e.world ch now).2 rfl
      (pendingIds_readOutput e.world ch now).1 h

theorem FreshIds_run (ops : List Op) : ∀ e : Execution, FreshIds e → FreshIds (run e ops) := by
  induction ops with
  | nil => intro e h; exact h
  | cons op ops ih => intro e h; exact ih (step e op) (FreshIds_step e op h)

theorem FreshIds_new : FreshIds Execution.new := by
  intro _
  refine ⟨by decide, ?_, ?_⟩
  · simp [pendingIds, Execution.new, World.new, Private.new]
  · intro p hp
    simp [pendingIds, Execution.new, World.new, Private.new] at hp

theorem run_append (e : Execution) (ops more : List Op) :
    run e (ops ++ more) = run (run e ops) more := by
  simp only [run, List.foldl_append]

theorem run_otherInstance (k : Nat) :
    ∀ e : Execution, e.world.s_nextCmdId + (k : Int) ≤ CMD_ID_MAX →
      run e (List.replicate k Op.otherInstanceCommand) =
        { e with
          world := { e.world with s_nextCmdId := e.world.s_nextCmdId + (k : Int) }
          allocated := e.allocated + k } := by
  induction k with
  | zero => intro e _; simp [run]
  | succ k ih =>
    intro e h
    have hlt : ¬ e.world.s_nextCmdId ≥ CMD_ID_MAX := by push_cast at h; omega
    rw [List.replicate_succ]
    show run (step e Op.otherInstanceCommand) _ = _
    rw [ih]
    · simp only [step, nextCmdId, if_neg hlt]
      have e1 : e.world.s_nextCmdId + 1 + (k : Int) =
          e.world.s_nextCmdId + ((k + 1 : Nat) : Int) := by push_cast; ring
      have e2 : e.allocated + 1 + k = e.allocated + (k + 1) := by omega
      rw [e1, e2]
    · simp only [step, nextCmdId, if_neg hlt]
      push_cast at h ⊢
      omega

/-- C6 (as stated, refuted): a command with id 1 is in flight, other instances of the class
take the next 1999999999 ids from the shared counter, and the next accepted `command()` on the
object returns 1 again, the id of the command that is still running. -/
theorem id_reused_after_wrap :
    accepts
        (run Execution.new
          ([Op.setProgram "exiftool" "", Op.start (fun _ => true) (fun _ => true),
              Op.processStarted, Op.command 0 ["-ver".toList]] ++
            List.replicate 1999999999 Op.otherInstanceCommand)).world ["-ver".toList] = true ∧
      (command
        (run Execution.new
          ([Op.setProgram "exiftool" "", Op.start (fun _ => true) (fun _ => true),
              Op.processStarted, Op.command 0 ["-ver".toList]] ++
            List.replicate 1999999999 Op.otherInstanceCommand)).world 1 ["-ver".toList]).1 =
        (run Execution.new
          ([Op.setProgram "exiftool" "", Op.start (fun _ => true) (fun _ => true),
              Op.processStarted, Op.command 0 ["-ver".toList]] ++
            List.replicate 1999999999 Op.otherInstanceCommand)).world.d.cmdRunning ∧
      (run Execution.new
          ([Op.setProgram "exiftool" "", Op.start (fun _ => true) (fun _ => true),
              Op.processStarted, Op.command 0 ["-ver".toList]] ++
            List.replicate 1999999999 Op.otherInstanceCommand)).world.d.cmdRunning = 1 := by
  have h1 : (run Execution.new
        [Op.setProgram "exiftool" "", Op.start (fun _ => true) (fun _ => true),
          Op.processStarted, Op.command 0 ["-ver".toList]]).world.s_nextCmdId = 2 := by
    decide
  have h2 : (run Execution.new
        [Op.setProgram "exiftool" "", Op.start (fun _ => true) (fun _ => true),
          Op.processStarted, Op.command 0 ["-ver".toList]]).world.d.cmdRunning = 1 := by
    decide
  have h3 : accepts (run Execution.new
        [Op.setProgram "exiftool" "", Op.start (fun _ => true) (fun _ => true),
          Op.processStarted, Op.command 0 ["-ver".toList]]).world ["-ver".toList] = true := by
    decide
  have hsplit : List.replicate 1999999999 Op.otherInstanceCommand =
      List.replicate 1999999998 Op.otherInstanceCommand ++ [Op.otherInstanceCommand] := by
    rw [← List.replicate_succ']
  rw [hsplit, run_append, run_append, run_otherInstance 1999999998 _ (by rw [h1]; decide)]
  generalize run Execution.new _ = e at h1 h2 h3
  have hacc : accepts (run
      { e with
        world := { e.world with s_nextCmdId := e.world.s_nextCmdId + ((1999999998 : Nat) : Int) }
        allocated := e.allocated + 1999999998 } [Op.otherInstanceCommand]).world
      ["-ver".toList] = true := h3
  refine ⟨hacc, ?_, h2⟩
  rw [command_accepted _ 1 _ hacc]
  show nextCmdId (e.world.s_nextCmdId + ((1999999998 : Nat) : Int)) = e.world.d.cmdRunning
  rw [h1, h2]
  decide

/-! ## Order of completions -/


theorem completedIds_append (a b : List Signal) :
    completedIds (a ++ b) = completedIds a ++ completedIds b := by
  induction a with
  | nil => rfl
  | cons x xs ih => cases x <;> simp [completedIds, ih]

theorem buildScript_ne_stayOpenFalse (C : Int) (args : List QByteArray) :
    buildScript C args ≠ stayOpenFalse := by
  intro h
  have h1 : endsWith (buildScript C args) "-execute\n".toList = true := by
    unfold buildScript
    exact endsWith_append _ _
  rw [h] at h1
  exact absurd h1 (by decide)

theorem InOrder_weaken {d d' : Private} {em em' : List Signal} {acc : List Command}
    (h : InOrder d em acc) (hout : d'.out = d.out) (herr : d'.err = d.err)
    (hw : scriptsWritten d'.process.written = scriptsWritten d.process.written)
    (hq : d'.cmdQueue.Sublist d.cmdQueue)
    (hr : d'.cmdRunning = d.cmdRunning ∨ d'.cmdRunning = 0)
    (hem : completedIds em' = completedIds em) : InOrder d' em' acc := by
  obtain ⟨h1, h2, h3, disp, h4, h5, h6, h7⟩ := h
  refine ⟨by rw [hout]; exact h1, by rw [herr]; exact h2, h3, disp, by rw [hw]; exact h4,
    (List.Sublist.append (List.Sublist.refl disp) hq).trans h5, by rw [hem]; exact h6, ?_⟩
  intro hne
  rcases hr with hr | hr
  · rw [hr] at hne ⊢
    rw [hem]
    exact h7 hne
  · exact absurd hr hne

theorem InOrder_execNextCmd {d : Private} {em : List Signal} {acc : List Command} (now : Int)
    (h : InOrder d em acc) : InOrder (execNextCmd d now) em acc := by
  unfold execNextCmd
  split
  · exact h
  · split
    · exact h
    · rename_i hcond
      have hr : d.cmdRunning = 0 := by
        by_contra hx; exact hcond (Or.inl hx)
      split
      · exact h
      · rename_i c q hq
        obtain ⟨_, _, h3, disp, h4, h5, h6, _⟩ := h
        rw [hq] at h5
        have hc : c ∈ acc := h5.subset (by simp)
        refine ⟨fun hx => Bool.noConfusion hx, fun hx => Bool.noConfusion hx, h3,
          disp ++ [c], ?_, ?_, ?_, ?_⟩
        · show scriptsWritten (d.process.written ++ [c.argsStr]) = _
          simp only [scriptsWritten, List.filter_append, List.map_append, List.map_cons,
            List.map_nil] at h4 ⊢
          rw [h4]
          simp [h3 c hc]
        · simpa using h5
        · rw [List.map_append]
          exact h6.trans (List.sublist_append_left _ _)
        · intro _
          exact ⟨disp, c, rfl, rfl, h6⟩

theorem readLines_await_ne (ls : List QByteArray) :
    ∀ c : ChannelState, (c.outReady = true → c.outAwait ≠ 0) →
      ((readLines c ls).1.outReady = true → (readLines c ls).1.outAwait ≠ 0) := by
  induction ls with
  | nil => intro c h; exact h
  | cons l rest ih =>
    intro c h
    rw [readLines]
    split
    · exact h
    · simp only
      split
      · split
        · exact ih _ (by rename_i hr _ _; intro hx; exact absurd hx hr)
        · exact ih _ h
      · rename_i hr ha
        split
        · intro _; exact ha
        · exact ih _ (fun _ => ha)

theorem InOrder_readLoop {d : Private} {em : List Signal} {acc : List Command}
    (ch : ProcessChannel) (h : InOrder d em acc) : InOrder (readLoop d ch) em acc := by
  obtain ⟨h1, h2, h3, h4⟩ := h
  cases ch with
  | StandardOutput => exact ⟨readLines_await_ne _ _ h1, h2, h3, h4⟩
  | StandardError => exact ⟨h1, readLines_await_ne _ _ h2, h3, h4⟩

theorem InOrder_readOutput {w : World} {acc : List Command} (ch : ProcessChannel) (now : Int)
    (h : InOrder w.d w.emitted acc) :
    InOrder (readOutput w ch now).d (readOutput w ch now).emitted acc := by
  have hl := InOrder_readLoop ch h
  unfold readOutput
  simp only
  split
  · exact hl
  · rename_i hready
    simp only [Bool.not_eq_true', Bool.and_eq_false_iff, not_or, Bool.not_eq_false] at hready
    apply InOrder_execNextCmd
    split
    · exact InOrder_weaken hl rfl rfl rfl (List.Sublist.refl _) (Or.inr rfl) rfl
    · rename_i hids
      simp only [not_or, Decidable.not_not] at hids
      obtain ⟨h1, h2, h3, disp, h4, h5, h6, h7⟩ := hl
      have hne : (readLoop w.d ch).cmdRunning ≠ 0 := by
        rw [hids.1]; exact h1 hready.1
      obtain ⟨init, last, hd, hlast, hsub⟩ := h7 hne
      refine ⟨h1, h2, h3, disp, h4, h5, ?_, fun hx => absurd rfl hx⟩
      rw [completedIds_append, hd, List.map_append]
      simp only [completedIds, List.map_cons, List.map_nil, hlast]
      exact List.Sublist.append hsub (List.Sublist.refl _)

theorem scriptsWritten_terminate (written : List QByteArray) :
    scriptsWritten (written ++ [stayOpenFalse]) = scriptsWritten written := by
  simp [scriptsWritten]

theorem InOrder_enqueue {d : Private} {em : List Signal} {acc : List Command} (c : Command)
    (hc : c.argsStr ≠ stayOpenFalse) (h : InOrder d em acc) :
    InOrder { d with cmdQueue := d.cmdQueue ++ [c] } em (acc ++ [c]) := by
  obtain ⟨h1, h2, h3, disp, h4, h5, h6, h7⟩ := h
  refine ⟨h1, h2, ?_, disp, h4, ?_, h6, h7⟩
  · intro x hx
    rcases List.mem_append.mp hx with hx | hx
    · exact h3 x hx
    · rw [List.mem_singleton.mp hx]; exact hc
  · show (disp ++ (d.cmdQueue ++ [c])).Sublist (acc ++ [c])
    rw [← List.append_assoc]
    exact List.Sublist.append h5 (List.Sublist.refl _)

theorem InOrder_step (e : Execution) (op : Op)
    (h : InOrder e.world.d e.world.emitted e.accepted) :
    InOrder (step e op).world.d (step e op).world.emitted (step e op).accepted := by
  cases op with
  | setProgram a b =>
    simp only [step, setProgram]
    split
    · exact h
    · exact InOrder_weaken h rfl rfl rfl (List.Sublist.refl _) (Or.inl rfl) rfl
  | start f g =>
    simp only [step, start]
    split
    · exact h
    · split
      · exact InOrder_weaken h rfl rfl rfl (List.Sublist.refl _) (Or.inl rfl)
          (by simp [setProcessErrorAndEmit, completedIds_append, completedIds])
      · split
        · exact InOrder_weaken h rfl rfl rfl (List.Sublist.refl _) (Or.inl rfl)
            (by simp [setProcessErrorAndEmit, completedIds_append, completedIds])
        · exact InOrder_weaken h rfl rfl rfl (List.nil_sublist _) (Or.inr rfl)
            (by simp [completedIds_append, completedIds])
  | terminate =>
    simp only [step, terminate]
    split
    · exact InOrder_weaken h rfl rfl (scriptsWritten_terminate _) (List.nil_sublist _)
        (Or.inl rfl) rfl
    · exact InOrder_weaken h rfl rfl rfl (List.Sublist.refl _) (Or.inl rfl) rfl
  | kill => exact InOrder_weaken h rfl rfl rfl (List.Sublist.refl _) (Or.inl rfl) rfl
  | command now args =>
    cases hacc : accepts e.world args with
    | false =>
      have h3 := Decidable.not_not.mp (mt (accepts_iff e.world args).mpr (by rw [hacc]; decide))
      have : step e (Op.command now args) = e := by
        simp only [step, hacc, command, if_pos h3, Bool.false_eq_true, if_false]
      rw [this]; exact h
    | true =>
      simp only [step, hacc, if_true, command_accepted e.world now args hacc]
      exact InOrder_execNextCmd now
        (InOrder_enqueue _ (buildScript_ne_stayOpenFalse _ _) h)
  | otherInstanceCommand => exact h
  | processStarted =>
    simp only [step]
    split
    · exact InOrder_weaken h rfl rfl rfl (List.Sublist.refl _) (Or.inl rfl)
        (by simp [slotStarted, slotStateChanged, completedIds_append, completedIds])
    · exact h
  | processFailedToStart desc =>
    simp only [step]
    split
    · exact InOrder_weaken h rfl rfl rfl (List.Sublist.refl _) (Or.inl rfl)
        (by simp [slotErrorOccurred, setProcessErrorAndEmit, slotStateChanged,
          completedIds_append, completedIds])
    · exact h
  | processError err desc =>
    exact InOrder_weaken h rfl rfl rfl (List.Sublist.refl _) (Or.inl rfl)
      (by simp [step, slotErrorOccurred, setProcessErrorAndEmit, completedIds_append,
        completedIds])
  | processFinished code status =>
    simp only [step]
    split
    · split
      · exact InOrder_weaken h rfl rfl rfl (List.Sublist.refl _) (Or.inr rfl)
          (by simp [slotFinished, slotErrorOccurred, setProcessErrorAndEmit, slotStateChanged,
            completedIds_append, completedIds])
      · exact InOrder_weaken h rfl rfl rfl (List.Sublist.refl _) (Or.inr rfl)
          (by simp [slotFinished, slotStateChanged, completedIds_append, completedIds])
    · exact h
  | childOutput ch lines =>
    simp only [step]
    split
    · cases ch <;>
        exact InOrder_weaken h rfl rfl rfl (List.Sublist.refl _) (Or.inl rfl) rfl
    · exact h
  | readyRead ch now => exact InOrder_readOutput ch now h

theorem InOrder_run (ops : List Op) :
    ∀ e : Execution, InOrder e.world.d e.world.emitted e.accepted →
      InOrder (run e ops).world.d (run e ops).world.emitted (run e ops).accepted := by
  induction ops with
  | nil => intro e h; exact h
  | cons op ops ih => intro e h; exact ih (step e op) (InOrder_step e op h)

theorem InOrder_new :
    InOrder Execution.new.world.d Execution.new.world.emitted Execution.new.accepted :=
  ⟨fun h => Bool.noConfusion h, fun h => Bool.noConfusion h,
    fun c hc => absurd hc (List.not_mem_nil c),
    [], rfl, List.Sublist.refl _, List.Sublist.refl _, fun h => absurd rfl h⟩

/-- C9: on every execution of one object, whatever operations it consists of (in particular
`command()` calls and `readOutput()` deliveries), the ids carried by the command-completed
signals, in emission order, are a subsequence of the ids returned by the accepted `command()`
calls, in call order; and the scripts written to the child are, in write order, a subsequence of
the scripts of the accepted commands, in submission order. The queue is first-in first-out: an
accepted `command()` appends at the tail before the dispatcher runs, and a dispatch takes the
head of the queue and writes its script. -/
theorem completion_order (ops : List Op) :
    (completedIds (run Execution.new ops).world.emitted).Sublist
        ((run Execution.new ops).accepted.map Command.id) ∧
      (scriptsWritten (run Execution.new ops).world.d.process.written).Sublist
        ((run Execution.new ops).accepted.map Command.argsStr) ∧
      (∀ (w : World) (now : Int) (args : List QByteArray), accepts w args = true →
        (command w now args).2.d =
          execNextCmd
            { w.d with
              cmdQueue := w.d.cmdQueue ++
                [{ id := (command w now args).1,
                   argsStr := buildScript (command w now args).1 args }] } now) ∧
      ∀ (d : Private) (now : Int) (c : Command) (q : List Command),
        d.process.state = ProcessState.Running → d.writeChannelIsClosed = false →
        d.cmdRunning = 0 → d.cmdQueue = c :: q →
          (execNextCmd d now).cmdQueue = q ∧ (execNextCmd d now).cmdRunning = c.id ∧
            (execNextCmd d now).process.written = d.process.written ++ [c.argsStr] := by
  obtain ⟨_, _, _, disp, h4, h5, h6, _⟩ := InOrder_run ops Execution.new InOrder_new
  have hd : disp.Sublist (run Execution.new ops).accepted :=
    (List.sublist_append_left _ _).trans h5
  refine ⟨h6.trans (hd.map _), by rw [h4]; exact hd.map _, ?_, ?_⟩
  · intro w now args hacc
    rw [command_accepted w now args hacc]
  · intro d now c q hs hw hr hq
    rw [execNextCmd_dispatch d now c q hs hw hr hq]
    exact ⟨rfl, rfl, rfl⟩

theorem completion_order_witness :
    accepts World.busy ["-ver".toList] = true ∧
      (World.started.d.process.state = ProcessState.Running ∧
        World.started.d.writeChannelIsClosed = false ∧ World.started.d.cmdRunning = 0) ∧
      (completedIds (run Execution.new
          [Op.setProgram "exiftool" "", Op.start (fun _ => true) (fun _ => true),
            Op.processStarted, Op.command 0 ["-ver".toList],
            Op.command 1 ["-json".toList, "a.jpg".toList],
            Op.childOutput ProcessChannel.StandardOutput
              ["\x7bawait0000000001\x7d\n".toList, "12.60\n".toList, "\x7bready\x7d\n".toList],
            Op.childOutput ProcessChannel.StandardError
              ["\x7bawait0000000001\x7d\n".toList, "\x7bready\x7d\n".toList],
            Op.readyRead ProcessChannel.StandardOutput 2,
            Op.readyRead ProcessChannel.StandardError 3]).world.emitted).Sublist
        ((run Execution.new
          [Op.setProgram "exiftool" "", Op.start (fun _ => true) (fun _ => true),
            Op.processStarted, Op.command 0 ["-ver".toList],
            Op.command 1 ["-json".toList, "a.jpg".toList],
            Op.childOutput ProcessChannel.StandardOutput
              ["\x7bawait0000000001\x7d\n".toList, "12.60\n".toList, "\x7bready\x7d\n".toList],
            Op.childOutput ProcessChannel.StandardError
              ["\x7bawait0000000001\x7d\n".toList, "\x7bready\x7d\n".toList],
            Op.readyRead ProcessChannel.StandardOutput 2,
            Op.readyRead ProcessChannel.StandardError 3]).accepted.map Command.id) ∧
      (command World.busy 4 ["-ver".toList]).2.d =
        execNextCmd
          { World.busy.d with
            cmdQueue := World.busy.d.cmdQueue ++
              [{ id := (command World.busy 4 ["-ver".toList]).1,
                 argsStr := buildScript (command World.busy 4 ["-ver".toList]).1
                   ["-ver".toList] }] } 4 ∧
      (execNextCmd
          { World.started.d with cmdQueue := [{ id := 7, argsStr := "-ver\n".toList }] }
          5).cmdRunning = 7 :=
  ⟨by decide, by decide,
    (completion_order
      [Op.setProgram "exiftool" "", Op.start (fun _ => true) (fun _ => true),
        Op.processStarted, Op.command 0 ["-ver".toList],
        Op.command 1 ["-json".toList, "a.jpg".toList],
        Op.childOutput ProcessChannel.StandardOutput
          ["\x7bawait0000000001\x7d\n".toList, "12.60\n".toList, "\x7bready\x7d\n".toList],
        Op.childOutput ProcessChannel.StandardError
          ["\x7bawait0000000001\x7d\n".toList, "\x7bready\x7d\n".toList],
        Op.readyRead ProcessChannel.StandardOutput 2,
        Op.readyRead ProcessChannel.StandardError 3]).1,
    (completion_order []).2.2.1 World.busy 4 ["-ver".toList] (by decide),
    ((completion_order []).2.2.2
      { World.started.d with cmdQueue := [{ id := 7, argsStr := "-ver\n".toList }] } 5
      { id := 7, argsStr := "-ver\n".toList } [] (by decide) (by decide) (by decide) rfl).2.1⟩

/-! ## The JSON response adapter -/

theorem argEscapes_append (p s : QString) (hp : '%' ∉ p) :
    argEscapes (p ++ s) = argEscapes s := by
  induction p with
  | nil => rfl
  | cons c cs ih =>
    have hc : c ≠ '%' := fun h => hp (by simp [h])
    have hcs : '%' ∉ cs := fun h => hp (List.mem_cons_of_mem _ h)
    simp only [List.cons_append, argEscapes, hc, if_false]
    exact ih hcs

theorem replaceArgEscapes_append (m : Nat) (a p s : QString) (hp : '%' ∉ p) :
    replaceArgEscapes m a 0 (p ++ s) = p ++ replaceArgEscapes m a 0 s := by
  induction p with
  | nil => rfl
  | cons c cs ih =>
    have hc : c ≠ '%' := fun h => hp (by simp [h])
    have hcs : '%' ∉ cs := fun h => hp (List.mem_cons_of_mem _ h)
    simp only [List.cons_append, replaceArgEscapes, hc, if_false]
    exact congrArg _ (ih hcs)

theorem arg_append (p s a : QString) (hp : '%' ∉ p) (hs : argEscapes s ≠ []) :
    arg (p ++ s) a = p ++ arg s a := by
  unfold arg
  rw [argEscapes_append p s hp]
  cases h : (argEscapes s).min? with
  | none => exact absurd (List.min?_eq_none_iff.mp h) hs
  | some m => exact replaceArgEscapes_append m a p s hp

theorem arg_first (a : QString) :
    arg "%1.%2.%3.%4".toList a = a ++ ".%2.%3.%4".toList := by
  simp [arg, argEscapes, markerAt, replaceArgEscapes]

theorem arg_second (b : QString) :
    arg ".%2.%3.%4".toList b = '.' :: (b ++ ".%3.%4".toList) := by
  simp [arg, argEscapes, markerAt, replaceArgEscapes]

theorem arg_third (c : QString) :
    arg ".%3.%4".toList c = '.' :: (c ++ ".%4".toList) := by
  simp [arg, argEscapes, markerAt, replaceArgEscapes]

theorem arg_fourth (e : QString) :
    arg ".%4".toList e = '.' :: e := by
  simp [arg, argEscapes, markerAt, replaceArgEscapes]

/-- Without a `%` in the first three arguments the chained `arg` calls join the four strings
with dots. -/
theorem tagName_plain (a b c e : QString) (ha : '%' ∉ a) (hb : '%' ∉ b) (hc : '%' ∉ c) :
    tagName a b c e = joinDots [a, b, c, e] := by
  have hab : '%' ∉ a ++ '.' :: b := by
    intro h
    rcases List.mem_append.mp h with h | h
    · exact ha h
    · rcases List.mem_cons.mp h with h | h
      · exact absurd h (by decide)
      · exact hb h
  have habc : '%' ∉ (a ++ '.' :: b) ++ '.' :: c := by
    intro h
    rcases List.mem_append.mp h with h | h
    · exact hab h
    · rcases List.mem_cons.mp h with h | h
      · exact absurd h (by decide)
      · exact hc h
  unfold tagName
  rw [arg_first, arg_append a _ b ha (by decide), arg_second]
  have e1 : a ++ '.' :: (b ++ ".%3.%4".toList) = (a ++ '.' :: b) ++ ".%3.%4".toList := by simp
  rw [e1, arg_append _ _ c hab (by decide), arg_third]
  have e2 : (a ++ '.' :: b) ++ '.' :: (c ++ ".%4".toList) =
      ((a ++ '.' :: b) ++ '.' :: c) ++ ".%4".toList := by simp
  rw [e2, arg_append _ _ e habc (by decide), arg_fourth]
  simp [joinDots]

theorem split_ne_nil (sep : Char) (s : QString) : split sep s ≠ [] := by
  cases s with
  | nil => simp [split]
  | cons c cs =>
    simp only [split]
    split
    · simp
    · split <;> simp

theorem split_plain (sep : Char) (s : QString) (h : sep ∉ s) : split sep s = [s] := by
  induction s with
  | nil => rfl
  | cons c cs ih =>
    have hc : c ≠ sep := fun e => h (by simp [e])
    have hcs : sep ∉ cs := fun e => h (List.mem_cons_of_mem _ e)
    simp only [split, hc, if_false, ih hcs]

theorem split_append_sep (sep : Char) (a b : QString) (h : sep ∉ a) :
    split sep (a ++ sep :: b) = a :: split sep b := by
  induction a with
  | nil => simp [split]
  | cons c cs ih =>
    have hc : c ≠ sep := fun e => h (by simp [e])
    have hcs : sep ∉ cs := fun e => h (List.mem_cons_of_mem _ e)
    have e := ih hcs
    simp only [List.cons_append, split, hc, if_false]
    show (match split sep (cs ++ sep :: b) with
      | [] => [[c]]
      | part :: parts => (c :: part) :: parts) = (c :: cs) :: split sep b
    rw [e]

theorem split_joinDots (segs : List QString) (hne : segs ≠ [])
    (h : ∀ seg ∈ segs, '.' ∉ seg) : split '.' (joinDots segs) = segs := by
  induction segs with
  | nil => exact absurd rfl hne
  | cons s rest ih =>
    cases rest with
    | nil => exact split_plain '.' s (h s (List.mem_cons_self _ _))
    | cons t ts =>
      have hs := h s (List.mem_cons_self _ _)
      show split '.' (s ++ '.' :: joinDots (t :: ts)) = s :: t :: ts
      rw [split_append_sep '.' s _ hs, ih (by simp) (fun seg hseg => h seg (List.mem_cons_of_mem _ hseg))]

theorem storeTag_raw (d : ExifToolParser.Private) (name type : QString) (value val desc : QVariant)
    (ht : d.translate = false)
    (hv : findValue value.toMap "val".toList = some val)
    (hd : findValue value.toMap "desc".toList = some desc) :
    ExifToolParser.storeTag d name type value =
      some { d with parsedMap := d.parsedMap.insert name [[], rawData val.toString, type,
        desc.toString] } := by
  simp only [ExifToolParser.storeTag, hv, hd, ht, rawData, Bool.false_eq_true, if_false]

theorem processEntry_five (d : ExifToolParser.Private) (key s0 s1 s2 s3 s4 : QString)
    (value : QVariant) (h : split ':' key = [s0, s1, s2, s3, s4]) :
    ExifToolParser.processEntry d key value =
      ExifToolParser.storeTag d (tagName s0 s1 s2 s4) s3 value := by
  simp only [ExifToolParser.processEntry, h]

theorem processEntry_four (d : ExifToolParser.Private) (key s0 s1 s2 s3 : QString)
    (value : QVariant) (h : split ':' key = [s0, s1, s2, s3]) :
    ExifToolParser.processEntry d key value =
      ExifToolParser.storeTag d (tagName s0 s1 s2 s3) [] value := by
  simp only [ExifToolParser.processEntry, h]

theorem processEntry_other (d : ExifToolParser.Private) (key : QString) (value : QVariant)
    (h : isTagKey key = false) :
    ExifToolParser.processEntry d key value =
      if (split ':' key).head? = some "SourceFile".toList then
        some { d with parsedPath := value.toString }
      else some d := by
  simp only [isTagKey, Bool.or_eq_false_iff, decide_eq_false_iff_not] at h
  unfold ExifToolParser.processEntry
  split
  · rename_i e; rw [e] at h; exact absurd rfl h.2
  · rename_i e; rw [e] at h; exact absurd rfl h.1
  · rename_i s0 rest _ _ e
    rw [e]
    simp only [List.head?_cons, Option.some.injEq]
  · rename_i e; exact absurd e (split_ne_nil _ _)

theorem isTagKey_cases (key : QString) (h : isTagKey key = true) :
    (∃ s0 s1 s2 s3 s4, split ':' key = [s0, s1, s2, s3, s4]) ∨
      ∃ s0 s1 s2 s3, split ':' key = [s0, s1, s2, s3] := by
  simp only [isTagKey, Bool.or_eq_true, decide_eq_true_eq] at h
  rcases h with h | h
  · right
    match hs : split ':' key, h with
    | [s0, s1, s2, s3], _ => exact ⟨s0, s1, s2, s3, rfl⟩
  · left
    match hs : split ':' key, h with
    | [s0, s1, s2, s3, s4], _ => exact ⟨s0, s1, s2, s3, s4, rfl⟩

theorem keySegments_five (key s0 s1 s2 s3 s4 : QString) (h : split ':' key = [s0, s1, s2, s3, s4]) :
    keySegments key = [s0, s1, s2, s4] ∧ keyType key = s3 := by
  simp only [keySegments, keyType, h, and_self]

theorem keySegments_four (key s0 s1 s2 s3 : QString) (h : split ':' key = [s0, s1, s2, s3]) :
    keySegments key = [s0, s1, s2, s3] ∧ keyType key = [] := by
  simp only [keySegments, keyType, h, and_self]

/-- In raw mode a key with four or five segments whose first three segments contain no `%`,
with a value that has members `val` and `desc`, stores the properties under the dotted name. -/
theorem processEntry_plain (d : ExifToolParser.Private) (key : QString) (value : QVariant)
    (ht : d.translate = false) (hk : isTagKey key = true) (hp : hasProps value = true)
    (hplain : ∀ seg ∈ (keySegments key).take 3, '%' ∉ seg) :
    ∃ val desc : QVariant,
      findValue value.toMap "val".toList = some val ∧
      findValue value.toMap "desc".toList = some desc ∧
      ExifToolParser.processEntry d key value =
        some { d with parsedMap := (d.parsedMap.insert (joinDots (keySegments key))
          [[], rawData val.toString, keyType key, desc.toString]) } := by
  simp only [hasProps, Bool.and_eq_true, Option.isSome_iff_exists] at hp
  obtain ⟨⟨val, hv⟩, ⟨desc, hd⟩⟩ := hp
  refine ⟨val, desc, hv, hd, ?_⟩
  rcases isTagKey_cases key hk with ⟨s0, s1, s2, s3, s4, h⟩ | ⟨s0, s1, s2, s3, h⟩
  · obtain ⟨e1, e2⟩ := keySegments_five key s0 s1 s2 s3 s4 h
    rw [e1] at hplain
    rw [processEntry_five d key s0 s1 s2 s3 s4 value h, storeTag_raw d _ _ value val desc ht hv hd,
      e1, e2, tagName_plain s0 s1 s2 s4 (hplain s0 (by simp)) (hplain s1 (by simp))
        (hplain s2 (by simp))]
  · obtain ⟨e1, e2⟩ := keySegments_four key s0 s1 s2 s3 h
    rw [e1] at hplain
    rw [processEntry_four d key s0 s1 s2 s3 value h, storeTag_raw d _ _ value val desc ht hv hd,
      e1, e2, tagName_plain s0 s1 s2 s3 (hplain s0 (by simp)) (hplain s1 (by simp))
        (hplain s2 (by simp))]

/-- C16 (the code at the failing input): the key `%2:b:c:d:e` has the five segments `%2`, `b`,
`c`, `d`, `e`, and in raw mode its tag is stored under `b.b.c.e`, not under `%2.b.c.e`: the
second `arg` call replaces the marker `%2` that the first call has put into the name. -/
theorem marker_in_segment_rewritten :
    split ':' "%2:b:c:d:e".toList = ["%2".toList, "b".toList, "c".toList, "d".toList, "e".toList] ∧
      ExifToolParser.processEntry (ExifToolParser.setTranslations ExifToolParser.Private.new false)
          "%2:b:c:d:e".toList
          (QVariant.map [("desc".toList, QVariant.string "x".toList),
            ("val".toList, QVariant.string "1".toList)]) =
        some { ExifToolParser.setTranslations ExifToolParser.Private.new false with
          parsedMap := { entries :=
            [("b.b.c.e".toList, [[], "1".toList, "d".toList, "x".toList])] } } ∧
      "b.b.c.e".toList ≠ joinDots ["%2".toList, "b".toList, "c".toList, "e".toList] := by
  decide

/-- C17: in raw mode, for a key with four or five segments whose value has members `val` and
`desc`, the stored value is exactly `binary data...` when the text of `val` begins with
`base64:` and is that text unchanged otherwise; the stored record is the empty string, that
value, the type segment and the text of `desc`. -/
theorem raw_value_substitution (d : ExifToolParser.Private) (key : QString)
    (value val desc : QVariant) (ht : d.translate = false) (hk : isTagKey key = true)
    (hv : findValue value.toMap "val".toList = some val)
    (hd : findValue value.toMap "desc".toList = some desc) :
    ∃ name : QString,
      ExifToolParser.processEntry d key value =
        some { d with parsedMap := (d.parsedMap.insert name
          [[], if startsWith val.toString "base64:".toList then "binary data...".toList
               else val.toString,
            keyType key, desc.toString]) } := by
  rcases isTagKey_cases key hk with ⟨s0, s1, s2, s3, s4, h⟩ | ⟨s0, s1, s2, s3, h⟩
  · refine ⟨tagName s0 s1 s2 s4, ?_⟩
    rw [processEntry_five d key s0 s1 s2 s3 s4 value h, storeTag_raw d _ _ value val desc ht hv hd,
      (keySegments_five key s0 s1 s2 s3 s4 h).2]
    rfl
  · refine ⟨tagName s0 s1 s2 s3, ?_⟩
    rw [processEntry_four d key s0 s1 s2 s3 value h, storeTag_raw d _ _ value val desc ht hv hd,
      (keySegments_four key s0 s1 s2 s3 h).2]
    rfl

theorem raw_value_substitution_witness :
    (ExifToolParser.setTranslations ExifToolParser.Private.new false).translate = false ∧
      isTagKey "EXIF:IFD0:Main:string:UserComment".toList = true ∧
      ExifToolParser.processEntry (ExifToolParser.setTranslations ExifToolParser.Private.new false)
          "EXIF:IFD0:Main:string:UserComment".toList
          (QVariant.map [("desc".toList, QVariant.string "x".toList),
            ("val".toList, QVariant.string "base64:AAECAw==".toList)]) =
        some { ExifToolParser.setTranslations ExifToolParser.Private.new false with
          parsedMap := { entries :=
            [("EXIF.IFD0.Main.UserComment".toList,
              [[], "binary data...".toList, "string".toList, "x".toList])] } } ∧
      ∃ name : QString,
        ExifToolParser.processEntry
            (ExifToolParser.setTranslations ExifToolParser.Private.new false)
            "EXIF:IFD0:Main:string:UserComment".toList
            (QVariant.map [("desc".toList, QVariant.string "x".toList),
              ("val".toList, QVariant.string "plain".toList)]) =
          some { ExifToolParser.setTranslations ExifToolParser.Private.new false with
            parsedMap := ((ExifToolParser.setTranslations ExifToolParser.Private.new
                false).parsedMap.insert name
              [[], if startsWith (QVariant.string "plain".toList).toString "base64:".toList
                   then "binary data...".toList
                   else (QVariant.string "plain".toList).toString,
                keyType "EXIF:IFD0:Main:string:UserComment".toList,
                (QVariant.string "x".toList).toString]) } :=
  ⟨by decide, by decide, by decide,
    raw_value_substitution (ExifToolParser.setTranslations ExifToolParser.Private.new false)
      "EXIF:IFD0:Main:string:UserComment".toList
      (QVariant.map [("desc".toList, QVariant.string "x".toList),
        ("val".toList, QVariant.string "plain".toList)])
      (QVariant.string "plain".toList) (QVariant.string "x".toList)
      (by decide) (by decide) rfl rfl⟩

/-- C18 (as stated, refuted): the key `SourceFile:x` has two segments and is not the key
`SourceFile`, yet processing it sets the parsed file path. -/
theorem sourceFile_prefix_sets_path :
    (split ':' "SourceFile:x".toList).length = 2 ∧
      "SourceFile:x".toList ≠ "SourceFile".toList ∧
      ExifToolParser.processEntry ExifToolParser.Private.new "SourceFile:x".toList
          (QVariant.string "a.jpg".toList) =
        some { ExifToolParser.Private.new with parsedPath := "a.jpg".toList } ∧
      ExifToolParser.Private.new.parsedPath ≠ "a.jpg".toList := by
  decide

/-- C18 (amended): a JSON key with fewer than four or more than five colon-separated segments is
ignored unless its first segment is `SourceFile`: when the first segment is not `SourceFile`,
processing the key changes nothing (neither tag map nor the parsed file path); when it is, only
the parsed file path changes. A single-segment key other than `SourceFile` is of the first
kind. -/
theorem other_keys_ignored (d : ExifToolParser.Private) (key : QString) (value : QVariant)
    (h4 : (split ':' key).length ≠ 4) (h5 : (split ':' key).length ≠ 5) :
    ((split ':' key).head? ≠ some "SourceFile".toList →
        ExifToolParser.processEntry d key value = some d) ∧
      ((split ':' key).head? = some "SourceFile".toList →
        ExifToolParser.processEntry d key value =
          some { d with parsedPath := value.toString }) ∧
      ((split ':' key).length = 1 → key ≠ "SourceFile".toList →
        ExifToolParser.processEntry d key value = some d) := by
  have hk : isTagKey key = false := by
    simp only [isTagKey, Bool.or_eq_false_iff, decide_eq_false_iff_not]
    exact ⟨h4, h5⟩
  have e := processEntry_other d key value hk
  refine ⟨fun h => by rw [e, if_neg h], fun h => by rw [e, if_pos h], fun h1 hne => ?_⟩
  rw [e, if_neg]
  intro hhead
  apply hne
  match hs : split ':' key, h1 with
  | [s0], _ =>
    rw [hs] at hhead
    simp only [List.head?_cons, Option.some.injEq] at hhead
    have hcolon : ':' ∉ key := by
      intro hmem
      obtain ⟨a, b, hab, ha⟩ : ∃ a b, key = a ++ ':' :: b ∧ ':' ∉ a := by
        obtain ⟨a, b, hab, ha⟩ := List.eq_append_cons_of_mem hmem
        exact ⟨a, b, hab, ha⟩
      rw [hab, split_append_sep ':' a b ha] at hs
      have := congrArg List.length hs
      simp only [List.length_cons, List.length_nil] at this
      have hb := split_ne_nil ':' b
      cases hsb : split ':' b with
      | nil => exact hb hsb
      | cons x xs => rw [hsb] at this; simp at this
    rw [split_plain ':' key hcolon] at hs
    simp only [List.cons.injEq, and_true] at hs
    rw [hs, hhead]

theorem other_keys_ignored_witness :
    (split ':' "ExifToolVersion".toList).length ≠ 4 ∧
      (split ':' "ExifToolVersion".toList).length ≠ 5 ∧
      (split ':' "ExifToolVersion".toList).head? ≠ some "SourceFile".toList ∧
      ExifToolParser.processEntry ExifToolParser.Private.new "ExifToolVersion".toList
          (QVariant.scalar "12.6".toList) = some ExifToolParser.Private.new :=
  ⟨by decide, by decide, by decide,
    (other_keys_ignored ExifToolParser.Private.new "ExifToolVersion".toList
      (QVariant.scalar "12.6".toList) (by decide) (by decide)).1 (by decide)⟩

theorem TagsMap.mem_keys_insert (m : TagsMap) (key : QString) (value : List QString)
    (name : QString) : name ∈ (m.insert key value).keys ↔ name = key ∨ name ∈ m.keys := by
  simp only [TagsMap.keys, TagsMap.insert, List.map_cons, List.mem_cons, List.mem_map,
    List.mem_filter, decide_eq_true_eq]
  constructor
  · rintro (h | ⟨e, ⟨he, _⟩, rfl⟩)
    · exact Or.inl h
    · exact Or.inr ⟨e, he, rfl⟩
  · rintro (h | ⟨e, he, rfl⟩)
    · exact Or.inl h
    · by_cases hk : e.1 = key
      · exact Or.inl hk
      · exact Or.inr ⟨e, ⟨he, hk⟩, rfl⟩

theorem TagsMap.nodup_keys_insert (m : TagsMap) (key : QString) (value : List QString)
    (h : m.keys.Nodup) : (m.insert key value).keys.Nodup := by
  simp only [TagsMap.keys, TagsMap.insert, List.map_cons, List.nodup_cons, List.mem_map,
    List.mem_filter, decide_eq_true_eq]
  refine ⟨?_, ?_⟩
  · rintro ⟨e, ⟨_, hne⟩, he⟩
    exact hne he
  · exact (List.Nodup.sublist (List.Sublist.map _ (List.filter_sublist _)) h)

theorem TagsMap.find_isSome (m : TagsMap) (key : QString) :
    (m.find key).isSome = true ↔ key ∈ m.keys := by
  simp only [TagsMap.find, TagsMap.keys, Option.isSome_map', List.find?_isSome, decide_eq_true_eq,
    List.mem_map]

theorem processEntries_keys (entries : List (QString × QVariant)) :
    ∀ d : ExifToolParser.Private, d.translate = false →
      (∀ e ∈ entries, isTagKey e.1 = true → hasProps e.2 = true) →
      (∀ e ∈ entries, isTagKey e.1 = true → ∀ seg ∈ (keySegments e.1).take 3, '%' ∉ seg) →
      d.parsedMap.keys.Nodup →
      ∃ d' : ExifToolParser.Private,
        ExifToolParser.processEntries d entries = some d' ∧ d'.translate = false ∧
          d'.parsedMap.keys.Nodup ∧
          ∀ name, name ∈ d'.parsedMap.keys ↔ name ∈ d.parsedMap.keys ∨ name ∈ tagNames entries := by
  induction entries with
  | nil =>
    intro d ht _ _ hn
    exact ⟨d, rfl, ht, hn, fun name => by simp [tagNames]⟩
  | cons e rest ih =>
    obtain ⟨key, value⟩ := e
    intro d ht hwf hplain hn
    have hwf' : ∀ e ∈ rest, isTagKey e.1 = true → hasProps e.2 = true :=
      fun e he => hwf e (List.mem_cons_of_mem _ he)
    have hplain' : ∀ e ∈ rest, isTagKey e.1 = true →
        ∀ seg ∈ (keySegments e.1).take 3, '%' ∉ seg :=
      fun e he => hplain e (List.mem_cons_of_mem _ he)
    cases hk : isTagKey key with
    | true =>
      obtain ⟨val, desc, _, _, hpe⟩ := processEntry_plain d key value ht hk
        (hwf (key, value) (List.mem_cons_self _ _) hk)
        (hplain (key, value) (List.mem_cons_self _ _) hk)
      obtain ⟨d', h1, h2, h3, h4⟩ := ih _ (show ({ d with parsedMap := (d.parsedMap.insert
        (joinDots (keySegments key)) [[], rawData val.toString, keyType key, desc.toString]) } :
          ExifToolParser.Private).translate = false from ht) hwf' hplain'
        (TagsMap.nodup_keys_insert _ _ _ hn)
      refine ⟨d', ?_, h2, h3, ?_⟩
      · simp only [ExifToolParser.processEntries, hpe, h1]
      · intro name
        rw [h4 name]
        simp only [TagsMap.mem_keys_insert, tagNames, List.filter_cons, hk, if_true, List.map_cons,
          List.mem_cons]
        tauto
    | false =>
      have hpe := processEntry_other d key value hk
      have hnames : tagNames ((key, value) :: rest) = tagNames rest := by
        simp [tagNames, List.filter_cons, hk]
      by_cases hsf : (split ':' key).head? = some "SourceFile".toList
      · rw [if_pos hsf] at hpe
        obtain ⟨d', h1, h2, h3, h4⟩ := ih { d with parsedPath := value.toString } ht hwf' hplain' hn
        exact ⟨d', by simp only [ExifToolParser.processEntries, hpe, h1], h2, h3,
          fun name => by rw [hnames]; exact h4 name⟩
      · rw [if_neg hsf] at hpe
        obtain ⟨d', h1, h2, h3, h4⟩ := ih d ht hwf' hplain' hn
        exact ⟨d', by simp only [ExifToolParser.processEntries, hpe, h1], h2, h3,
          fun name => by rw [hnames]; exact h4 name⟩

/-- C19 (as stated, refuted): the two distinct keys `A:B:C:int8u:N` and `A:B:C:N` have five and
four segments, and in raw mode they share the single tag `A.B.C.N`. -/
theorem keys_share_a_tag :
    isTagKey "A:B:C:int8u:N".toList = true ∧ isTagKey "A:B:C:N".toList = true ∧
      "A:B:C:int8u:N".toList ≠ "A:B:C:N".toList ∧
      (ExifToolParser.processEntries
          (ExifToolParser.setTranslations ExifToolParser.Private.new false)
          [("A:B:C:N".toList,
              QVariant.map [("desc".toList, QVariant.string "n".toList),
                ("val".toList, QVariant.string "1".toList)]),
            ("A:B:C:int8u:N".toList,
              QVariant.map [("desc".toList, QVariant.string "n".toList),
                ("val".toList, QVariant.string "2".toList)])]).map
          (fun d => d.parsedMap.entries) =
        some [("A.B.C.N".toList, [[], "2".toList, "int8u".toList, "n".toList])] := by
  decide

/-- C19 (amended): in raw mode, for every JSON object whose members with a four- or five-segment
key have a value with `val` and `desc` and no `%` in the segments `g0`, `g1`, `g2`: parsing
succeeds, every such key yields a tag stored under the segments `g0`, `g1`, `g2`, `name` joined
by dots, the tags are exactly those dotted names (so the number of tags is the number of distinct
dotted names, at most the number of such keys, and keys with different dotted names never share a
tag), and when no segment contains a dot the segments are recovered, in order, by splitting the
dotted name at the dots. -/
theorem raw_keys_to_tags (d : ExifToolParser.Private) (entries : List (QString × QVariant))
    (ht : d.translate = false) (hempty : d.parsedMap.entries = [])
    (hwf : ∀ e ∈ entries, isTagKey e.1 = true → hasProps e.2 = true)
    (hplain : ∀ e ∈ entries, isTagKey e.1 = true →
      ∀ seg ∈ (keySegments e.1).take 3, '%' ∉ seg) :
    ∃ d' : ExifToolParser.Private,
      ExifToolParser.processEntries d entries = some d' ∧
        (∀ name, name ∈ d'.parsedMap.keys ↔ name ∈ tagNames entries) ∧
        (∀ e ∈ entries, isTagKey e.1 = true →
          (d'.parsedMap.find (joinDots (keySegments e.1))).isSome = true) ∧
        d'.parsedMap.size = (tagNames entries).dedup.length ∧
        d'.parsedMap.size ≤ (entries.filter (fun e => isTagKey e.1)).length ∧
        ∀ e ∈ entries, isTagKey e.1 = true → (∀ seg ∈ keySegments e.1, '.' ∉ seg) →
          split '.' (joinDots (keySegments e.1)) = keySegments e.1 := by
  have hn : d.parsedMap.keys.Nodup := by simp [TagsMap.keys, hempty]
  obtain ⟨d', h1, _, h3, h4⟩ := processEntries_keys entries d ht hwf hplain hn
  have hkeys : ∀ name, name ∈ d'.parsedMap.keys ↔ name ∈ tagNames entries := by
    intro name
    rw [h4 name]
    simp [TagsMap.keys, hempty]
  have hperm : d'.parsedMap.keys.Perm (tagNames entries).dedup :=
    (List.perm_ext_iff_of_nodup h3 (List.nodup_dedup _)).mpr
      (fun name => by rw [hkeys name, List.mem_dedup])
  have hsize : d'.parsedMap.size = (tagNames entries).dedup.length := by
    rw [← hperm.length_eq]
    simp [TagsMap.size, TagsMap.keys]
  refine ⟨d', h1, hkeys, ?_, hsize, ?_, ?_⟩
  · intro e he hk
    rw [TagsMap.find_isSome, hkeys]
    simp only [tagNames, List.mem_map, List.mem_filter]
    exact ⟨e, ⟨he, hk⟩, rfl⟩
  · rw [hsize]
    refine (List.Sublist.length_le (List.dedup_sublist _)).trans ?_
    simp [tagNames]
  · intro e _ hk hdots
    refine split_joinDots _ ?_ hdots
    rcases isTagKey_cases e.1 hk with ⟨s0, s1, s2, s3, s4, h⟩ | ⟨s0, s1, s2, s3, h⟩
    · rw [(keySegments_five _ s0 s1 s2 s3 s4 h).1]; simp
    · rw [(keySegments_four _ s0 s1 s2 s3 h).1]; simp

theorem raw_keys_to_tags_witness :
    (ExifToolParser.setTranslations ExifToolParser.Private.new false).translate = false ∧
      (∀ e ∈ [("SourceFile".toList, QVariant.string "a.jpg".toList),
            ("EXIF:IFD0:Image:int16u:Orientation".toList,
              QVariant.map [("desc".toList, QVariant.string "Orientation".toList),
                ("val".toList, QVariant.scalar "1".toList)]),
            ("File:System:Image:FileName".toList,
              QVariant.map [("desc".toList, QVariant.string "File Name".toList),
                ("val".toList, QVariant.string "a.jpg".toList)])],
        isTagKey e.1 = true → hasProps e.2 = true) ∧
      (ExifToolParser.processEntries
          (ExifToolParser.setTranslations ExifToolParser.Private.new false)
          [("SourceFile".toList, QVariant.string "a.jpg".toList),
            ("EXIF:IFD0:Image:int16u:Orientation".toList,
              QVariant.map [("desc".toList, QVariant.string "Orientation".toList),
                ("val".toList, QVariant.scalar "1".toList)]),
            ("File:System:Image:FileName".toList,
              QVariant.map [("desc".toList, QVariant.string "File Name".toList),
                ("val".toList, QVariant.string "a.jpg".toList)])]).map
          (fun d => d.parsedMap.keys) =
        some ["File.System.Image.FileName".toList, "EXIF.IFD0.Image.Orientation".toList] ∧
      ∃ d' : ExifToolParser.Private,
        ExifToolParser.processEntries
            (ExifToolParser.setTranslations ExifToolParser.Private.new false)
            [("SourceFile".toList, QVariant.string "a.jpg".toList),
              ("EXIF:IFD0:Image:int16u:Orientation".toList,
                QVariant.map [("desc".toList, QVariant.string "Orientation".toList),
                  ("val".toList, QVariant.scalar "1".toList)]),
              ("File:System:Image:FileName".toList,
                QVariant.map [("desc".toList, QVariant.string "File Name".toList),
                  ("val".toList, QVariant.string "a.jpg".toList)])] = some d' ∧
          d'.parsedMap.size ≤ 2 :=
  ⟨by decide, by decide, by decide,
    (raw_keys_to_tags (ExifToolParser.setTranslations ExifToolParser.Private.new false)
      [("SourceFile".toList, QVariant.string "a.jpg".toList),
        ("EXIF:IFD0:Image:int16u:Orientation".toList,
          QVariant.map [("desc".toList, QVariant.string "Orientation".toList),
            ("val".toList, QVariant.scalar "1".toList)]),
        ("File:System:Image:FileName".toList,
          QVariant.map [("desc".toList, QVariant.string "File Name".toList),
            ("val".toList, QVariant.string "a.jpg".toList)])]
      (by decide) (by decide) (by decide) (by decide)).imp
      (fun _ h => ⟨h.1, h.2.2.2.2.1⟩)⟩


/-! ## Line endings -/

theorem normalizeLine_crlf (s : QByteArray) :
    normalizeLine (s ++ "\r\n".toList) = s ++ "\n".toList := by
  have he : endsWith (s ++ "\r\n".toList) "\r\n".toList = true := by simp [endsWith]
  have hl : (s ++ "\r\n".toList).length - 2 = s.length := by
    rw [List.length_append]
    show s.length + 2 - 2 = s.length
    omega
  simp only [normalizeLine, he, if_true, remove, hl]
  rw [List.take_left, List.drop_append]
  rfl

theorem endsWith_lf (s : QByteArray) (hs : endsWith s "\r".toList = false) :
    endsWith (s ++ "\n".toList) "\r\n".toList = false := by
  cases h : endsWith (s ++ "\n".toList) "\r\n".toList with
  | false => rfl
  | true =>
    have h1 : "\r\n".toList <:+ s ++ "\n".toList := by
      simpa [endsWith] using h
    have h2 : "\r".toList <:+ s := by
      have e1 : "\r\n".toList = "\r".toList ++ ['\n'] := by decide
      have e2 : "\n".toList = ['\n'] := by decide
      rw [e1, e2] at h1
      rw [← List.reverse_prefix] at h1 ⊢
      simp only [List.reverse_append, List.reverse_cons, List.reverse_nil, List.nil_append,
        List.singleton_append] at h1
      exact (List.cons_prefix_cons.mp h1).2
    have : endsWith s "\r".toList = true := by simpa [endsWith] using h2
    rw [hs] at this
    exact absurd this (by decide)

theorem normalizeLine_lf (s : QByteArray) (hs : endsWith s "\r".toList = false) :
    normalizeLine (s ++ "\n".toList) = s ++ "\n".toList := by
  simp only [normalizeLine, endsWith_lf s hs, Bool.false_eq_true, if_false]

theorem readLines_congr (c : ChannelState) (l1 l2 : QByteArray) (rest : List QByteArray)
    (h : normalizeLine l1 = normalizeLine l2) :
    (readLines c (l1 :: rest)).1 = (readLines c (l2 :: rest)).1 ∧
      (c.outReady = false → readLines c (l1 :: rest) = readLines c (l2 :: rest)) := by
  rw [readLines, readLines, h]
  cases hr : c.outReady with
  | true => simp
  | false => simp

/-- C20: for every line content `s` that does not end with `\r`, reading the line `s ++ \r\n`
has exactly the same effect on the channel state (awaited id, buffer, ready flag) as reading
`s ++ \n`, and unless the channel was already ready the same lines are left unread. In particular `{await<t>}\r\n` is recognised as an await
marker, `{ready}\r\n` as a ready marker, and a collected payload line is stored with a single
`\n` ending. -/
theorem crlf_same_as_lf (c : ChannelState) (s : QByteArray) (rest : List QByteArray)
    (hs : endsWith s "\r".toList = false) :
    (readLines c ((s ++ "\r\n".toList) :: rest)).1 =
        (readLines c ((s ++ "\n".toList) :: rest)).1 ∧
      (c.outReady = false →
        readLines c ((s ++ "\r\n".toList) :: rest) =
          readLines c ((s ++ "\n".toList) :: rest)) ∧
      (∀ (t b : QByteArray),
        readLines { outAwait := 0, outReady := false, outBuff := b }
            (("\x7bawait".toList ++ t ++ "\x7d\r\n".toList) :: rest) =
          readLines { outAwait := toInt t, outReady := false, outBuff := b } rest) ∧
      (∀ (N : Int) (b : QByteArray), N ≠ 0 →
        readLines { outAwait := N, outReady := false, outBuff := b }
            ("\x7bready\x7d\r\n".toList :: rest) =
          ({ outAwait := N, outReady := true, outBuff := b }, rest)) ∧
      ∀ (N : Int) (b : QByteArray), N ≠ 0 →
        endsWith (s ++ "\n".toList) "\x7bready\x7d\n".toList = false →
        readLines { outAwait := N, outReady := false, outBuff := b }
            ((s ++ "\r\n".toList) :: rest) =
          readLines { outAwait := N, outReady := false, outBuff := b ++ (s ++ "\n".toList) }
            rest := by
  have hc := readLines_congr c (s ++ "\r\n".toList) (s ++ "\n".toList) rest
    (by rw [normalizeLine_crlf, normalizeLine_lf s hs])
  refine ⟨hc.1, hc.2, ?_, ?_, ?_⟩
  · intro t b
    have e : "\x7bawait".toList ++ t ++ "\x7d\r\n".toList =
        ("\x7bawait".toList ++ t ++ "\x7d".toList) ++ "\r\n".toList := by simp
    refine readLines_await b t _ rest ?_
    rw [e, normalizeLine_crlf]
    simp
  · intro N b hN
    have e : "\x7bready\x7d\r\n".toList = "\x7bready\x7d".toList ++ "\r\n".toList := by decide
    have h := readLines_finish N hN b [] "\x7bready\x7d\r\n".toList rest
      (by rw [e, normalizeLine_crlf]; rfl)
    simpa using h
  · intro N b hN hnr
    have h := readLines_collect N hN [s ++ "\r\n".toList] rest
      (by
        intro p hp
        rw [List.mem_singleton.mp hp, normalizeLine_crlf]
        exact hnr) b
    have hflat : ([s ++ "\r\n".toList].map normalizeLine).flatten = s ++ "\n".toList := by
      simp only [List.map_cons, List.map_nil, List.flatten_cons, List.flatten_nil,
        List.append_nil, normalizeLine_crlf]
    rw [hflat] at h
    exact h

theorem crlf_same_as_lf_witness :
    endsWith "\x7bready\x7d".toList "\r".toList = false ∧
      readLines { outAwait := 7, outReady := false, outBuff := "a\n".toList }
          [("\x7bready\x7d".toList ++ "\r\n".toList), "x\n".toList] =
        ({ outAwait := 7, outReady := true, outBuff := "a\n".toList }, ["x\n".toList]) ∧
      readLines { outAwait := 7, outReady := false, outBuff := "a\n".toList }
          [("\x7bready\x7d".toList ++ "\r\n".toList), "x\n".toList] =
        readLines { outAwait := 7, outReady := false, outBuff := "a\n".toList }
          [("\x7bready\x7d".toList ++ "\n".toList), "x\n".toList] :=
  ⟨by decide, by decide,
    (crlf_same_as_lf { outAwait := 7, outReady := false, outBuff := "a\n".toList }
      "\x7bready\x7d".toList ["x\n".toList] (by decide)).2.1 rfl⟩

/-! ## Starting the helper -/

/-- C14: `start()` on a not-running object whose helper (and interpreter, if set) exists and is
executable launches the child with program = helper and arguments `-stay_open`, `true`, `-@`,
`-`, or, when an interpreter path is set, with program = interpreter and arguments helper,
`-stay_open`, `true`, `-@`, `-`; it also empties the queue, sets `cmdRunning` to 0, resets the
error kind to `UnknownError` with an empty message and marks the write channel open. -/
theorem start_launches (w : World) (fileExists exeUser : String → Bool)
    (hstate : w.d.process.state = ProcessState.NotRunning)
    (het : fileExists w.d.etExePath = true ∧ exeUser w.d.etExePath = true)
    (hperl : w.d.perlExePath.isEmpty = false →
      fileExists w.d.perlExePath = true ∧ exeUser w.d.perlExePath = true) :
    (w.d.perlExePath.isEmpty = true →
        (start w fileExists exeUser).d.process.launched =
          w.d.process.launched ++ [(w.d.etExePath, ["-stay_open", "true", "-@", "-"])]) ∧
      (w.d.perlExePath.isEmpty = false →
        (start w fileExists exeUser).d.process.launched =
          w.d.process.launched ++
            [(w.d.perlExePath, [w.d.etExePath, "-stay_open", "true", "-@", "-"])]) ∧
      (start w fileExists exeUser).d.cmdQueue = [] ∧
      (start w fileExists exeUser).d.cmdRunning = 0 ∧
      (start w fileExists exeUser).d.processError = ProcessError.UnknownError ∧
      (start w fileExists exeUser).d.errorString = "" ∧
      (start w fileExists exeUser).d.writeChannelIsClosed = false := by
  cases hp : w.d.perlExePath.isEmpty with
  | true =>
    simp [start, hstate, het.1, het.2, hp]
  | false =>
    obtain ⟨h1, h2⟩ := hperl hp
    simp [start, hstate, het.1, het.2, hp, h1, h2]

theorem start_launches_witness :
    (setProgram World.new "/usr/bin/exiftool" "/usr/bin/perl").d.process.state =
        ProcessState.NotRunning ∧
      (setProgram World.new "/usr/bin/exiftool" "/usr/bin/perl").d.perlExePath.isEmpty = false ∧
      (start (setProgram World.new "/usr/bin/exiftool" "/usr/bin/perl")
          (fun _ => true) (fun _ => true)).d.process.launched =
        (setProgram World.new "/usr/bin/exiftool" "/usr/bin/perl").d.process.launched ++
          [("/usr/bin/perl", ["/usr/bin/exiftool", "-stay_open", "true", "-@", "-"])] ∧
      (start (setProgram World.new "/usr/bin/exiftool" "")
          (fun _ => true) (fun _ => true)).d.process.launched =
        [("/usr/bin/exiftool", ["-stay_open", "true", "-@", "-"])] :=
  ⟨by decide, by decide,
    (start_launches (setProgram World.new "/usr/bin/exiftool" "/usr/bin/perl")
      (fun _ => true) (fun _ => true) (by decide) ⟨rfl, rfl⟩ (fun _ => ⟨rfl, rfl⟩)).2.1
      (by decide),
    (start_launches (setProgram World.new "/usr/bin/exiftool" "")
      (fun _ => true) (fun _ => true) (by decide) ⟨rfl, rfl⟩ (fun _ => ⟨rfl, rfl⟩)).1
      (by decide)⟩

/-- C15: `start()` on a not-running object fails without launching when the helper path does
not exist or is not executable, or when an interpreter path is set and does not exist or is not
executable: the error kind becomes `FailedToStart` with a non-empty message, exactly one
error signal is emitted, the child handle is untouched (nothing is spawned), and the queue,
`cmdRunning` and the write-channel flag are unchanged. -/
theorem start_fails (w : World) (fileExists exeUser : String → Bool)
    (hstate : w.d.process.state = ProcessState.NotRunning)
    (hfail : (fileExists w.d.etExePath = false ∨ exeUser w.d.etExePath = false) ∨
      (w.d.perlExePath.isEmpty = false ∧
        (fileExists w.d.perlExePath = false ∨ exeUser w.d.perlExePath = false))) :
    (start w fileExists exeUser).d.processError = ProcessError.FailedToStart ∧
      (start w fileExists exeUser).d.errorString ≠ "" ∧
      (start w fileExists exeUser).emitted =
        w.emitted ++ [Signal.ErrorOccurred ProcessError.FailedToStart] ∧
      (start w fileExists exeUser).d.process = w.d.process ∧
      (start w fileExists exeUser).d.cmdQueue = w.d.cmdQueue ∧
      (start w fileExists exeUser).d.cmdRunning = w.d.cmdRunning ∧
      (start w fileExists exeUser).d.writeChannelIsClosed = w.d.writeChannelIsClosed ∧
      (start w fileExists exeUser).s_nextCmdId = w.s_nextCmdId := by
  have hmsg : ∀ msg : String, msg ≠ "" →
      start w fileExists exeUser = setProcessErrorAndEmit w ProcessError.FailedToStart msg →
      (start w fileExists exeUser).d.processError = ProcessError.FailedToStart ∧
      (start w fileExists exeUser).d.errorString ≠ "" ∧
      (start w fileExists exeUser).emitted =
        w.emitted ++ [Signal.ErrorOccurred ProcessError.FailedToStart] ∧
      (start w fileExists exeUser).d.process = w.d.process ∧
      (start w fileExists exeUser).d.cmdQueue = w.d.cmdQueue ∧
      (start w fileExists exeUser).d.cmdRunning = w.d.cmdRunning ∧
      (start w fileExists exeUser).d.writeChannelIsClosed = w.d.writeChannelIsClosed ∧
      (start w fileExists exeUser).s_nextCmdId = w.s_nextCmdId := by
    intro msg hne e
    rw [e]
    exact ⟨rfl, hne, rfl, rfl, rfl, rfl, rfl, rfl⟩
  have hs : ¬ w.d.process.state ≠ ProcessState.NotRunning := fun h => h hstate
  by_cases h1 : (!fileExists w.d.etExePath || !exeUser w.d.etExePath) = true
  · exact hmsg "ExifTool does not exists or exec permission is missing" (by decide)
      (by simp only [start, if_neg hs, if_pos h1])
  · have h2 : (!w.d.perlExePath.isEmpty &&
        (!fileExists w.d.perlExePath || !exeUser w.d.perlExePath)) = true := by
      rcases hfail with h | ⟨hp, h⟩
      · exfalso; apply h1
        rcases h with h | h <;> simp [h]
      · rcases h with h | h <;> simp [hp, h]
    exact hmsg "Perl does not exists or exec permission is missing" (by decide)
      (by simp only [start, if_neg hs, if_neg h1, if_pos h2])

theorem start_fails_witness :
    World.new.d.process.state = ProcessState.NotRunning ∧
      (start World.new (fun _ => false) (fun _ => true)).d.processError =
        ProcessError.FailedToStart ∧
      (start World.new (fun _ => false) (fun _ => true)).emitted =
        [Signal.ErrorOccurred ProcessError.FailedToStart] ∧
      (start World.new (fun _ => false) (fun _ => true)).d.process = World.new.d.process :=
  ⟨by decide,
    (start_fails World.new (fun _ => false) (fun _ => true) (by decide)
      (Or.inl (Or.inl rfl))).1,
    (start_fails World.new (fun _ => false) (fun _ => true) (by decide)
      (Or.inl (Or.inl rfl))).2.2.1,
    (start_fails World.new (fun _ => false) (fun _ => true) (by decide)
      (Or.inl (Or.inl rfl))).2.2.2.1⟩


/-! ## Order relative to a reference point -/

theorem InOrderFrom_weaken {b : Baseline} {d d' : Private} {em em' : List Signal}
    {acc : List Command}
    (h : InOrderFrom b d em acc) (hout : d'.out = d.out) (herr : d'.err = d.err)
    (hw : scriptsWritten d'.process.written = scriptsWritten d.process.written)
    (hq : d'.cmdQueue.Sublist d.cmdQueue)
    (hr : d'.cmdRunning = d.cmdRunning ∨ d'.cmdRunning = 0)
    (hem : completedIds em' = completedIds em) : InOrderFrom b d' em' acc := by
  obtain ⟨h1, h2, disp, later, newIds, h3, h4, h5, h6, h7, h8, h9⟩ := h
  refine ⟨by rw [hout]; exact h1, by rw [herr]; exact h2, disp, later, newIds, h3, h4,
    by rw [hw]; exact h5, (List.Sublist.append (List.Sublist.refl disp) hq).trans h6,
    by rw [hem]; exact h7, h8, ?_⟩
  intro hne
  rcases hr with hr | hr
  · rw [hr] at hne ⊢
    exact h9 hne
  · exact absurd hr hne

theorem InOrderFrom_execNextCmd {b : Baseline} {d : Private} {em : List Signal}
    {acc : List Command} (now : Int)
    (h : InOrderFrom b d em acc) : InOrderFrom b (execNextCmd d now) em acc := by
  unfold execNextCmd
  split
  · exact h
  · split
    · exact h
    · rename_i hcond
      have hr : d.cmdRunning = 0 := by
        by_contra hx; exact hcond (Or.inl hx)
      split
      · exact h
      · rename_i c q hq
        obtain ⟨_, _, disp, later, newIds, h3, h4, h5, h6, h7, h8, _⟩ := h
        rw [hq] at h6
        have hc : c ∈ b.queue ++ later := h6.subset (by simp)
        refine ⟨fun hx => Bool.noConfusion hx, fun hx => Bool.noConfusion hx,
          disp ++ [c], later, newIds, h3, h4, ?_, ?_, h7, ?_, ?_⟩
        · show scriptsWritten (d.process.written ++ [c.argsStr]) = _
          simp only [scriptsWritten, List.filter_append, List.map_append, List.map_cons,
            List.map_nil] at h5 ⊢
          rw [h5]
          simp [h4 c hc]
        · simpa using h6
        · rw [List.map_append, ← List.append_assoc]
          exact h8.trans (List.sublist_append_left _ _)
        · intro _
          exact Or.inr ⟨disp, c, rfl, rfl, h8⟩

theorem InOrderFrom_readLoop {b : Baseline} {d : Private} {em : List Signal}
    {acc : List Command} (ch : ProcessChannel) (h : InOrderFrom b d em acc) :
    InOrderFrom b (readLoop d ch) em acc := by
  obtain ⟨h1, h2, h3⟩ := h
  cases ch with
  | StandardOutput => exact ⟨readLines_await_ne _ _ h1, h2, h3⟩
  | StandardError => exact ⟨h1, readLines_await_ne _ _ h2, h3⟩

theorem InOrderFrom_readOutput {b : Baseline} {w : World} {acc : List Command}
    (ch : ProcessChannel) (now : Int) (h : InOrderFrom b w.d w.emitted acc) :
    InOrderFrom b (readOutput w ch now).d (readOutput w ch now).emitted acc := by
  have hl := InOrderFrom_readLoop ch h
  unfold readOutput
  simp only
  split
  · exact hl
  · rename_i hready
    simp only [Bool.not_eq_true', Bool.and_eq_false_iff, not_or, Bool.not_eq_false] at hready
    apply InOrderFrom_execNextCmd
    split
    · exact InOrderFrom_weaken hl rfl rfl rfl (List.Sublist.refl _) (Or.inr rfl) rfl
    · rename_i hids
      simp only [not_or, Decidable.not_not] at hids
      obtain ⟨h1, h2, disp, later, newIds, h3, h4, h5, h6, h7, h8, h9⟩ := hl
      have hne : (readLoop w.d ch).cmdRunning ≠ 0 := by
        rw [hids.1]; exact h1 hready.1
      have hcomp : completedIds (w.emitted ++
          [Signal.CmdCompleted (readLoop w.d ch).cmdRunning
            (toInt32 (now - (readLoop w.d ch).execTimer))
            (readLoop w.d ch).out.outBuff (readLoop w.d ch).err.outBuff]) =
          b.completed ++ (newIds ++ [(readLoop w.d ch).cmdRunning]) := by
        rw [completedIds_append, h7, List.append_assoc]
        rfl
      refine ⟨h1, h2, disp, later, newIds ++ [(readLoop w.d ch).cmdRunning], h3, h4, h5, h6,
        hcomp, ?_, fun hx => absurd rfl hx⟩
      rcases h9 hne with ⟨hd, hrun, hnew⟩ | ⟨init, last, hd, hlast, hsub⟩
      · rw [hd, hnew, hrun]
        have hb : b.running ≠ 0 := by rw [← hrun]; exact hne
        simp [Baseline.inFlight, hb]
      · rw [hd, List.map_append, ← List.append_assoc, ← hlast]
        exact List.Sublist.append hsub (List.Sublist.refl _)

theorem InOrderFrom_enqueue {b : Baseline} {d : Private} {em : List Signal}
    {acc : List Command} (c : Command)
    (hc : c.argsStr ≠ stayOpenFalse) (h : InOrderFrom b d em acc) :
    InOrderFrom b { d with cmdQueue := d.cmdQueue ++ [c] } em (acc ++ [c]) := by
  obtain ⟨h1, h2, disp, later, newIds, h3, h4, h5, h6, h7, h8, h9⟩ := h
  refine ⟨h1, h2, disp, later ++ [c], newIds, by rw [h3, List.append_assoc], ?_, h5, ?_, h7, h8,
    h9⟩
  · intro x hx
    rw [← List.append_assoc] at hx
    rcases List.mem_append.mp hx with hx | hx
    · exact h4 x hx
    · rw [List.mem_singleton.mp hx]; exact hc
  · show (disp ++ (d.cmdQueue ++ [c])).Sublist (b.queue ++ (later ++ [c]))
    rw [← List.append_assoc, ← List.append_assoc]
    exact List.Sublist.append h6 (List.Sublist.refl _)

theorem InOrderFrom_step (b : Baseline) (e : Execution) (op : Op)
    (h : InOrderFrom b e.world.d e.world.emitted e.accepted) :
    InOrderFrom b (step e op).world.d (step e op).world.emitted (step e op).accepted := by
  cases op with
  | setProgram a b =>
    simp only [step, setProgram]
    split
    · exact h
    · exact InOrderFrom_weaken h rfl rfl rfl (List.Sublist.refl _) (Or.inl rfl) rfl
  | start f g =>
    simp only [step, start]
    split
    · exact h
    · split
      · exact InOrderFrom_weaken h rfl rfl rfl (List.Sublist.refl _) (Or.inl rfl)
          (by simp [setProcessErrorAndEmit, completedIds_append, completedIds])
      · split
        · exact InOrderFrom_weaken h rfl rfl rfl (List.Sublist.refl _) (Or.inl rfl)
            (by simp [setProcessErrorAndEmit, completedIds_append, completedIds])
        · exact InOrderFrom_weaken h rfl rfl rfl (List.nil_sublist _) (Or.inr rfl)
            (by simp [completedIds_append, completedIds])
  | terminate =>
    simp only [step, terminate]
    split
    · exact InOrderFrom_weaken h rfl rfl (scriptsWritten_terminate _) (List.nil_sublist _)
        (Or.inl rfl) rfl
    · exact InOrderFrom_weaken h rfl rfl rfl (List.Sublist.refl _) (Or.inl rfl) rfl
  | kill => exact InOrderFrom_weaken h rfl rfl rfl (List.Sublist.refl _) (Or.inl rfl) rfl
  | command now args =>
    cases hacc : accepts e.world args with
    | false =>
      have h3 := Decidable.not_not.mp (mt (accepts_iff e.world args).mpr (by rw [hacc]; decide))
      have : step e (Op.command now args) = e := by
        simp only [step, hacc, command, if_pos h3, Bool.false_eq_true, if_false]
      rw [this]; exact h
    | true =>
      simp only [step, hacc, if_true, command_accepted e.world now args hacc]
      exact InOrderFrom_execNextCmd now
        (InOrderFrom_enqueue _ (buildScript_ne_stayOpenFalse _ _) h)
  | otherInstanceCommand => exact h
  | processStarted =>
    simp only [step]
    split
    · exact InOrderFrom_weaken h rfl rfl rfl (List.Sublist.refl _) (Or.inl rfl)
        (by simp [slotStarted, slotStateChanged, completedIds_append, completedIds])
    · exact h
  | processFailedToStart desc =>
    simp only [step]
    split
    · exact InOrderFrom_weaken h rfl rfl rfl (List.Sublist.refl _) (Or.inl rfl)
        (by simp [slotErrorOccurred, setProcessErrorAndEmit, slotStateChanged,
          completedIds_append, completedIds])
    · exact h
  | processError err desc =>
    exact InOrderFrom_weaken h rfl rfl rfl (List.Sublist.refl _) (Or.inl rfl)
      (by simp [step, slotErrorOccurred, setProcessErrorAndEmit, completedIds_append,
        completedIds])
  | processFinished code status =>
    simp only [step]
    split
    · split
      · exact InOrderFrom_weaken h rfl rfl rfl (List.Sublist.refl _) (Or.inr rfl)
          (by simp [slotFinished, slotErrorOccurred, setProcessErrorAndEmit, slotStateChanged,
            completedIds_append, completedIds])
      · exact InOrderFrom_weaken h rfl rfl rfl (List.Sublist.refl _) (Or.inr rfl)
          (by simp [slotFinished, slotStateChanged, completedIds_append, completedIds])
    · exact h
  | childOutput ch lines =>
    simp only [step]
    split
    · cases ch <;>
        exact InOrderFrom_weaken h rfl rfl rfl (List.Sublist.refl _) (Or.inl rfl) rfl
    · exact h
  | readyRead ch now => exact InOrderFrom_readOutput ch now h

theorem InOrderFrom_run (b : Baseline) (ops : List Op) :
    ∀ e : Execution, InOrderFrom b e.world.d e.world.emitted e.accepted →
      InOrderFrom b (run e ops).world.d (run e ops).world.emitted (run e ops).accepted := by
  induction ops with
  | nil => intro e h; exact h
  | cons op ops ih => intro e h; exact ih (step e op) (InOrderFrom_step b e op h)

/-- Every state satisfying the order invariant is a valid reference point for itself. -/
theorem InOrderFrom_self (e : Execution) (h : InOrder e.world.d e.world.emitted e.accepted) :
    InOrderFrom e.baseline e.world.d e.world.emitted e.accepted := by
  obtain ⟨h1, h2, h3, disp, _, h5, _, _⟩ := h
  refine ⟨h1, h2, [], [], [], by simp [Execution.baseline], ?_, by simp [Execution.baseline],
    by simp [Execution.baseline], by simp [Execution.baseline], List.nil_sublist _, ?_⟩
  · intro c hc
    simp only [Execution.baseline, List.append_nil] at hc
    exact h3 c (h5.subset (List.mem_append_right _ hc))
  · intro _
    exact Or.inl ⟨rfl, rfl, rfl⟩

/-- The order invariant relative to any reachable reference point. -/
theorem InOrderFrom_reachable (ops0 ops : List Op) :
    InOrderFrom (run Execution.new ops0).baseline
      (run (run Execution.new ops0) ops).world.d (run (run Execution.new ops0) ops).world.emitted
      (run (run Execution.new ops0) ops).accepted :=
  InOrderFrom_run _ ops _ (InOrderFrom_self _ (InOrder_run ops0 Execution.new InOrder_new))

/-! ## One completion per command -/

theorem readOutput_completion (w : World) (ch : ProcessChannel) (now : Int)
    (h1 : w.d.out.outReady = true → w.d.out.outAwait ≠ 0) :
    completedIds (readOutput w ch now).emitted = completedIds w.emitted ∨
      (w.d.cmdRunning ≠ 0 ∧
        completedIds (readOutput w ch now).emitted = completedIds w.emitted ++ [w.d.cmdRunning]) := by
  have hl1 : (readLoop w.d ch).out.outReady = true → (readLoop w.d ch).out.outAwait ≠ 0 := by
    cases ch with
    | StandardOutput => exact readLines_await_ne _ _ h1
    | StandardError => exact h1
  obtain ⟨hc, _⟩ := readLoop_cmdRunning w.d ch
  unfold readOutput
  simp only
  split
  · exact Or.inl rfl
  · rename_i hready
    simp only [Bool.not_eq_true', Bool.and_eq_false_iff, not_or, Bool.not_eq_false] at hready
    split
    · exact Or.inl rfl
    · rename_i hids
      simp only [not_or, Decidable.not_not] at hids
      refine Or.inr ⟨?_, ?_⟩
      · rw [← hc, hids.1]; exact hl1 hready.1
      · rw [completedIds_append, hc]
        rfl

theorem step_completion (e : Execution) (op : Op)
    (h1 : e.world.d.out.outReady = true → e.world.d.out.outAwait ≠ 0) :
    completedIds (step e op).world.emitted = completedIds e.world.emitted ∨
      (e.world.d.cmdRunning ≠ 0 ∧
        completedIds (step e op).world.emitted =
          completedIds e.world.emitted ++ [e.world.d.cmdRunning]) := by
  cases op with
  | setProgram a b => left; simp only [step, setProgram]; split <;> rfl
  | start f g =>
    left
    simp only [step, start]
    split
    · rfl
    · split
      · simp [setProcessErrorAndEmit, completedIds_append, completedIds]
      · split
        · simp [setProcessErrorAndEmit, completedIds_append, completedIds]
        · simp [completedIds_append, completedIds]
  | terminate => left; simp only [step, terminate]; split <;> rfl
  | kill => left; rfl
  | command now args =>
    left
    cases hacc : accepts e.world args with
    | false =>
      have h3 := Decidable.not_not.mp (mt (accepts_iff e.world args).mpr (by rw [hacc]; decide))
      simp only [step, hacc, command, if_pos h3, Bool.false_eq_true, if_false]
    | true => simp only [step, hacc, if_true, command_accepted e.world now args hacc]
  | otherInstanceCommand => left; rfl
  | processStarted =>
    left
    simp only [step]
    split
    · simp [slotStarted, slotStateChanged, completedIds_append, completedIds]
    · rfl
  | processFailedToStart desc =>
    left
    simp only [step]
    split
    · simp [slotErrorOccurred, setProcessErrorAndEmit, slotStateChanged, completedIds_append,
        completedIds]
    · rfl
  | processError err desc =>
    left
    simp [step, slotErrorOccurred, setProcessErrorAndEmit, completedIds_append, completedIds]
  | processFinished code status =>
    left
    simp only [step]
    split
    · split
      · simp [slotFinished, slotErrorOccurred, setProcessErrorAndEmit, slotStateChanged,
          completedIds_append, completedIds]
      · simp [slotFinished, slotStateChanged, completedIds_append, completedIds]
    · rfl
  | childOutput ch lines => left; simp only [step]; split <;> rfl
  | readyRead ch now => exact readOutput_completion e.world ch now h1

theorem Frame_readLines (lines : List QByteArray) (N : Int) (buff : QByteArray)
    (hN : N ≠ 0) (h : Frame lines N buff) :
    (readLines { outAwait := 0, outReady := false, outBuff := [] } lines).1 =
      { outAwait := N, outReady := true, outBuff := buff } := by
  obtain ⟨pre, payload, later, awaitLine, readyLine, t, s, hl, hpre, hawait, ht, hpay, hready,
    hb⟩ := h
  rw [hl, readLines_skip _ rfl rfl pre _ hpre, readLines_await [] t awaitLine _ hawait, ht,
    readLines_collect N hN payload _ hpay, readLines_finish N hN _ s readyLine later hready, hb]
  simp



theorem readOutput_not_ready (w : World) (ch : ProcessChannel) (now : Int)
    (h : ((readLoop w.d ch).out.outReady && (readLoop w.d ch).err.outReady) = false) :
    readOutput w ch now = { w with d := readLoop w.d ch } := by
  simp only [readOutput, h, Bool.not_false, if_true]

theorem readOutput_emits (w : World) (ch : ProcessChannel) (now : Int)
    (hout : (readLoop w.d ch).out.outReady = true) (herr : (readLoop w.d ch).err.outReady = true)
    (h1 : (readLoop w.d ch).out.outAwait = w.d.cmdRunning)
    (h2 : (readLoop w.d ch).err.outAwait = w.d.cmdRunning) :
    (readOutput w ch now).emitted =
      w.emitted ++
        [Signal.CmdCompleted w.d.cmdRunning (toInt32 (now - w.d.execTimer))
          (readLoop w.d ch).out.outBuff (readLoop w.d ch).err.outBuff] := by
  obtain ⟨hc, ht⟩ := readLoop_cmdRunning w.d ch
  simp only [readOutput, hout, herr, hc, ht, h1, h2, Bool.and_self, Bool.not_true,
    Bool.false_eq_true, if_false, ne_eq, not_true_eq_false, or_self]

/-! ## Graceful termination -/

theorem execNextCmd_closed (d : Private) (now : Int) (h : d.writeChannelIsClosed = true) :
    execNextCmd d now = d := by
  unfold execNextCmd
  rw [if_pos (Or.inr h)]

theorem execNextCmd_not_running (d : Private) (now : Int)
    (h : d.process.state ≠ ProcessState.Running) : execNextCmd d now = d := by
  unfold execNextCmd
  rw [if_pos (Or.inl h)]

theorem readLoop_flags (d : Private) (ch : ProcessChannel) :
    (readLoop d ch).writeChannelIsClosed = d.writeChannelIsClosed ∧
      (readLoop d ch).process.state = d.process.state ∧
      (readLoop d ch).process.written = d.process.written ∧
      (readLoop d ch).cmdQueue = d.cmdQueue := by
  cases ch <;> exact ⟨rfl, rfl, rfl, rfl⟩

theorem readOutput_closed (w : World) (ch : ProcessChannel) (now : Int)
    (h : w.d.writeChannelIsClosed = true) :
    (readOutput w ch now).d.writeChannelIsClosed = true := by
  obtain ⟨hf, _, _, _⟩ := readLoop_flags w.d ch
  unfold readOutput
  simp only
  split
  · rw [hf]; exact h
  · rw [execNextCmd_closed _ now (by rw [← h, ← hf])]
    rw [hf]; exact h

theorem command_refused_eq (w : World) (now : Int) (args : List QByteArray)
    (h : accepts w args = false) : command w now args = (0, w) := by
  have h3 := Decidable.not_not.mp (mt (accepts_iff w args).mpr (by rw [h]; decide))
  simp only [command, if_pos h3]

theorem accepts_closed (w : World) (args : List QByteArray)
    (h : w.d.writeChannelIsClosed = true) : accepts w args = false := by
  simp [accepts, h]

theorem step_closed (e : Execution) (op : Op) (h : e.world.d.writeChannelIsClosed = true)
    (hop : op.isStart = false) : (step e op).world.d.writeChannelIsClosed = true := by
  cases op with
  | setProgram a b => simp only [step, setProgram]; split <;> exact h
  | start f g => simp [Op.isStart] at hop
  | terminate => simp only [step, terminate]; split <;> first | rfl | exact h
  | kill => exact h
  | command now args =>
    simp only [step, accepts_closed e.world args h, Bool.false_eq_true, if_false,
      command_refused_eq e.world now args (accepts_closed e.world args h)]
    exact h
  | otherInstanceCommand => exact h
  | processStarted => simp only [step]; split <;> exact h
  | processFailedToStart desc => simp only [step]; split <;> exact h
  | processError err desc => exact h
  | processFinished code status =>
    simp only [step]
    split
    · split <;> exact h
    · exact h
  | childOutput ch lines => simp only [step]; split <;> exact h
  | readyRead ch now => exact readOutput_closed e.world ch now h

theorem run_closed (ops : List Op) :
    ∀ e : Execution, e.world.d.writeChannelIsClosed = true →
      (∀ op ∈ ops, op.isStart = false) → (run e ops).world.d.writeChannelIsClosed = true := by
  induction ops with
  | nil => intro e h _; exact h
  | cons op ops ih =>
    intro e h hops
    exact ih (step e op) (step_closed e op h (hops op (List.mem_cons_self _ _)))
      (fun o ho => hops o (List.mem_cons_of_mem _ ho))

theorem step_terminate_running (e : Execution)
    (hrun : e.world.d.process.state = ProcessState.Running) :
    (step e Op.terminate).world.d.process.written =
        e.world.d.process.written ++ [stayOpenFalse] ∧
      (step e Op.terminate).world.d.process.writeChannelClosed = true ∧
      (step e Op.terminate).world.d.writeChannelIsClosed = true ∧
      (step e Op.terminate).world.d.cmdQueue = [] ∧
      (step e Op.terminate).world.d.cmdRunning = e.world.d.cmdRunning ∧
      (step e Op.terminate).world.emitted = e.world.emitted ∧
      (step e Op.terminate).accepted = e.accepted := by
  simp [step, terminate, hrun]
  rfl

/-- C12 (as stated, refuted): `terminate()` is called on a running helper, the helper exits, and
`start()` launches it again; the next `command()` is accepted and returns 1, not 0. -/
theorem command_accepted_after_restart :
    (run Execution.new
        [Op.setProgram "exiftool" "", Op.start (fun _ => true) (fun _ => true),
          Op.processStarted]).world.d.process.state = ProcessState.Running ∧
      (run Execution.new
        [Op.setProgram "exiftool" "", Op.start (fun _ => true) (fun _ => true),
          Op.processStarted, Op.terminate]).world.d.writeChannelIsClosed = true ∧
      (command (run Execution.new
        [Op.setProgram "exiftool" "", Op.start (fun _ => true) (fun _ => true),
          Op.processStarted, Op.terminate, Op.processFinished 0 ExitStatus.NormalExit,
          Op.start (fun _ => true) (fun _ => true), Op.processStarted]).world 0
        ["-ver".toList]).1 = 1 := by
  decide

/-- C12 (amended): `terminate()` on an object whose process is `Running` writes exactly the bytes
`-stay_open\nfalse\n` to the child, closes the write channel (`writeChannelIsClosed` becomes
true) and empties the queue, leaving `cmdRunning` and the emitted signals unchanged. Afterwards,
until `start()` is called again, every `command()` returns 0 and changes nothing. And no command
that was queued at that moment is ever written to the child or gets a completion signal:
whatever happens next, every script written later belongs to a command accepted later, and every
later completion carries the id that was in flight or the id of a command accepted later, in
order. -/
theorem terminate_drops_queue (ops0 : List Op)
    (hrun : (run Execution.new ops0).world.d.process.state = ProcessState.Running) :
    ((step (run Execution.new ops0) Op.terminate).world.d.process.written =
          (run Execution.new ops0).world.d.process.written ++ ["-stay_open\nfalse\n".toList] ∧
        (step (run Execution.new ops0) Op.terminate).world.d.process.writeChannelClosed = true ∧
        (step (run Execution.new ops0) Op.terminate).world.d.writeChannelIsClosed = true ∧
        (step (run Execution.new ops0) Op.terminate).world.d.cmdQueue = [] ∧
        (step (run Execution.new ops0) Op.terminate).world.d.cmdRunning =
          (run Execution.new ops0).world.d.cmdRunning ∧
        (step (run Execution.new ops0) Op.terminate).world.emitted =
          (run Execution.new ops0).world.emitted) ∧
      (∀ ops : List Op, (∀ op ∈ ops, op.isStart = false) →
        ∀ (now : Int) (args : List QByteArray),
          command (run (step (run Execution.new ops0) Op.terminate) ops).world now args =
            (0, (run (step (run Execution.new ops0) Op.terminate) ops).world)) ∧
      ∀ ops : List Op,
        ∃ (later : List Command) (newScripts : List QByteArray) (newIds : List Int),
          (run (step (run Execution.new ops0) Op.terminate) ops).accepted =
              (run Execution.new ops0).accepted ++ later ∧
            scriptsWritten
                (run (step (run Execution.new ops0) Op.terminate) ops).world.d.process.written =
              scriptsWritten (run Execution.new ops0).world.d.process.written ++ newScripts ∧
            newScripts.Sublist (later.map Command.argsStr) ∧
            completedIds (run (step (run Execution.new ops0) Op.terminate) ops).world.emitted =
              completedIds (run Execution.new ops0).world.emitted ++ newIds ∧
            newIds.Sublist
              ((if (run Execution.new ops0).world.d.cmdRunning ≠ 0 then
                  [(run Execution.new ops0).world.d.cmdRunning] else []) ++
                later.map Command.id) := by
  obtain ⟨t1, t2, t3, t4, t5, t6, t7⟩ := step_terminate_running (run Execution.new ops0) hrun
  refine ⟨⟨t1, t2, t3, t4, t5, t6⟩, ?_, ?_⟩
  · intro ops hops now args
    exact command_refused_eq _ now args (accepts_closed _ args (run_closed ops _ t3 hops))
  · intro ops
    have hreach := InOrderFrom_reachable (ops0 ++ [Op.terminate]) ops
    have e1 : run Execution.new (ops0 ++ [Op.terminate]) =
        step (run Execution.new ops0) Op.terminate := by
      rw [run_append]; rfl
    rw [e1] at hreach
    obtain ⟨_, _, disp, later, newIds, h3, _, h5, h6, h7, h8, _⟩ := hreach
    have hb : (step (run Execution.new ops0) Op.terminate).baseline =
        { running := (run Execution.new ops0).world.d.cmdRunning
          queue := []
          scripts := scriptsWritten (run Execution.new ops0).world.d.process.written
          completed := completedIds (run Execution.new ops0).world.emitted
          accepted := (run Execution.new ops0).accepted } := by
      simp only [Execution.baseline, t1, t4, t5, t6, t7, scriptsWritten_terminate]
    rw [hb] at h3 h5 h6 h7 h8
    simp only [List.nil_append] at h6
    have hd : disp.Sublist later := (List.sublist_append_left _ _).trans h6
    refine ⟨later, disp.map Command.argsStr, newIds, h3, h5, hd.map _, h7, ?_⟩
    exact h8.trans (List.Sublist.append (List.Sublist.refl _) (hd.map _))

theorem terminate_drops_queue_witness :
    (run Execution.new
        [Op.setProgram "exiftool" "", Op.start (fun _ => true) (fun _ => true),
          Op.processStarted, Op.command 0 ["-ver".toList],
          Op.command 1 ["-a".toList]]).world.d.process.state = ProcessState.Running ∧
      (run Execution.new
        [Op.setProgram "exiftool" "", Op.start (fun _ => true) (fun _ => true),
          Op.processStarted, Op.command 0 ["-ver".toList],
          Op.command 1 ["-a".toList]]).world.d.cmdQueue ≠ [] ∧
      (step (run Execution.new
        [Op.setProgram "exiftool" "", Op.start (fun _ => true) (fun _ => true),
          Op.processStarted, Op.command 0 ["-ver".toList], Op.command 1 ["-a".toList]])
        Op.terminate).world.d.cmdQueue = [] :=
  ⟨by decide, by decide,
    (terminate_drops_queue
      [Op.setProgram "exiftool" "", Op.start (fun _ => true) (fun _ => true),
        Op.processStarted, Op.command 0 ["-ver".toList], Op.command 1 ["-a".toList]]
      (by decide)).1.2.2.2.1⟩

/-! ## Forced termination -/

theorem readLoop_ready_await (d : Private) (ch : ProcessChannel)
    (h1 : d.out.outReady = true → d.out.outAwait ≠ 0)
    (h2 : d.err.outReady = true → d.err.outAwait ≠ 0) :
    ((readLoop d ch).out.outReady = true → (readLoop d ch).out.outAwait ≠ 0) ∧
      ((readLoop d ch).err.outReady = true → (readLoop d ch).err.outAwait ≠ 0) := by
  cases ch with
  | StandardOutput => exact ⟨readLines_await_ne _ _ h1, h2⟩
  | StandardError => exact ⟨h1, readLines_await_ne _ _ h2⟩

theorem readOutput_stopped (w : World) (ch : ProcessChannel) (now : Int)
    (hs : w.d.process.state ≠ ProcessState.Running) (hr : w.d.cmdRunning = 0)
    (h1 : w.d.out.outReady = true → w.d.out.outAwait ≠ 0)
    (h2 : w.d.err.outReady = true → w.d.err.outAwait ≠ 0) :
    (readOutput w ch now).d.process.state = w.d.process.state ∧
      (readOutput w ch now).d.cmdRunning = 0 ∧
      ((readOutput w ch now).d.out.outReady = true → (readOutput w ch now).d.out.outAwait ≠ 0) ∧
      ((readOutput w ch now).d.err.outReady = true → (readOutput w ch now).d.err.outAwait ≠ 0) ∧
      (readOutput w ch now).d.process.written = w.d.process.written ∧
      (readOutput w ch now).d.cmdQueue = w.d.cmdQueue ∧
      completedIds (readOutput w ch now).emitted = completedIds w.emitted := by
  obtain ⟨hl1, hl2⟩ := readLoop_ready_await w.d ch h1 h2
  obtain ⟨hc, _⟩ := readLoop_cmdRunning w.d ch
  obtain ⟨_, hst, hwr, hq⟩ := readLoop_flags w.d ch
  have hcomp := readOutput_completion w ch now h1
  have hcomp : completedIds (readOutput w ch now).emitted = completedIds w.emitted := by
    rcases hcomp with h | ⟨h, _⟩
    · exact h
    · exact absurd hr h
  refine ⟨?_, ?_, ?_, ?_, ?_, ?_, hcomp⟩
  all_goals
    unfold readOutput
    simp only
    split
    · first
        | exact hst
        | (rw [hc]; exact hr)
        | exact hl1
        | exact hl2
        | exact hwr
        | exact hq
    · rw [execNextCmd_not_running _ now (by rw [hst]; exact hs)]
      try first
        | exact hst
        | exact hl1
        | exact hl2
        | exact hwr
        | exact hq

theorem StoppedSince_step (b : Baseline) (e : Execution) (op : Op) (hq : b.queue = [])
    (h : StoppedSince b e) :
    StoppedSince b (step e op) ∨
      InOrderFrom b (step e op).world.d (step e op).world.emitted (step e op).accepted := by
  obtain ⟨hs, hr, h1, h2, hw, hc, ha⟩ := h
  have hnr : e.world.d.process.state ≠ ProcessState.Running := by rw [hs]; decide
  have hns : e.world.d.process.state ≠ ProcessState.Starting := by rw [hs]; decide
  cases op with
  | setProgram a c =>
    left
    simp only [step, setProgram]
    split <;> exact ⟨hs, hr, h1, h2, hw, hc, ha⟩
  | start f g =>
    simp only [step, start]
    split
    · exact Or.inl ⟨hs, hr, h1, h2, hw, hc, ha⟩
    · split
      · left
        refine ⟨hs, hr, h1, h2, hw, ?_, ha⟩
        simp only [setProcessErrorAndEmit, completedIds_append, completedIds, List.append_nil]
        exact hc
      · split
        · left
          refine ⟨hs, hr, h1, h2, hw, ?_, ha⟩
          simp only [setProcessErrorAndEmit, completedIds_append, completedIds, List.append_nil]
          exact hc
        · right
          refine ⟨h1, h2, [], [], [], ?_, ?_, ?_, ?_, ?_, ?_, ?_⟩
          · simp only [List.append_nil]; exact ha
          · intro c hcm
            rw [hq] at hcm
            exact absurd hcm (List.not_mem_nil c)
          · simp only [List.map_nil, List.append_nil]; exact hw
          · exact List.nil_sublist _
          · simp only [completedIds_append, completedIds, List.append_nil]; exact hc
          · exact List.nil_sublist _
          · intro hne
            exact absurd rfl hne
  | terminate =>
    left
    simp only [step, terminate, if_neg hnr]
    exact ⟨hs, hr, h1, h2, hw, hc, ha⟩
  | kill => exact Or.inl ⟨hs, hr, h1, h2, hw, hc, ha⟩
  | command now args =>
    left
    have hacc : accepts e.world args = false := by simp [accepts, hs]
    simp only [step, hacc, Bool.false_eq_true, if_false, command_refused_eq e.world now args hacc]
    exact ⟨hs, hr, h1, h2, hw, hc, ha⟩
  | otherInstanceCommand => exact Or.inl ⟨hs, hr, h1, h2, hw, hc, ha⟩
  | processStarted =>
    left
    simp only [step, if_neg hns]
    exact ⟨hs, hr, h1, h2, hw, hc, ha⟩
  | processFailedToStart desc =>
    left
    simp only [step, if_neg hns]
    exact ⟨hs, hr, h1, h2, hw, hc, ha⟩
  | processError err desc =>
    left
    refine ⟨hs, hr, h1, h2, hw, ?_, ha⟩
    simp only [step, slotErrorOccurred, setProcessErrorAndEmit, completedIds_append, completedIds,
      List.append_nil]
    exact hc
  | processFinished code status =>
    left
    simp only [step, if_neg hnr]
    exact ⟨hs, hr, h1, h2, hw, hc, ha⟩
  | childOutput ch lines =>
    left
    simp only [step, if_neg hnr]
    exact ⟨hs, hr, h1, h2, hw, hc, ha⟩
  | readyRead ch now =>
    left
    obtain ⟨r1, r2, r3, r4, r5, _, r7⟩ := readOutput_stopped e.world ch now hnr hr h1 h2
    exact ⟨r1.trans hs, r2, r3, r4, (congrArg scriptsWritten r5).trans hw, r7.trans hc, ha⟩

theorem StoppedSince_run (b : Baseline) (hq : b.queue = []) (ops : List Op) :
    ∀ e : Execution,
      StoppedSince b e ∨ InOrderFrom b e.world.d e.world.emitted e.accepted →
        StoppedSince b (run e ops) ∨
          InOrderFrom b (run e ops).world.d (run e ops).world.emitted (run e ops).accepted := by
  induction ops with
  | nil => intro e h; exact h
  | cons op ops ih =>
    intro e h
    refine ih (step e op) ?_
    rcases h with h | h
    · exact StoppedSince_step b e op hq h
    · exact Or.inr (InOrderFrom_step b e op h)

theorem step_processFinished_running (e : Execution) (code : Int) (status : ExitStatus)
    (hrun : e.world.d.process.state = ProcessState.Running) :
    (step e (Op.processFinished code status)).world.d.process.state = ProcessState.NotRunning ∧
      (step e (Op.processFinished code status)).world.d.cmdRunning = 0 ∧
      (step e (Op.processFinished code status)).world.d.out = e.world.d.out ∧
      (step e (Op.processFinished code status)).world.d.err = e.world.d.err ∧
      (step e (Op.processFinished code status)).world.d.cmdQueue = e.world.d.cmdQueue ∧
      (step e (Op.processFinished code status)).world.d.process.written =
        e.world.d.process.written := by
  simp only [step, hrun, if_true]
  split <;> exact ⟨rfl, rfl, rfl, rfl, rfl, rfl⟩

/-- C13 (as stated, refuted): with command 1 in flight and command 2 queued, `kill()` leaves
command 2 in the queue; when the answer of command 1, already produced by the child, is read
after `kill()`, command 1 completes and the script of command 2 is written to the child. -/
theorem kill_keeps_queue :
    (run Execution.new
        [Op.setProgram "exiftool" "", Op.start (fun _ => true) (fun _ => true),
          Op.processStarted, Op.command 0 ["-ver".toList], Op.command 1 ["-a".toList],
          Op.kill]).world.d.cmdQueue =
        [{ id := 2, argsStr := buildScript 2 ["-a".toList] }] ∧
      (run Execution.new
        [Op.setProgram "exiftool" "", Op.start (fun _ => true) (fun _ => true),
          Op.processStarted, Op.command 0 ["-ver".toList], Op.command 1 ["-a".toList],
          Op.childOutput ProcessChannel.StandardOutput
            ["\x7bawait0000000001\x7d\n".toList, "12.60\n".toList, "\x7bready\x7d\n".toList],
          Op.childOutput ProcessChannel.StandardError
            ["\x7bawait0000000001\x7d\n".toList, "\x7bready\x7d\n".toList],
          Op.kill]).world.d.process.written = [buildScript 1 ["-ver".toList]] ∧
      (run Execution.new
        [Op.setProgram "exiftool" "", Op.start (fun _ => true) (fun _ => true),
          Op.processStarted, Op.command 0 ["-ver".toList], Op.command 1 ["-a".toList],
          Op.childOutput ProcessChannel.StandardOutput
            ["\x7bawait0000000001\x7d\n".toList, "12.60\n".toList, "\x7bready\x7d\n".toList],
          Op.childOutput ProcessChannel.StandardError
            ["\x7bawait0000000001\x7d\n".toList, "\x7bready\x7d\n".toList],
          Op.kill, Op.readyRead ProcessChannel.StandardOutput 2,
          Op.readyRead ProcessChannel.StandardError 3]).world.d.process.written =
        [buildScript 1 ["-ver".toList], buildScript 2 ["-a".toList]] := by
  decide

/-- C13 (amended): `kill()` only asks the process handle to destroy the child: the queue, the
running id, the bytes written, the emitted signals and the process state are unchanged. The exit
of the child (`slotFinished`) clears the running id and leaves the queue as it is, and from then
on no command that was queued is written to the child or produces a completion signal: whatever
happens next, every script written later belongs to a command accepted later, and every later
completion carries the id of a command accepted later, in order. The queued commands are removed
by the next successful `start()`. -/
theorem kill_leaves_queue (ops0 : List Op) (code : Int) (status : ExitStatus)
    (hrun : (run Execution.new ops0).world.d.process.state = ProcessState.Running) :
    (∀ w : World,
        (kill w).d.cmdQueue = w.d.cmdQueue ∧ (kill w).d.cmdRunning = w.d.cmdRunning ∧
          (kill w).d.process.written = w.d.process.written ∧ (kill w).emitted = w.emitted ∧
          (kill w).d.process.state = w.d.process.state ∧
          (kill w).d.process.killRequests = w.d.process.killRequests + 1) ∧
      ((step (run Execution.new ops0) (Op.processFinished code status)).world.d.cmdRunning = 0 ∧
        (step (run Execution.new ops0) (Op.processFinished code status)).world.d.cmdQueue =
          (run Execution.new ops0).world.d.cmdQueue) ∧
      (∀ ops : List Op,
        ∃ (later : List Command) (newScripts : List QByteArray) (newIds : List Int),
          (run (step (run Execution.new ops0) (Op.processFinished code status)) ops).accepted =
              (run Execution.new ops0).accepted ++ later ∧
            scriptsWritten
                (run (step (run Execution.new ops0) (Op.processFinished code status))
                  ops).world.d.process.written =
              scriptsWritten (run Execution.new ops0).world.d.process.written ++ newScripts ∧
            newScripts.Sublist (later.map Command.argsStr) ∧
            completedIds
                (run (step (run Execution.new ops0) (Op.processFinished code status))
                  ops).world.emitted =
              completedIds
                  (step (run Execution.new ops0) (Op.processFinished code status)).world.emitted ++
                newIds ∧
            newIds.Sublist (later.map Command.id)) ∧
      ∀ (w : World) (fileExists exeUser : String → Bool),
        w.d.process.state = ProcessState.NotRunning →
          fileExists w.d.etExePath = true ∧ exeUser w.d.etExePath = true →
          (w.d.perlExePath.isEmpty = false →
            fileExists w.d.perlExePath = true ∧ exeUser w.d.perlExePath = true) →
          (start w fileExists exeUser).d.cmdQueue = [] := by
  obtain ⟨f1, f2, f3, f4, f5, f6⟩ :=
    step_processFinished_running (run Execution.new ops0) code status hrun
  refine ⟨fun w => ⟨rfl, rfl, rfl, rfl, rfl, rfl⟩, ⟨f2, f5⟩, ?_, ?_⟩
  · intro ops
    have hacc : (step (run Execution.new ops0) (Op.processFinished code status)).accepted =
        (run Execution.new ops0).accepted := by
      simp only [step]
      split <;> rfl
    obtain ⟨i1, i2, _⟩ := InOrderFrom_reachable ops0 []
    have hstop : StoppedSince
        { running := 0
          queue := []
          scripts := scriptsWritten (run Execution.new ops0).world.d.process.written
          completed := completedIds
            (step (run Execution.new ops0) (Op.processFinished code status)).world.emitted
          accepted := (run Execution.new ops0).accepted }
        (step (run Execution.new ops0) (Op.processFinished code status)) := by
      refine ⟨f1, f2, ?_, ?_, congrArg scriptsWritten f6, rfl, hacc⟩
      · rw [f3]; exact i1
      · rw [f4]; exact i2
    rcases StoppedSince_run _ rfl ops _ (Or.inl hstop) with h | h
    · obtain ⟨_, _, _, _, hw, hc, ha⟩ := h
      exact ⟨[], [], [], by rw [List.append_nil]; exact ha, by rw [List.append_nil]; exact hw,
        List.Sublist.refl _, by rw [List.append_nil]; exact hc, List.Sublist.refl _⟩
    · obtain ⟨_, _, disp, later, newIds, h3, _, h5, h6, h7, h8, _⟩ := h
      simp only [List.nil_append] at h6
      have hd : disp.Sublist later := (List.sublist_append_left _ _).trans h6
      refine ⟨later, disp.map Command.argsStr, newIds, h3, h5, hd.map _, h7, ?_⟩
      have h8b : newIds.Sublist (disp.map Command.id) := by
        simpa [Baseline.inFlight] using h8
      exact h8b.trans (hd.map _)
  · intro w f g hstate het hperl
    cases hp : w.d.perlExePath.isEmpty with
    | true => simp [start, hstate, het.1, het.2, hp]
    | false =>
      obtain ⟨p1, p2⟩ := hperl hp
      simp [start, hstate, het.1, het.2, hp, p1, p2]

theorem kill_leaves_queue_witness :
    (run Execution.new
        [Op.setProgram "exiftool" "", Op.start (fun _ => true) (fun _ => true),
          Op.processStarted, Op.command 0 ["-ver".toList], Op.command 1 ["-a".toList],
          Op.kill]).world.d.process.state = ProcessState.Running ∧
      (step (run Execution.new
          [Op.setProgram "exiftool" "", Op.start (fun _ => true) (fun _ => true),
            Op.processStarted, Op.command 0 ["-ver".toList], Op.command 1 ["-a".toList],
            Op.kill])
          (Op.processFinished 9 ExitStatus.CrashExit)).world.d.cmdQueue =
        (run Execution.new
          [Op.setProgram "exiftool" "", Op.start (fun _ => true) (fun _ => true),
            Op.processStarted, Op.command 0 ["-ver".toList], Op.command 1 ["-a".toList],
            Op.kill]).world.d.cmdQueue :=
  ⟨by decide,
    (kill_leaves_queue
      [Op.setProgram "exiftool" "", Op.start (fun _ => true) (fun _ => true),
        Op.processStarted, Op.command 0 ["-ver".toList], Op.command 1 ["-a".toList], Op.kill]
      9 ExitStatus.CrashExit (by decide)).2.1.2⟩

/-! ## Await markers -/

theorem isDigit_not_space (c : Char) (h : c.isDigit = true) : isSpace c = false := by
  cases hs : isSpace c with
  | false => rfl
  | true =>
    simp only [isSpace, Bool.or_eq_true, decide_eq_true_eq] at hs
    rcases hs with ((((hs | hs) | hs) | hs) | hs) | hs <;> (rw [hs] at h; exact absurd h (by decide))

theorem toInt_digits (a : QByteArray) (hne : a ≠ []) (hd : ∀ c ∈ a, c.isDigit = true)
    (hv : decimalValue a ≤ 2147483647) : toInt a = (decimalValue a : Int) := by
  cases a with
  | nil => exact absurd rfl hne
  | cons c cs =>
    have hc : c.isDigit = true := hd c (List.mem_cons_self _ _)
    have hsp : isSpace c = false := isDigit_not_space c hc
    have hm : c ≠ '-' := by intro e; rw [e] at hc; exact absurd hc (by decide)
    have hp : c ≠ '+' := by intro e; rw [e] at hc; exact absurd hc (by decide)
    have ht : (c :: cs).takeWhile Char.isDigit = c :: cs :=
      List.takeWhile_eq_self_iff.mpr (fun x hx => hd x hx)
    have hdr : (c :: cs).dropWhile Char.isDigit = [] :=
      List.dropWhile_eq_nil_iff.mpr (fun x hx => hd x hx)
    have h0 : (c :: cs).dropWhile isSpace = c :: cs := by
      rw [List.dropWhile_cons]; simp [hsp]
    unfold toInt
    simp only [h0, List.head?_cons, Option.some.injEq, hm, hp, or_self, if_false, ht, hdr,
      List.dropWhile_nil, List.isEmpty_cons, List.isEmpty_nil, Bool.not_true, Bool.or_self,
      Bool.false_eq_true, decide_False]
    have hr : (-2147483648 : Int) ≤ (decimalValue (c :: cs) : Int) ∧
        (decimalValue (c :: cs) : Int) ≤ 2147483647 := by
      constructor <;> omega
    rw [if_pos hr]

theorem toInt_cmdIdStr (C : Int) (h1 : 1 ≤ C) (h2 : C ≤ 2000000000) :
    toInt (rightJustified (number C) 10 '0') = C := by
  have hl := cmdIdStr_length C h1 h2
  have hv := cmdIdStr_value C h1
  have hne : rightJustified (number C) 10 '0' ≠ [] := by
    intro e; rw [e] at hl; exact absurd hl (by decide)
  rw [toInt_digits _ hne (cmdIdStr_allDigits C h1) (by omega), hv]

theorem normalizeLine_brace (x : QByteArray) :
    normalizeLine (x ++ "\x7d\n".toList) = x ++ "\x7d\n".toList := by
  have e : x ++ "\x7d\n".toList = (x ++ "\x7d".toList) ++ "\n".toList := by simp
  rw [e]
  refine normalizeLine_lf _ ?_
  cases h : endsWith (x ++ "\x7d".toList) "\r".toList with
  | false => rfl
  | true =>
    have h1 : "\r".toList <:+ x ++ "\x7d".toList := by simpa [endsWith] using h
    have h3 : (x ++ "\x7d".toList).getLast? = some '\x7d' := by simp
    obtain ⟨t, ht⟩ := h1
    rw [← ht] at h3
    simp at h3

theorem readLines_await_any (c : ChannelState) (hr : c.outReady = false) (ha : c.outAwait = 0)
    (t awaitLine : QByteArray) (rest : List QByteArray)
    (h : normalizeLine awaitLine = "\x7bawait".toList ++ t ++ "\x7d\n".toList) :
    readLines c (awaitLine :: rest) = readLines { c with outAwait := toInt t } rest := by
  cases c with
  | mk a r b =>
    simp only at hr ha
    subst hr ha
    exact readLines_await b t awaitLine rest h

theorem readLines_skip_zero (c : ChannelState) (hr : c.outReady = false) (ha : c.outAwait = 0)
    (pre rest : List QByteArray)
    (hpre : ∀ l ∈ pre,
      (startsWith (normalizeLine l) "\x7bawait".toList &&
          endsWith (normalizeLine l) "\x7d\n".toList) = false ∨
        ∃ t : QByteArray,
          normalizeLine l = "\x7bawait".toList ++ t ++ "\x7d\n".toList ∧ toInt t = 0) :
    readLines c (pre ++ rest) = readLines c rest := by
  induction pre with
  | nil => rfl
  | cons l ls ih =>
    have ih2 := ih (fun l hl => hpre l (List.mem_cons_of_mem _ hl))
    rcases hpre l (List.mem_cons_self _ _) with hl | ⟨t, hl, h0⟩
    · have := readLines_skip c hr ha [l] (ls ++ rest) (by
        intro x hx
        rw [List.mem_singleton] at hx
        rw [hx]; exact hl)
      rw [List.cons_append]
      exact this.trans ih2
    · rw [List.cons_append, readLines_await_any c hr ha t l _ hl, h0]
      have e : ({ c with outAwait := 0 } : ChannelState) = c := by
        cases c; simp only at ha; subst ha; rfl
      rw [e]
      exact ih2

/-- C25: await-marker round trip. For every id `C` in `[1, 2000000000]` the rendering of `C` in
the script (decimal, right-justified to 10 characters with `0`) is 10 characters long and
`toInt` parses it back to `C`; a channel in the awaiting-start state (not ready, awaited id 0)
that reads the line `{await<rendering>}\n` records awaited = `C` and changes nothing else, with
either line ending. -/
theorem await_round_trip (C : Int) (h1 : 1 ≤ C) (h2 : C ≤ 2000000000) (c : ChannelState)
    (hr : c.outReady = false) (ha : c.outAwait = 0) (rest : List QByteArray) :
    (rightJustified (number C) 10 '0').length = 10 ∧
      toInt (rightJustified (number C) 10 '0') = C ∧
      readLines c [("\x7bawait".toList ++ rightJustified (number C) 10 '0' ++ "\x7d\n".toList)] =
        ({ c with outAwait := C }, []) ∧
      readLines c
          (("\x7bawait".toList ++ rightJustified (number C) 10 '0' ++ "\x7d\n".toList) :: rest) =
        readLines { c with outAwait := C } rest ∧
      readLines c
          (("\x7bawait".toList ++ rightJustified (number C) 10 '0' ++ "\x7d\r\n".toList) :: rest) =
        readLines { c with outAwait := C } rest := by
  have hv := toInt_cmdIdStr C h1 h2
  have hn := normalizeLine_brace ("\x7bawait".toList ++ rightJustified (number C) 10 '0')
  have hrn : normalizeLine
      ("\x7bawait".toList ++ rightJustified (number C) 10 '0' ++ "\x7d\r\n".toList) =
      "\x7bawait".toList ++ rightJustified (number C) 10 '0' ++ "\x7d\n".toList := by
    have e : "\x7bawait".toList ++ rightJustified (number C) 10 '0' ++ "\x7d\r\n".toList =
        ("\x7bawait".toList ++ rightJustified (number C) 10 '0' ++ "\x7d".toList) ++
          "\r\n".toList := by simp
    rw [e, normalizeLine_crlf]
    simp
  refine ⟨cmdIdStr_length C h1 h2, hv, ?_, ?_, ?_⟩
  · rw [readLines_await_any c hr ha _ _ [] hn, hv]
    rfl
  · rw [readLines_await_any c hr ha _ _ rest hn, hv]
  · rw [readLines_await_any c hr ha _ _ rest hrn, hv]

theorem await_round_trip_witness :
    readLines { outAwait := 0, outReady := false, outBuff := [] }
        [("\x7bawait".toList ++ rightJustified (number 2000000000) 10 '0' ++ "\x7d\n".toList)] =
      ({ outAwait := 2000000000, outReady := false, outBuff := [] }, []) :=
  (await_round_trip 2000000000 (by decide) (by decide)
    { outAwait := 0, outReady := false, outBuff := [] } rfl rfl []).2.2.1

/-- C28: an await line whose payload parses to 0 does not start a frame. For a channel in the
awaiting-start state (not ready, awaited id 0), lines that are not await markers and await
markers whose payload `toInt` maps to 0 are all discarded and leave the channel as it was; the
first await marker after them is what sets the awaited id, so a frame starts only with a marker
of non-zero id. The payloads `0000000000`, `xyz`, the empty payload and payloads outside the
32-bit range all parse to 0. -/
theorem zero_marker_discarded (c : ChannelState) (hr : c.outReady = false)
    (ha : c.outAwait = 0) (pre rest : List QByteArray)
    (hpre : ∀ l ∈ pre,
      (startsWith (normalizeLine l) "\x7bawait".toList &&
          endsWith (normalizeLine l) "\x7d\n".toList) = false ∨
        ∃ t : QByteArray,
          normalizeLine l = "\x7bawait".toList ++ t ++ "\x7d\n".toList ∧ toInt t = 0) :
    readLines c pre = (c, []) ∧
      readLines c (pre ++ rest) = readLines c rest ∧
      (∀ t awaitLine : QByteArray,
        normalizeLine awaitLine = "\x7bawait".toList ++ t ++ "\x7d\n".toList →
          readLines c (pre ++ awaitLine :: rest) =
            readLines { c with outAwait := toInt t } rest) ∧
      toInt "0000000000".toList = 0 ∧ toInt "xyz".toList = 0 ∧ toInt [] = 0 ∧
      toInt "2147483648".toList = 0 ∧ toInt "99999999999999999999".toList = 0 ∧
      toInt "-2147483649".toList = 0 ∧
      readLines c
          ["\x7bawait0000000000\x7d\n".toList, "\x7bawaitxyz\x7d\n".toList,
            "\x7bawait\x7d\n".toList, "\x7bawait2147483648\x7d\n".toList] = (c, []) := by
  have key := fun rest => readLines_skip_zero c hr ha pre rest hpre
  refine ⟨?_, key rest, ?_, by decide, by decide, by decide, by decide, by decide, by decide, ?_⟩
  · have := key []
    rw [List.append_nil] at this
    rw [this]; rfl
  · intro t awaitLine h
    rw [key, readLines_await_any c hr ha t awaitLine rest h]
  · have := readLines_skip_zero c hr ha
      ["\x7bawait0000000000\x7d\n".toList, "\x7bawaitxyz\x7d\n".toList,
        "\x7bawait\x7d\n".toList, "\x7bawait2147483648\x7d\n".toList] [] (by
      intro l hl
      right
      simp only [List.mem_cons, List.mem_singleton, List.not_mem_nil, or_false] at hl
      rcases hl with rfl | rfl | rfl | rfl
      · exact ⟨"0000000000".toList, by decide, by decide⟩
      · exact ⟨"xyz".toList, by decide, by decide⟩
      · exact ⟨[], by decide, by decide⟩
      · exact ⟨"2147483648".toList, by decide, by decide⟩)
    rw [List.append_nil] at this
    rw [this]; rfl

theorem zero_marker_discarded_witness :
    readLines { outAwait := 0, outReady := false, outBuff := [] }
        (["noise\n".toList, "\x7bawait0000000000\x7d\r\n".toList] ++
          ["\x7bawait0000000007\x7d\n".toList, "x\n".toList]) =
      readLines { outAwait := 7, outReady := false, outBuff := [] } ["x\n".toList] :=
  ((zero_marker_discarded { outAwait := 0, outReady := false, outBuff := [] } rfl rfl
    ["noise\n".toList, "\x7bawait0000000000\x7d\r\n".toList] ["x\n".toList] (by
      intro l hl
      simp only [List.mem_cons, List.mem_singleton, List.not_mem_nil, or_false] at hl
      rcases hl with rfl | rfl
      · exact Or.inl (by decide)
      · exact Or.inr ⟨"0000000000".toList, by decide, by decide⟩)).2.2.1
    "0000000007".toList "\x7bawait0000000007\x7d\n".toList (by decide))

/-! ## The response adapter: path, failures and translation mode -/

theorem storeTag_translate (d : ExifToolParser.Private) (name type : QString) (value : QVariant)
    (ht : d.translate = true) :
    (hasProps value = true → ExifToolParser.storeTag d name type value = some d) ∧
      ∀ d2, ExifToolParser.storeTag d name type value = some d2 → d2 = d := by
  unfold ExifToolParser.storeTag hasProps
  simp only [ht, if_true]
  cases findValue value.toMap "val".toList with
  | none => simp
  | some v =>
    cases findValue value.toMap "desc".toList with
    | none => simp
    | some w =>
      simp only [Option.isSome_some, Bool.and_self, forall_const, Option.some.injEq, true_and]
      intro d2 h
      exact h.symm

theorem processEntry_translate (d : ExifToolParser.Private) (key : QString) (value : QVariant)
    (ht : d.translate = true) :
    ((isTagKey key = true → hasProps value = true) →
        ∃ d2, ExifToolParser.processEntry d key value = some d2) ∧
      ∀ d2, ExifToolParser.processEntry d key value = some d2 →
        d2 = { d with parsedPath := d2.parsedPath } ∧
          (d2.parsedPath = d.parsedPath ∨
            ((split ':' key).head? = some "SourceFile".toList ∧
              d2.parsedPath = value.toString)) := by
  cases hk : isTagKey key with
  | true =>
    have hst : ∃ name type, ExifToolParser.processEntry d key value =
        ExifToolParser.storeTag d name type value := by
      rcases isTagKey_cases key hk with ⟨s0, s1, s2, s3, s4, h⟩ | ⟨s0, s1, s2, s3, h⟩
      · exact ⟨_, _, processEntry_five d key s0 s1 s2 s3 s4 value h⟩
      · exact ⟨_, _, processEntry_four d key s0 s1 s2 s3 value h⟩
    obtain ⟨name, type, he⟩ := hst
    obtain ⟨a1, a2⟩ := storeTag_translate d name type value ht
    rw [he]
    refine ⟨fun hp => ⟨d, a1 (hp rfl)⟩, ?_⟩
    intro d2 h
    rw [a2 d2 h]
    exact ⟨rfl, Or.inl rfl⟩
  | false =>
    rw [processEntry_other d key value hk]
    split
    · rename_i hs
      refine ⟨fun _ => ⟨_, rfl⟩, ?_⟩
      intro d2 h
      rw [Option.some.injEq] at h
      subst h
      exact ⟨rfl, Or.inr ⟨hs, rfl⟩⟩
    · refine ⟨fun _ => ⟨_, rfl⟩, ?_⟩
      intro d2 h
      rw [Option.some.injEq] at h
      subst h
      exact ⟨rfl, Or.inl rfl⟩

theorem processEntries_translate (entries : List (QString × QVariant)) :
    ∀ d : ExifToolParser.Private, d.translate = true →
      ((∀ entry ∈ entries, isTagKey entry.1 = true → hasProps entry.2 = true) →
          ∃ d2, ExifToolParser.processEntries d entries = some d2) ∧
        ∀ d2, ExifToolParser.processEntries d entries = some d2 →
          d2 = { d with parsedPath := d2.parsedPath } ∧
            (d2.parsedPath = d.parsedPath ∨
              ∃ entry ∈ entries, (split ':' entry.1).head? = some "SourceFile".toList ∧
                d2.parsedPath = entry.2.toString) := by
  induction entries with
  | nil =>
    intro d _
    refine ⟨fun _ => ⟨d, rfl⟩, ?_⟩
    intro d2 h
    simp only [ExifToolParser.processEntries, Option.some.injEq] at h
    subst h
    exact ⟨rfl, Or.inl rfl⟩
  | cons entry rest ih =>
    intro d ht
    obtain ⟨key, value⟩ := entry
    obtain ⟨p1, p2⟩ := processEntry_translate d key value ht
    constructor
    · intro hp
      obtain ⟨d1, h1⟩ := p1 (hp (key, value) (List.mem_cons_self _ _))
      have ht1 : d1.translate = true := by
        rw [(p2 d1 h1).1]; exact ht
      obtain ⟨d2, h2⟩ := (ih d1 ht1).1 (fun e he => hp e (List.mem_cons_of_mem _ he))
      exact ⟨d2, by simp only [ExifToolParser.processEntries, h1]; exact h2⟩
    · intro d2 h
      simp only [ExifToolParser.processEntries] at h
      cases h1 : ExifToolParser.processEntry d key value with
      | none => rw [h1] at h; exact absurd h (by simp)
      | some d1 =>
        rw [h1] at h
        simp only at h
        obtain ⟨q1, q2⟩ := p2 d1 h1
        have ht1 : d1.translate = true := by rw [q1]; exact ht
        obtain ⟨r1, r2⟩ := (ih d1 ht1).2 d2 h
        constructor
        · rw [r1, q1]
        · rcases r2 with r2 | ⟨e, he, r3, r4⟩
          · rcases q2 with q2 | ⟨q3, q4⟩
            · exact Or.inl (r2.trans q2)
            · exact Or.inr ⟨(key, value), List.mem_cons_self _ _, q3, r2.trans q4⟩
          · exact Or.inr ⟨e, List.mem_cons_of_mem _ he, r3, r4⟩

/-- C22: a JSON key that is the single token `SourceFile` sets the parsed file path to the
string form of its value and leaves the two tag maps and the translation flag as they were,
whatever the translation mode: a string value `s` gives the path `s`, a number or boolean gives
its text, and `null`, an array or an object give the empty path. This is also what
`slotCmdCompleted` does for a first array element whose only member is `SourceFile`; for the
payload `[{"SourceFile": "a.jpg"}]` the path of a new parser becomes `a.jpg`, with translation on
and with translation off, and both tag maps stay empty. -/
theorem sourceFile_sets_path (d : ExifToolParser.Private) (value : QVariant) :
    ExifToolParser.processEntry d "SourceFile".toList value =
        some { d with parsedPath := value.toString } ∧
      (∀ s : QString,
        ExifToolParser.processEntry d "SourceFile".toList (QVariant.string s) =
          some { d with parsedPath := s }) ∧
      (∀ text : QString,
        ExifToolParser.processEntry d "SourceFile".toList (QVariant.scalar text) =
          some { d with parsedPath := text }) ∧
      ExifToolParser.processEntry d "SourceFile".toList QVariant.invalid =
        some { d with parsedPath := [] } ∧
      (∀ items : List QVariant,
        ExifToolParser.processEntry d "SourceFile".toList (QVariant.list items) =
          some { d with parsedPath := [] }) ∧
      (∀ members : List (QString × QVariant),
        ExifToolParser.processEntry d "SourceFile".toList (QVariant.map members) =
          some { d with parsedPath := [] }) ∧
      (∀ d2, ExifToolParser.processEntry d "SourceFile".toList value = some d2 →
        d2.parsedPath = value.toString ∧ d2.parsedMap = d.parsedMap ∧
          d2.ignoredMap = d.ignoredMap ∧ d2.translate = d.translate) ∧
      (∀ (fromJson : QByteArray → QJsonDocument) (stdOut : QByteArray) (rest : List QVariant)
        (s : QString),
        fromJson stdOut =
            QJsonDocument.array
              (QVariant.map [("SourceFile".toList, QVariant.string s)] :: rest) →
          ExifToolParser.slotCmdCompleted fromJson d stdOut = some { d with parsedPath := s }) ∧
      ExifToolParser.slotCmdCompleted
          (fun _ => QJsonDocument.array
            [QVariant.map [("SourceFile".toList, QVariant.string "a.jpg".toList)]])
          ExifToolParser.Private.new "[\x7b\"SourceFile\": \"a.jpg\"\x7d]".toList =
        some { translate := true, parsedPath := "a.jpg".toList, parsedMap := { entries := [] },
               ignoredMap := { entries := [] } } ∧
      ExifToolParser.slotCmdCompleted
          (fun _ => QJsonDocument.array
            [QVariant.map [("SourceFile".toList, QVariant.string "a.jpg".toList)]])
          (ExifToolParser.setTranslations ExifToolParser.Private.new false)
          "[\x7b\"SourceFile\": \"a.jpg\"\x7d]".toList =
        some { translate := false, parsedPath := "a.jpg".toList, parsedMap := { entries := [] },
               ignoredMap := { entries := [] } } := by
  have hk : isTagKey "SourceFile".toList = false := by decide
  have hh : (split ':' "SourceFile".toList).head? = some "SourceFile".toList := by decide
  have h1 : ∀ v : QVariant, ExifToolParser.processEntry d "SourceFile".toList v =
      some { d with parsedPath := v.toString } := by
    intro v
    rw [processEntry_other d _ v hk, if_pos hh]
  refine ⟨h1 value, fun s => h1 _, fun text => h1 _, h1 _, fun items => h1 _,
    fun members => h1 _, ?_, ?_, by decide, by decide⟩
  · intro d2 h
    rw [h1, Option.some.injEq] at h
    subst h
    exact ⟨rfl, rfl, rfl, rfl⟩
  · intro fromJson stdOut rest s hdoc
    simp only [ExifToolParser.slotCmdCompleted, hdoc, QJsonDocument.firstObject,
      ExifToolParser.processEntries, h1]
    rfl

theorem sourceFile_sets_path_witness :
    ExifToolParser.processEntry ExifToolParser.Private.new "SourceFile".toList
        (QVariant.string "/tmp/a b.jpg".toList) =
      some { translate := true, parsedPath := "/tmp/a b.jpg".toList,
             parsedMap := { entries := [] }, ignoredMap := { entries := [] } } :=
  (sourceFile_sets_path ExifToolParser.Private.new (QVariant.string "/tmp/a b.jpg".toList)).1

/-- C26: when the standard output of a completion is not a JSON array whose first element is an
object (the parse failed, the document is an object, the array is empty, or its first element is
not an object), `slotCmdCompleted` returns and changes nothing: after the clearing done by
`load()` the tag maps and the parsed path are still empty. Only the first element of the array
is used: two outputs whose arrays have the same first element give the same result. -/
theorem no_object_no_tags (fromJson : QByteArray → QJsonDocument) (d : ExifToolParser.Private)
    (stdOut : QByteArray)
    (h : fromJson stdOut = QJsonDocument.null ∨
      (∃ members, fromJson stdOut = QJsonDocument.object members) ∨
      fromJson stdOut = QJsonDocument.array [] ∨
      ∃ first rest, fromJson stdOut = QJsonDocument.array (first :: rest) ∧
        ∀ members, first ≠ QVariant.map members) :
    ExifToolParser.slotCmdCompleted fromJson d stdOut = some d ∧
      (∃ d2, ExifToolParser.slotCmdCompleted fromJson (ExifToolParser.clearResults d) stdOut =
          some d2 ∧
        d2.parsedMap.size = 0 ∧ d2.ignoredMap.size = 0 ∧ d2.parsedPath = []) ∧
      ∀ (out1 out2 : QByteArray) (first : QVariant) (rest1 rest2 : List QVariant),
        fromJson out1 = QJsonDocument.array (first :: rest1) →
          fromJson out2 = QJsonDocument.array (first :: rest2) →
          ExifToolParser.slotCmdCompleted fromJson d out1 =
            ExifToolParser.slotCmdCompleted fromJson d out2 := by
  have hfirst : (fromJson stdOut).firstObject = [] := by
    rcases h with h | ⟨_, h⟩ | h | ⟨first, rest, h, hno⟩
    · rw [h]; rfl
    · rw [h]; rfl
    · rw [h]; rfl
    · rw [h]
      cases first with
      | map members => exact absurd rfl (hno members)
      | invalid => rfl
      | string s => rfl
      | scalar t => rfl
      | list items => rfl
  have key : ∀ d0, ExifToolParser.slotCmdCompleted fromJson d0 stdOut = some d0 := by
    intro d0
    simp only [ExifToolParser.slotCmdCompleted, hfirst, ExifToolParser.processEntries]
  refine ⟨key d, ⟨_, key _, rfl, rfl, rfl⟩, ?_⟩
  intro out1 out2 first rest1 rest2 h1 h2
  simp only [ExifToolParser.slotCmdCompleted, h1, h2]
  cases first <;> rfl

theorem no_object_no_tags_witness :
    ExifToolParser.slotCmdCompleted (fun _ => QJsonDocument.array [QVariant.string "x".toList])
        ExifToolParser.Private.new "[\"x\"]".toList =
      some ExifToolParser.Private.new :=
  (no_object_no_tags (fun _ => QJsonDocument.array [QVariant.string "x".toList])
    ExifToolParser.Private.new "[\"x\"]".toList
    (Or.inr (Or.inr (Or.inr ⟨QVariant.string "x".toList, [], rfl,
      fun _ h => QVariant.noConfusion h⟩)))).1

/-- C29: translation is on in a newly constructed parser, and with translation on
`slotCmdCompleted` inserts nothing. Whenever the slot returns, the state differs from the one
before at most in the parsed path, which is then the string form of the value of a key whose
first segment is `SourceFile`; in particular the parsed tag map and the ignored tag map of a new
parser stay empty. The slot returns for every payload in which each key with four or five
segments has an object value with members `val` and `desc` (the source reads both members
without testing that they exist). -/
theorem translate_on_inserts_nothing (fromJson : QByteArray → QJsonDocument)
    (d : ExifToolParser.Private) (stdOut : QByteArray) (ht : d.translate = true) :
    ExifToolParser.Private.new.translate = true ∧
      ((∀ entry ∈ (fromJson stdOut).firstObject,
          isTagKey entry.1 = true → hasProps entry.2 = true) →
        ∃ d2, ExifToolParser.slotCmdCompleted fromJson d stdOut = some d2) ∧
      ∀ d2, ExifToolParser.slotCmdCompleted fromJson d stdOut = some d2 →
        d2.parsedMap = d.parsedMap ∧ d2.ignoredMap = d.ignoredMap ∧ d2.translate = true ∧
          (d.parsedMap.size = 0 → d2.parsedMap.size = 0) ∧
          (d.ignoredMap.size = 0 → d2.ignoredMap.size = 0) ∧
          (d2.parsedPath = d.parsedPath ∨
            ∃ entry ∈ (fromJson stdOut).firstObject,
              (split ':' entry.1).head? = some "SourceFile".toList ∧
                d2.parsedPath = entry.2.toString) := by
  obtain ⟨p1, p2⟩ := processEntries_translate (fromJson stdOut).firstObject d ht
  refine ⟨rfl, p1, ?_⟩
  intro d2 h
  obtain ⟨q1, q2⟩ := p2 d2 h
  have e1 : d2.parsedMap = d.parsedMap := by rw [q1]
  have e2 : d2.ignoredMap = d.ignoredMap := by rw [q1]
  have e3 : d2.translate = true := by rw [q1]; exact ht
  exact ⟨e1, e2, e3, fun h0 => by rw [e1]; exact h0, fun h0 => by rw [e2]; exact h0, q2⟩

theorem translate_on_inserts_nothing_witness :
    ExifToolParser.Private.new.translate = true ∧
      ∃ d2,
        ExifToolParser.slotCmdCompleted
            (fun _ => QJsonDocument.array
              [QVariant.map
                [("SourceFile".toList, QVariant.string "a.jpg".toList),
                  ("EXIF:IFD0:Main:string:Make".toList,
                    QVariant.map [("val".toList, QVariant.string "ACME".toList),
                      ("desc".toList, QVariant.string "Make".toList)])]])
            ExifToolParser.Private.new [] = some d2 :=
  ⟨rfl,
    (translate_on_inserts_nothing
      (fun _ => QJsonDocument.array
        [QVariant.map
          [("SourceFile".toList, QVariant.string "a.jpg".toList),
            ("EXIF:IFD0:Main:string:Make".toList,
              QVariant.map [("val".toList, QVariant.string "ACME".toList),
                ("desc".toList, QVariant.string "Make".toList)])]])
      ExifToolParser.Private.new [] rfl).2.1 (by decide)⟩

/-! ## After both channels are ready -/

theorem execNextCmd_idle (d : Private) (now : Int)
    (h : d.process.state ≠ ProcessState.Running ∨ d.writeChannelIsClosed = true ∨
      d.cmdQueue = []) : execNextCmd d now = d := by
  unfold execNextCmd
  split
  · rfl
  · rename_i h1
    rcases h with h | h | h
    · exact absurd (Or.inl h) h1
    · exact absurd (Or.inr h) h1
    · rw [if_pos (Or.inr (by rw [h]; rfl))]

theorem readOutput_ready (w : World) (ch : ProcessChannel) (now : Int)
    (hout : (readLoop w.d ch).out.outReady = true)
    (herr : (readLoop w.d ch).err.outReady = true) :
    (readOutput w ch now).d = execNextCmd { readLoop w.d ch with cmdRunning := 0 } now := by
  simp only [readOutput, hout, herr, Bool.and_self, Bool.not_true, Bool.false_eq_true, if_false]

/-- C23 (as stated, refuted): command 1 is in flight, the queue is empty and both channels
deliver its frame. When `readOutput` finds both channels ready it emits the completion and
clears `cmdRunning`, but the per-command state is not reset: both ready flags stay true, the
awaited ids stay 1 and the standard output buffer keeps the payload. -/
theorem ready_flags_kept_when_idle :
    World.stdoutRead.d.cmdRunning = 1 ∧ World.stdoutRead.d.cmdQueue = [] ∧
      (readLoop World.stdoutRead.d ProcessChannel.StandardError).out.outReady = true ∧
      (readLoop World.stdoutRead.d ProcessChannel.StandardError).err.outReady = true ∧
      (readOutput World.stdoutRead ProcessChannel.StandardError 4).d.cmdRunning = 0 ∧
      (readOutput World.stdoutRead ProcessChannel.StandardError 4).d.out =
        { outAwait := 1, outReady := true,
          outBuff := "[\x7b\"SourceFile\":\"a.jpg\"\x7d]\n".toList } ∧
      (readOutput World.stdoutRead ProcessChannel.StandardError 4).d.err =
        { outAwait := 1, outReady := true, outBuff := [] } := by
  decide

/-- C23 (amended): whenever `readOutput` finds both channels ready, whether the ids agree or
not, it clears `cmdRunning` and calls the dispatcher. If the process is running, the write
channel is open and the queue is not empty, the head of the queue is dispatched: its script is
written, it leaves the queue, `cmdRunning` becomes its id, the timer is restarted, the unread
bytes of both channels are dropped and the per-command state is reset (both buffers empty, both
awaited ids 0, both ready flags false). Otherwise (empty queue, process not running or write
channel closed) nothing is dispatched and the state is the one left by the read loop with
`cmdRunning` 0: both ready flags are still true and the buffers and awaited ids are kept until
the next dispatch. -/
theorem ready_then_dispatch (w : World) (channel : ProcessChannel) (now : Int)
    (hout : (readLoop w.d channel).out.outReady = true)
    (herr : (readLoop w.d channel).err.outReady = true) :
    (∀ (c : Command) (q : List Command),
        w.d.process.state = ProcessState.Running → w.d.writeChannelIsClosed = false →
        w.d.cmdQueue = c :: q →
          (readOutput w channel now).d =
            { readLoop w.d channel with
              process :=
                { (readLoop w.d channel).process with
                  unreadOut := [], unreadErr := [],
                  written := w.d.process.written ++ [c.argsStr] }
              out := { outAwait := 0, outReady := false, outBuff := [] }
              err := { outAwait := 0, outReady := false, outBuff := [] }
              execTimer := now
              cmdQueue := q
              cmdRunning := c.id }) ∧
      (w.d.process.state ≠ ProcessState.Running ∨ w.d.writeChannelIsClosed = true ∨
          w.d.cmdQueue = [] →
        (readOutput w channel now).d = { readLoop w.d channel with cmdRunning := 0 } ∧
          (readOutput w channel now).d.cmdRunning = 0 ∧
          (readOutput w channel now).d.out.outReady = true ∧
          (readOutput w channel now).d.err.outReady = true ∧
          (readOutput w channel now).d.process.written = w.d.process.written) := by
  obtain ⟨f1, f2, f3, f4⟩ := readLoop_flags w.d channel
  have hro := readOutput_ready w channel now hout herr
  constructor
  · intro c q hs hw hq
    rw [hro, execNextCmd_dispatch { readLoop w.d channel with cmdRunning := 0 } now c q
      (f2.trans hs) (f1.trans hw) rfl (f4.trans hq)]
    simp only [f3]
  · intro h
    have hidle : execNextCmd { readLoop w.d channel with cmdRunning := 0 } now =
        { readLoop w.d channel with cmdRunning := 0 } := by
      refine execNextCmd_idle _ now ?_
      rcases h with h | h | h
      · exact Or.inl (by show (readLoop w.d channel).process.state ≠ _; rw [f2]; exact h)
      · exact Or.inr (Or.inl (f1.trans h))
      · exact Or.inr (Or.inr (f4.trans h))
    rw [hro, hidle]
    exact ⟨rfl, rfl, hout, herr, f3⟩

theorem ready_then_dispatch_witness :
    (readLoop World.stdoutRead.d ProcessChannel.StandardError).out.outReady = true ∧
      (readLoop World.stdoutRead.d ProcessChannel.StandardError).err.outReady = true ∧
      (readOutput World.stdoutRead ProcessChannel.StandardError 4).d.cmdRunning = 0 ∧
      (readOutput
          (run { world := World.busy, accepted := [], allocated := 1 }
            [Op.command 1 ["-ver".toList],
              Op.childOutput ProcessChannel.StandardOutput
                ["\x7bawait0000000001\x7d\n".toList, "\x7bready\x7d\n".toList],
              Op.childOutput ProcessChannel.StandardError
                ["\x7bawait0000000001\x7d\n".toList, "\x7bready\x7d\n".toList],
              Op.readyRead ProcessChannel.StandardOutput 3]).world
          ProcessChannel.StandardError 4).d.cmdRunning = 2 :=
  ⟨by decide, by decide,
    ((ready_then_dispatch World.stdoutRead ProcessChannel.StandardError 4 (by decide)
      (by decide)).2 (Or.inr (Or.inr (by decide)))).2.1,
    congrArg Private.cmdRunning
      ((ready_then_dispatch
        (run { world := World.busy, accepted := [], allocated := 1 }
          [Op.command 1 ["-ver".toList],
            Op.childOutput ProcessChannel.StandardOutput
              ["\x7bawait0000000001\x7d\n".toList, "\x7bready\x7d\n".toList],
            Op.childOutput ProcessChannel.StandardError
              ["\x7bawait0000000001\x7d\n".toList, "\x7bready\x7d\n".toList],
            Op.readyRead ProcessChannel.StandardOutput 3]).world
        ProcessChannel.StandardError 4 (by decide) (by decide)).1
        { id := 2, argsStr := buildScript 2 ["-ver".toList] } [] (by decide) (by decide)
        (by decide))⟩

/-! ## Ready flags and completed ids -/

theorem mem_completedIds (l : List Signal) (id : Int) :
    id ∈ completedIds l ↔ ∃ (t : Int) (o r : QByteArray), Signal.CmdCompleted id t o r ∈ l := by
  induction l with
  | nil => simp [completedIds]
  | cons s rest ih =>
    cases s with
    | CmdCompleted i t o r =>
      simp only [completedIds, List.mem_cons, ih, Signal.CmdCompleted.injEq]
      constructor
      · rintro (h | ⟨t2, o2, r2, h⟩)
        · exact ⟨t, o, r, Or.inl ⟨h, rfl, rfl, rfl⟩⟩
        · exact ⟨t2, o2, r2, Or.inr h⟩
      · rintro ⟨t2, o2, r2, h | h⟩
        · exact Or.inl h.1
        · exact Or.inr ⟨t2, o2, r2, h⟩
    | Started => simp [completedIds, ih]
    | StateChanged s => simp [completedIds, ih]
    | ErrorOccurred e => simp [completedIds, ih]
    | Finished c s => simp [completedIds, ih]

theorem running_accepted (e : Execution) (h : InOrder e.world.d e.world.emitted e.accepted)
    (hr : e.world.d.cmdRunning ≠ 0) : ∃ c ∈ e.accepted, c.id = e.world.d.cmdRunning := by
  obtain ⟨_, _, _, disp, _, h5, _, h7⟩ := h
  obtain ⟨init, last, hd, hl, _⟩ := h7 hr
  refine ⟨last, ?_, hl⟩
  have hm : last ∈ disp ++ e.world.d.cmdQueue := by
    rw [hd]; simp
  exact h5.subset hm

theorem completed_nonzero_run (ops : List Op) :
    ∀ e : Execution, InOrder e.world.d e.world.emitted e.accepted →
      (∀ id ∈ completedIds e.world.emitted, id ≠ 0) →
        ∀ id ∈ completedIds (run e ops).world.emitted, id ≠ 0 := by
  induction ops with
  | nil => intro e _ h; exact h
  | cons op ops ih =>
    intro e hin h
    refine ih (step e op) (InOrder_step e op hin) ?_
    intro id hid
    rcases step_completion e op hin.1 with hc | ⟨hr, hc⟩
    · rw [hc] at hid; exact h id hid
    · rw [hc, List.mem_append, List.mem_singleton] at hid
      rcases hid with hid | hid
      · exact h id hid
      · rw [hid]; exact hr

/-- C27: in every reachable state a channel whose ready flag is true has a non-zero awaited id.
Consequently no command-completed signal carries id 0, and every command-completed signal
carries an id returned by an accepted `command()` of the same object; the id carried by a
signal emitted during an operation is the id that was running before the operation, of a command
accepted before it. -/
theorem ready_implies_awaited (ops : List Op) :
    ((run Execution.new ops).world.d.out.outReady = true →
        (run Execution.new ops).world.d.out.outAwait ≠ 0) ∧
      ((run Execution.new ops).world.d.err.outReady = true →
        (run Execution.new ops).world.d.err.outAwait ≠ 0) ∧
      (∀ (id t : Int) (o r : QByteArray),
        Signal.CmdCompleted id t o r ∈ (run Execution.new ops).world.emitted →
          id ≠ 0 ∧ ∃ c ∈ (run Execution.new ops).accepted, c.id = id) ∧
      ∀ (op : Op) (id : Int),
        id ∈ completedIds (step (run Execution.new ops) op).world.emitted →
          id ∈ completedIds (run Execution.new ops).world.emitted ∨
            (id ≠ 0 ∧ id = (run Execution.new ops).world.d.cmdRunning ∧
              ∃ c ∈ (run Execution.new ops).accepted, c.id = id) := by
  have hin := InOrder_run ops Execution.new InOrder_new
  have hnz := completed_nonzero_run ops Execution.new InOrder_new
    (fun id hid => absurd hid (List.not_mem_nil id))
  refine ⟨hin.1, hin.2.1, ?_, ?_⟩
  · intro id t o r hmem
    have hid : id ∈ completedIds (run Execution.new ops).world.emitted :=
      (mem_completedIds _ id).mpr ⟨t, o, r, hmem⟩
    refine ⟨hnz id hid, ?_⟩
    obtain ⟨_, _, _, disp, _, h5, h6, _⟩ := hin
    have h1 : id ∈ disp.map Command.id := h6.subset hid
    obtain ⟨c, hc, hci⟩ := List.mem_map.mp h1
    exact ⟨c, h5.subset (List.mem_append_left _ hc), hci⟩
  · intro op id hid
    rcases step_completion (run Execution.new ops) op hin.1 with hc | ⟨hr, hc⟩
    · rw [hc] at hid; exact Or.inl hid
    · rw [hc, List.mem_append, List.mem_singleton] at hid
      rcases hid with hid | hid
      · exact Or.inl hid
      · right
        rw [hid]
        exact ⟨hr, rfl, running_accepted _ hin hr⟩

/-! ## Isolation of a command from earlier ones -/

theorem readOutput_emitted_prefix (w : World) (em : List Signal) (ch : ProcessChannel)
    (now : Int) :
    (readOutput { w with emitted := em } ch now).d = (readOutput w ch now).d ∧
      (readOutput { w with emitted := em } ch now).s_nextCmdId = (readOutput w ch now).s_nextCmdId ∧
      ∃ new, (readOutput w ch now).emitted = w.emitted ++ new ∧
        (readOutput { w with emitted := em } ch now).emitted = em ++ new := by
  unfold readOutput
  simp only
  split
  · exact ⟨rfl, rfl, [], by simp, by simp⟩
  · split
    · exact ⟨rfl, rfl, [], by simp, by simp⟩
    · exact ⟨rfl, rfl, _, rfl, rfl⟩

theorem step_emitted_prefix (e1 e2 : Execution) (op : Op)
    (hd : e2.world.d = e1.world.d) (hs : e2.world.s_nextCmdId = e1.world.s_nextCmdId) :
    (step e2 op).world.d = (step e1 op).world.d ∧
      (step e2 op).world.s_nextCmdId = (step e1 op).world.s_nextCmdId ∧
      ∃ new, (step e1 op).world.emitted = e1.world.emitted ++ new ∧
        (step e2 op).world.emitted = e2.world.emitted ++ new := by
  obtain ⟨w1, a1, n1⟩ := e1
  obtain ⟨w2, a2, n2⟩ := e2
  obtain ⟨s1, d1, em1⟩ := w1
  obtain ⟨s2, d2, em2⟩ := w2
  simp only at hd hs
  subst hd hs
  cases op with
  | setProgram a b =>
    simp only [step, setProgram]
    split <;> exact ⟨rfl, rfl, [], by simp, by simp⟩
  | start f g =>
    simp only [step, start]
    split
    · exact ⟨rfl, rfl, [], by simp, by simp⟩
    · split
      · exact ⟨rfl, rfl, _, rfl, rfl⟩
      · split
        · exact ⟨rfl, rfl, _, rfl, rfl⟩
        · exact ⟨rfl, rfl, _, rfl, rfl⟩
  | terminate =>
    simp only [step, terminate]
    split <;> exact ⟨rfl, rfl, [], by simp, by simp⟩
  | kill => exact ⟨rfl, rfl, [], by simp [step, kill], by simp [step, kill]⟩
  | command now args =>
    simp only [step, accepts, command]
    split <;> split <;> exact ⟨rfl, rfl, [], by simp, by simp⟩
  | otherInstanceCommand => exact ⟨rfl, rfl, [], by simp [step], by simp [step]⟩
  | processStarted =>
    simp only [step]
    split
    · exact ⟨rfl, rfl, _, by simp only [slotStarted, slotStateChanged, List.append_assoc]; rfl,
        by simp only [slotStarted, slotStateChanged, List.append_assoc]⟩
    · exact ⟨rfl, rfl, [], by simp, by simp⟩
  | processFailedToStart desc =>
    simp only [step]
    split
    · exact ⟨rfl, rfl, _,
        by simp only [slotErrorOccurred, setProcessErrorAndEmit, slotStateChanged,
          List.append_assoc]; rfl,
        by simp only [slotErrorOccurred, setProcessErrorAndEmit, slotStateChanged,
          List.append_assoc]⟩
    · exact ⟨rfl, rfl, [], by simp, by simp⟩
  | processError err desc => exact ⟨rfl, rfl, _, rfl, rfl⟩
  | processFinished code status =>
    simp only [step]
    split
    · split
      · exact ⟨rfl, rfl, _,
          by simp only [slotFinished, slotErrorOccurred, setProcessErrorAndEmit, slotStateChanged,
            List.append_assoc]; rfl,
          by simp only [slotFinished, slotErrorOccurred, setProcessErrorAndEmit, slotStateChanged,
            List.append_assoc]⟩
      · exact ⟨rfl, rfl, _,
          by simp only [slotFinished, slotStateChanged, List.append_assoc]; rfl,
          by simp only [slotFinished, slotStateChanged, List.append_assoc]⟩
    · exact ⟨rfl, rfl, [], by simp, by simp⟩
  | childOutput ch lines =>
    simp only [step]
    split <;> exact ⟨rfl, rfl, [], by simp, by simp⟩
  | readyRead ch now =>
    exact readOutput_emitted_prefix { s_nextCmdId := s2, d := d2, emitted := em1 } em2 ch now

theorem run_emitted_prefix (ops : List Op) :
    ∀ e1 e2 : Execution, e2.world.d = e1.world.d →
      e2.world.s_nextCmdId = e1.world.s_nextCmdId →
        (run e2 ops).world.d = (run e1 ops).world.d ∧
          ∃ new, (run e1 ops).world.emitted = e1.world.emitted ++ new ∧
            (run e2 ops).world.emitted = e2.world.emitted ++ new := by
  induction ops with
  | nil => intro e1 e2 hd _; exact ⟨hd, [], by simp [run], by simp [run]⟩
  | cons op ops ih =>
    intro e1 e2 hd hs
    obtain ⟨sd, ss, new1, a1, a2⟩ := step_emitted_prefix e1 e2 op hd hs
    obtain ⟨rd, new2, b1, b2⟩ := ih (step e1 op) (step e2 op) sd ss
    refine ⟨rd, new1 ++ new2, ?_, ?_⟩
    · show (run (step e1 op) ops).world.emitted = _
      rw [b1, a1, List.append_assoc]
    · show (run (step e2 op) ops).world.emitted = _
      rw [b2, a2, List.append_assoc]

theorem execNextCmd_withLeftovers (d : Private) (o r : ChannelState)
    (uo ue : List QByteArray) (now : Int)
    (hs : d.process.state = ProcessState.Running) (hw : d.writeChannelIsClosed = false)
    (hr : d.cmdRunning = 0) (hq : d.cmdQueue ≠ []) :
    execNextCmd (d.withLeftovers o r uo ue) now = execNextCmd d now ∧
      (execNextCmd d now).out = { outAwait := 0, outReady := false, outBuff := [] } ∧
      (execNextCmd d now).err = { outAwait := 0, outReady := false, outBuff := [] } ∧
      (execNextCmd d now).process.unreadOut = [] ∧
      (execNextCmd d now).process.unreadErr = [] := by
  cases hqq : d.cmdQueue with
  | nil => exact absurd hqq hq
  | cons c q =>
    rw [execNextCmd_dispatch d now c q hs hw hr hqq,
      execNextCmd_dispatch (d.withLeftovers o r uo ue) now c q hs hw hr hqq]
    exact ⟨rfl, rfl, rfl, rfl, rfl⟩

theorem command_withLeftovers (w : World) (o r : ChannelState) (uo ue : List QByteArray)
    (em : List Signal) (now : Int) (args : List QByteArray)
    (hs : w.d.process.state = ProcessState.Running) (hw : w.d.writeChannelIsClosed = false)
    (hr : w.d.cmdRunning = 0) (ha : args ≠ []) :
    (command { w with d := w.d.withLeftovers o r uo ue, emitted := em } now args).1 =
        (command w now args).1 ∧
      (command { w with d := w.d.withLeftovers o r uo ue, emitted := em } now args).2.d =
        (command w now args).2.d ∧
      (command { w with d := w.d.withLeftovers o r uo ue, emitted := em } now args).2.s_nextCmdId =
        (command w now args).2.s_nextCmdId ∧
      (command w now args).2.emitted = w.emitted ∧
      (command { w with d := w.d.withLeftovers o r uo ue, emitted := em } now args).2.emitted =
        em := by
  have hne : args.isEmpty = false := by
    cases args with
    | nil => exact absurd rfl ha
    | cons a as => rfl
  have hacc : accepts w args = true := by simp [accepts, hs, hw, hne]
  have hacc2 : accepts { w with d := w.d.withLeftovers o r uo ue, emitted := em } args = true := by
    simp [accepts, Private.withLeftovers, hs, hw, hne]
  rw [command_accepted w now args hacc, command_accepted _ now args hacc2]
  refine ⟨rfl, ?_, rfl, rfl, rfl⟩
  have := execNextCmd_withLeftovers
    { w.d with cmdQueue := w.d.cmdQueue ++
      [{ id := w.s_nextCmdId, argsStr := buildScript w.s_nextCmdId args }] } o r uo ue now
    hs hw hr (by simp)
  exact this.1

/-- C30: the completion events of a command depend only on what happens after its dispatch.
Take a running, idle supervisor and a second one that differs from it only in the leftovers of
earlier commands (buffers, awaited ids, ready flags, unread lines) and in the events emitted so
far. When both dispatch the head of the same queue, or accept the same `command()` call, they
are in the same state afterwards, with empty buffers, awaited ids 0, ready flags false and no
unread line; from there the same operations (the same lines read on each channel) make both
emit the same events, in particular the same command-completed events with the same id, time,
standard output bytes and standard error bytes. -/
theorem dispatch_isolates (w : World) (o r : ChannelState) (uo ue : List QByteArray)
    (em : List Signal) (now : Int)
    (hs : w.d.process.state = ProcessState.Running) (hw : w.d.writeChannelIsClosed = false)
    (hr : w.d.cmdRunning = 0) :
    (w.d.cmdQueue ≠ [] →
        execNextCmd (w.d.withLeftovers o r uo ue) now = execNextCmd w.d now ∧
          (execNextCmd w.d now).out = { outAwait := 0, outReady := false, outBuff := [] } ∧
          (execNextCmd w.d now).err = { outAwait := 0, outReady := false, outBuff := [] } ∧
          (execNextCmd w.d now).process.unreadOut = [] ∧
          (execNextCmd w.d now).process.unreadErr = [] ∧
          ∀ (acc1 acc2 : List Command) (n1 n2 : Nat) (ops : List Op),
            ∃ new : List Signal,
              (run { world := { w with d := execNextCmd w.d now }, accepted := acc1,
                     allocated := n1 } ops).world.emitted = w.emitted ++ new ∧
                (run { world := { w with d := execNextCmd (w.d.withLeftovers o r uo ue) now,
                                         emitted := em },
                       accepted := acc2, allocated := n2 } ops).world.emitted = em ++ new) ∧
      ∀ args : List QByteArray, args ≠ [] →
        (command { w with d := w.d.withLeftovers o r uo ue, emitted := em } now args).1 =
            (command w now args).1 ∧
          (command { w with d := w.d.withLeftovers o r uo ue, emitted := em } now args).2.d =
            (command w now args).2.d ∧
          ∀ (acc1 acc2 : List Command) (n1 n2 : Nat) (ops : List Op),
            ∃ new : List Signal,
              (run { world := (command w now args).2, accepted := acc1,
                     allocated := n1 } ops).world.emitted = w.emitted ++ new ∧
                (run { world :=
                         (command { w with d := w.d.withLeftovers o r uo ue, emitted := em }
                           now args).2,
                       accepted := acc2, allocated := n2 } ops).world.emitted = em ++ new := by
  constructor
  · intro hq
    obtain ⟨a1, a2, a3, a4, a5⟩ := execNextCmd_withLeftovers w.d o r uo ue now hs hw hr hq
    refine ⟨a1, a2, a3, a4, a5, ?_⟩
    intro acc1 acc2 n1 n2 ops
    obtain ⟨_, new, b1, b2⟩ := run_emitted_prefix ops
      { world := { w with d := execNextCmd w.d now }, accepted := acc1, allocated := n1 }
      { world := { w with d := execNextCmd (w.d.withLeftovers o r uo ue) now, emitted := em },
        accepted := acc2, allocated := n2 } a1 rfl
    exact ⟨new, b1, b2⟩
  · intro args ha
    obtain ⟨c1, c2, c3, c4, c5⟩ := command_withLeftovers w o r uo ue em now args hs hw hr ha
    refine ⟨c1, c2, ?_⟩
    intro acc1 acc2 n1 n2 ops
    obtain ⟨_, new, b1, b2⟩ := run_emitted_prefix ops
      { world := (command w now args).2, accepted := acc1, allocated := n1 }
      { world := (command { w with d := w.d.withLeftovers o r uo ue, emitted := em } now args).2,
        accepted := acc2, allocated := n2 } c2 c3
    rw [c4] at b1
    rw [c5] at b2
    exact ⟨new, b1, b2⟩

theorem dispatch_isolates_witness :
    World.started.d.process.state = ProcessState.Running ∧
      (command
          { World.started with
            d := World.started.d.withLeftovers
              { outAwait := 7, outReady := true, outBuff := "old".toList }
              { outAwait := 7, outReady := false, outBuff := "stale".toList }
              ["late\n".toList] []
            emitted := [] } 5 ["-ver".toList]).2.d =
        (command World.started 5 ["-ver".toList]).2.d :=
  ⟨by decide,
    ((dispatch_isolates World.started
      { outAwait := 7, outReady := true, outBuff := "old".toList }
      { outAwait := 7, outReady := false, outBuff := "stale".toList }
      ["late\n".toList] [] [] 5 (by decide) (by decide) (by decide)).2
      ["-ver".toList] (by decide)).2.1⟩

/-! ## Framing directives in the script -/

theorem isPrefixOf_anchor (c : Char) (t : QByteArray) :
    ∀ (s q : QByteArray), c ∉ q → q.isPrefixOf (s ++ c :: t) = q.isPrefixOf s := by
  intro s
  induction s with
  | nil =>
    intro q hq
    cases q with
    | nil => rfl
    | cons e q2 =>
      have : e ≠ c := fun h => hq (by rw [h]; exact List.mem_cons_self _ _)
      simp [List.isPrefixOf, this]
  | cons d s2 ih =>
    intro q hq
    cases q with
    | nil => rfl
    | cons e q2 =>
      have h2 : c ∉ q2 := fun h => hq (List.mem_cons_of_mem _ h)
      have e2 := ih q2 h2
      simp only [List.cons_append, List.isPrefixOf]
      exact congrArg (fun b => (e == d) && b) e2

theorem count_anchor (c : Char) (q t : QByteArray) (hq : c ∉ q) :
    ∀ a : QByteArray, count (a ++ c :: t) (c :: q) = count a (c :: q) + count (c :: t) (c :: q) := by
  intro a
  induction a with
  | nil => simp [count]
  | cons d a2 ih =>
    have hp : (c :: q).isPrefixOf (d :: (a2 ++ c :: t)) = (c :: q).isPrefixOf (d :: a2) := by
      simp only [List.isPrefixOf, isPrefixOf_anchor c t a2 q hq]
    rw [List.cons_append, count, count, hp, ih]
    omega

theorem count_skip (c : Char) (q y : QByteArray) :
    ∀ u : QByteArray, c ∉ u → count (u ++ y) (c :: q) = count y (c :: q) := by
  intro u
  induction u with
  | nil => intro _; rfl
  | cons d u2 ih =>
    intro hu
    have hd : c ≠ d := fun h => hu (by rw [h]; exact List.mem_cons_self _ _)
    have h2 : c ∉ u2 := fun h => hu (List.mem_cons_of_mem _ h)
    rw [List.cons_append, count, ih h2]
    simp [List.isPrefixOf, hd]

theorem count_skip_end (c : Char) (q : QByteArray) :
    ∀ u : QByteArray, c ∉ u → count u (c :: q) = 0 := by
  intro u
  induction u with
  | nil => intro _; rfl
  | cons d u2 ih =>
    intro hu
    have hd : c ≠ d := fun h => hu (by rw [h]; exact List.mem_cons_self _ _)
    have h2 : c ∉ u2 := fun h => hu (List.mem_cons_of_mem _ h)
    rw [count, ih h2]
    simp [List.isPrefixOf, hd]

theorem count_zero_of_missing (x : Char) (needle : QByteArray) (hx : x ∈ needle) :
    ∀ a : QByteArray, x ∉ a → count a needle = 0 := by
  intro a
  induction a with
  | nil =>
    intro _
    cases needle with
    | nil => exact absurd hx (List.not_mem_nil x)
    | cons e n => rfl
  | cons d a2 ih =>
    intro ha
    have h2 : x ∉ a2 := fun h => ha (List.mem_cons_of_mem _ h)
    rw [count, ih h2]
    have hnp : needle.isPrefixOf (d :: a2) = false := by
      cases hp : needle.isPrefixOf (d :: a2) with
      | false => rfl
      | true =>
        have := (List.isPrefixOf_iff_prefix.mp hp).subset hx
        exact absurd this ha
    simp [hnp]

theorem buildScript_layout (C : Int) (args : List QByteArray) :
    ∃ rest : QByteArray,
      (rest = "-echo3\n\x7bready\x7d\n-echo4\n\x7bready\x7d\n-execute\n".toList ∨
        rest = "-echo4\n\x7bready\x7d\n-execute\n".toList) ∧
      buildScript C args =
        (args.map (fun arg => arg ++ ['\n'])).flatten ++
          (awaitDirective '1' C ++ (awaitDirective '2' C ++ rest)) := by
  have e1 : "-echo1\n\x7bawait".toList = "-echo".toList ++ '1' :: "\n\x7bawait".toList := by
    decide
  have e2 : "-echo2\n\x7bawait".toList = "-echo".toList ++ '2' :: "\n\x7bawait".toList := by
    decide
  have e3 : "-echo3\n\x7bready\x7d\n".toList ++
      "-echo4\n\x7bready\x7d\n-execute\n".toList =
      "-echo3\n\x7bready\x7d\n-echo4\n\x7bready\x7d\n-execute\n".toList := by decide
  have e4 : "-echo4\n\x7bready\x7d\n".toList ++ "-execute\n".toList =
      "-echo4\n\x7bready\x7d\n-execute\n".toList := by decide
  unfold buildScript awaitDirective
  simp only [e1, e2]
  split
  · refine ⟨_, Or.inl rfl, ?_⟩
    simp only [List.append_assoc, List.cons_append, e3, e4]
  · refine ⟨_, Or.inr rfl, ?_⟩
    simp only [List.append_assoc, List.cons_append, e4]

theorem awaitDirective_cons (k : Char) (C : Int) :
    awaitDirective k C =
      '-' :: ("echo".toList ++ k ::
        ("\n\x7bawait".toList ++ rightJustified (number C) 10 '0' ++ "\x7d\n".toList)) := rfl

theorem dash_not_in_body (k : Char) (hk : k = '1' ∨ k = '2') (C : Int) (h1 : 1 ≤ C) :
    '-' ∉ "echo".toList ++ k ::
      ("\n\x7bawait".toList ++ rightJustified (number C) 10 '0' ++ "\x7d\n".toList) := by
  intro h
  simp only [List.mem_append, List.mem_cons] at h
  have hd : '-' ∉ rightJustified (number C) 10 '0' := by
    intro hm
    exact absurd (cmdIdStr_allDigits C h1 '-' hm) (by decide)
  rcases h with h | h | (h | h) | h
  · exact absurd h (by decide)
  · rcases hk with hk | hk <;> (rw [hk] at h; exact absurd h (by decide))
  · exact absurd h (by decide)
  · exact hd h
  · exact absurd h (by decide)

theorem body_isPrefixOf (k j : Char) (x y : QByteArray) :
    ("echo".toList ++ k :: x).isPrefixOf ("echo".toList ++ j :: y) =
      (k == j && x.isPrefixOf y) := by
  show (['e', 'c', 'h', 'o'] ++ k :: x).isPrefixOf (['e', 'c', 'h', 'o'] ++ j :: y) = _
  simp [List.isPrefixOf]

theorem count_rest (k : Char) (C : Int) (rest : QByteArray)
    (hrest : rest = "-echo3\n\x7bready\x7d\n-echo4\n\x7bready\x7d\n-execute\n".toList ∨
      rest = "-echo4\n\x7bready\x7d\n-execute\n".toList) :
    count rest (awaitDirective k C) = 0 := by
  refine count_zero_of_missing 'w' _ ?_ rest ?_
  · simp only [awaitDirective, List.mem_append, List.mem_cons]
    exact Or.inr (Or.inr (Or.inl (Or.inl (by decide))))
  · rcases hrest with h | h <;> (rw [h]; decide)

theorem count_cons_same (c : Char) (q x : QByteArray) :
    count (c :: x) (c :: q) = (if q.isPrefixOf x then 1 else 0) + count x (c :: q) := by
  simp [count, List.isPrefixOf]

theorem count_two (b1 b2 bk rest : QByteArray) (h1 : '-' ∉ b1) (h2 : '-' ∉ b2)
    (hr : count rest ('-' :: bk) = 0) :
    count ('-' :: (b1 ++ '-' :: (b2 ++ rest))) ('-' :: bk) =
      (if bk.isPrefixOf (b1 ++ '-' :: (b2 ++ rest)) then 1 else 0) +
        (if bk.isPrefixOf (b2 ++ rest) then 1 else 0) := by
  rw [count_cons_same, count_skip '-' bk _ b1 h1, count_cons_same, count_skip '-' bk _ b2 h2, hr,
    Nat.add_zero]

theorem count_framing (k : Char) (hk : k = '1' ∨ k = '2') (C : Int) (h1 : 1 ≤ C)
    (rest : QByteArray)
    (hrest : rest = "-echo3\n\x7bready\x7d\n-echo4\n\x7bready\x7d\n-execute\n".toList ∨
      rest = "-echo4\n\x7bready\x7d\n-execute\n".toList) :
    count (awaitDirective '1' C ++ (awaitDirective '2' C ++ rest)) (awaitDirective k C) = 1 := by
  have hb1 := dash_not_in_body '1' (Or.inl rfl) C h1
  have hb2 := dash_not_in_body '2' (Or.inr rfl) C h1
  have hr := count_rest k C rest hrest
  have hself : ∀ (x y : QByteArray), x.isPrefixOf (x ++ y) = true := by
    intro x y
    exact List.isPrefixOf_iff_prefix.mpr (List.prefix_append x y)
  rw [awaitDirective_cons k C] at hr
  rw [awaitDirective_cons '1' C, awaitDirective_cons '2' C, awaitDirective_cons k C]
  generalize hx : "\n\x7bawait".toList ++ rightJustified (number C) 10 '0' ++ "\x7d\n".toList = x
    at hb1 hb2 hr
  show count ('-' :: (("echo".toList ++ '1' :: x) ++ '-' :: (("echo".toList ++ '2' :: x) ++ rest)))
    ('-' :: ("echo".toList ++ k :: x)) = 1
  rw [count_two _ _ _ rest hb1 hb2 hr]
  have a1 : ∀ y : QByteArray, ("echo".toList ++ '1' :: x) ++ y = "echo".toList ++ '1' :: (x ++ y) := by
    intro y; simp
  have a2 : ∀ y : QByteArray, ("echo".toList ++ '2' :: x) ++ y = "echo".toList ++ '2' :: (x ++ y) := by
    intro y; simp
  rw [a1, a2, body_isPrefixOf, body_isPrefixOf]
  rcases hk with hk | hk
  · subst hk
    simp [hself]
  · subst hk
    simp [hself]

theorem count_buildScript (k : Char) (hk : k = '1' ∨ k = '2') (C : Int) (h1 : 1 ≤ C)
    (args : List QByteArray) :
    count (buildScript C args) (awaitDirective k C) =
      count (args.map (fun arg => arg ++ ['\n'])).flatten (awaitDirective k C) + 1 := by
  obtain ⟨rest, hrest, hl⟩ := buildScript_layout C args
  have hf := count_framing k hk C h1 rest hrest
  rw [hl]
  rw [awaitDirective_cons k C] at hf ⊢
  have hd := dash_not_in_body k hk C h1
  have e : awaitDirective '1' C ++ (awaitDirective '2' C ++ rest) =
      '-' :: (("echo".toList ++ '1' ::
        ("\n\x7bawait".toList ++ rightJustified (number C) 10 '0' ++ "\x7d\n".toList)) ++
          (awaitDirective '2' C ++ rest)) := rfl
  rw [e] at hf ⊢
  rw [count_anchor '-' _ _ hd, hf]

/-- C21 (as stated, refuted): for id 1 and the arguments `-echo1` and `{await0000000001}` the
script contains the standard output framing directive `-echo1\n{await0000000001}\n` twice,
once in the argument lines and once in the framing part. -/
theorem await_directive_twice :
    awaitDirective '1' 1 = "-echo1\n\x7bawait0000000001\x7d\n".toList ∧
      count (buildScript 1 ["-echo1".toList, "\x7bawait0000000001\x7d".toList])
        "-echo1\n\x7bawait0000000001\x7d\n".toList = 2 := by
  decide

/-- C21 (amended): for every id `C` from 1 on and every argument list, the number of occurrences
of the standard output framing directive `-echo1\n{await<C>}\n` in the script is one more than
in the argument lines alone, and likewise for the standard error framing directive
`-echo2\n{await<C>}\n`: the framing part appended by `command()` contains each of them exactly
once. The whole script contains exactly one occurrence of each whenever no argument contains the
character `{`. -/
theorem await_directive_once (C : Int) (h1 : 1 ≤ C) (args : List QByteArray) :
    awaitDirective '1' C =
        "-echo1\n\x7bawait".toList ++ rightJustified (number C) 10 '0' ++ "\x7d\n".toList ∧
      awaitDirective '2' C =
        "-echo2\n\x7bawait".toList ++ rightJustified (number C) 10 '0' ++ "\x7d\n".toList ∧
      count (buildScript C args) (awaitDirective '1' C) =
        count (args.map (fun arg => arg ++ ['\n'])).flatten (awaitDirective '1' C) + 1 ∧
      count (buildScript C args) (awaitDirective '2' C) =
        count (args.map (fun arg => arg ++ ['\n'])).flatten (awaitDirective '2' C) + 1 ∧
      ((∀ a ∈ args, '\x7b' ∉ a) →
        count (buildScript C args) (awaitDirective '1' C) = 1 ∧
          count (buildScript C args) (awaitDirective '2' C) = 1) := by
  have c1 := count_buildScript '1' (Or.inl rfl) C h1 args
  have c2 := count_buildScript '2' (Or.inr rfl) C h1 args
  refine ⟨by simp [awaitDirective], by simp [awaitDirective], c1, c2, ?_⟩
  intro hno
  have hlines : '\x7b' ∉ (args.map (fun arg => arg ++ ['\n'])).flatten := by
    intro hm
    simp only [List.mem_flatten, List.mem_map] at hm
    obtain ⟨l, ⟨a, ha, hla⟩, hl⟩ := hm
    rw [← hla, List.mem_append, List.mem_singleton] at hl
    rcases hl with hl | hl
    · exact hno a ha hl
    · exact absurd hl (by decide)
  have hin : ∀ k : Char, '\x7b' ∈ awaitDirective k C := by
    intro k
    simp only [awaitDirective, List.mem_append, List.mem_cons]
    exact Or.inr (Or.inr (Or.inl (Or.inl (by decide))))
  rw [c1, c2, count_zero_of_missing _ _ (hin '1') _ hlines,
    count_zero_of_missing _ _ (hin '2') _ hlines]
  exact ⟨rfl, rfl⟩

theorem await_directive_once_witness :
    count (buildScript 7 ["-json".toList, "a.jpg".toList])
        "-echo1\n\x7bawait0000000007\x7d\n".toList = 1 ∧
      count (buildScript 7 ["-json".toList, "a.jpg".toList])
        "-echo2\n\x7bawait0000000007\x7d\n".toList = 1 :=
  (await_directive_once 7 (by decide) ["-json".toList, "a.jpg".toList]).2.2.2.2 (by decide)

/-! ## The running id and the ready flags -/

theorem SinceLaunch_weaken {base : List QByteArray} {d d2 : Private} {s : Int}
    (h : SinceLaunch base d s) (hst : d2.process.state = d.process.state)
    (hw : scriptsWritten d2.process.written = scriptsWritten d.process.written)
    (hr : d2.cmdRunning = d.cmdRunning) (ho : d2.out.outReady = d.out.outReady)
    (he : d2.err.outReady = d.err.outReady) (hq : ∀ c ∈ d2.cmdQueue, c ∈ d.cmdQueue) :
    SinceLaunch base d2 s := by
  obtain ⟨s1, s2, hqz, extra, j0, j3, j1, j2⟩ := h
  refine ⟨s1, s2, fun c hc => hqz c (hq c hc), extra, hw.trans j0, ?_, ?_, ?_⟩
  · rw [hst]; exact j3
  · rw [hst, hr, ho, he]; exact j1
  · rw [hst, hr, ho, he]; exact j2

theorem execNextCmd_cases (d : Private) (now : Int) :
    execNextCmd d now = d ∨
      ∃ (c : Command) (q : List Command),
        d.process.state = ProcessState.Running ∧ d.writeChannelIsClosed = false ∧
          d.cmdRunning = 0 ∧ d.cmdQueue = c :: q ∧
          execNextCmd d now =
            { d with
              process :=
                { d.process with
                  unreadOut := [], unreadErr := [], written := d.process.written ++ [c.argsStr] }
              out := { outAwait := 0, outReady := false, outBuff := [] }
              err := { outAwait := 0, outReady := false, outBuff := [] }
              execTimer := now
              cmdQueue := q
              cmdRunning := c.id } := by
  by_cases hs : d.process.state = ProcessState.Running
  · by_cases hw : d.writeChannelIsClosed = true
    · exact Or.inl (execNextCmd_idle d now (Or.inr (Or.inl hw)))
    · have hw2 : d.writeChannelIsClosed = false := by simpa using hw
      by_cases hr : d.cmdRunning = 0
      · by_cases hq : d.cmdQueue = []
        · exact Or.inl (execNextCmd_idle d now (Or.inr (Or.inr hq)))
        · obtain ⟨c, q, hcq⟩ := List.exists_cons_of_ne_nil hq
          exact Or.inr ⟨c, q, hs, hw2, hr, hcq, execNextCmd_dispatch d now c q hs hw2 hr hcq⟩
      · exact Or.inl (execNextCmd_busy d now hr)
  · exact Or.inl (execNextCmd_idle d now (Or.inl hs))

theorem execNextCmd_launched (d : Private) (now : Int) :
    (execNextCmd d now).process.launched = d.process.launched := by
  rcases execNextCmd_cases d now with h | ⟨c, q, _, _, _, _, h⟩ <;> rw [h]

theorem scriptsWritten_append_script (written : List QByteArray) (script : QByteArray)
    (h : script ≠ stayOpenFalse) :
    scriptsWritten (written ++ [script]) = scriptsWritten written ++ [script] := by
  simp [scriptsWritten, List.filter_append, h]

theorem SinceLaunch_execNextCmd {base : List QByteArray} {d : Private} {s : Int} (now : Int)
    (h : SinceLaunch base d s) : SinceLaunch base (execNextCmd d now) s := by
  rcases execNextCmd_cases d now with he | ⟨c, q, hs, _, _, hq, he⟩
  · rw [he]; exact h
  · rw [he]
    obtain ⟨s1, s2, hqz, extra, j0, _, _, _⟩ := h
    have hc := hqz c (by rw [hq]; exact List.mem_cons_self _ _)
    refine ⟨s1, s2, ?_, extra ++ [c.argsStr], ?_, ?_, ?_, ?_⟩
    · intro x hx
      exact hqz x (by rw [hq]; exact List.mem_cons_of_mem _ hx)
    · show scriptsWritten (d.process.written ++ [c.argsStr]) = _
      rw [scriptsWritten_append_script _ _ hc.2, j0, List.append_assoc]
    · intro hst
      have : d.process.state = ProcessState.Starting := hst
      rw [hs] at this
      exact absurd this (by decide)
    · intro _
      exact ⟨hs, by simp, rfl⟩
    · intro _ _ _
      exact hc.1

theorem SinceLaunch_enqueue {base : List QByteArray} {d : Private} {s : Int} (c : Command)
    (h : SinceLaunch base d s) (hid : c.id ≠ 0) (hscript : c.argsStr ≠ stayOpenFalse) :
    SinceLaunch base { d with cmdQueue := d.cmdQueue ++ [c] } s := by
  obtain ⟨s1, s2, hqz, extra, j0, j3, j1, j2⟩ := h
  refine ⟨s1, s2, ?_, extra, j0, j3, j1, j2⟩
  intro x hx
  have hx2 : x ∈ d.cmdQueue ++ [c] := hx
  rw [List.mem_append, List.mem_singleton] at hx2
  rcases hx2 with hx2 | hx2
  · exact hqz x hx2
  · rw [hx2]; exact ⟨hid, hscript⟩

theorem SinceLaunch_counter {base : List QByteArray} {d : Private} {s : Int}
    (h : SinceLaunch base d s) : SinceLaunch base d (nextCmdId s) := by
  obtain ⟨s1, s2, rest⟩ := h
  obtain ⟨r1, r2⟩ := nextCmdId_range s s1 s2
  exact ⟨r1, r2, rest⟩

theorem readLoop_ready_mono (d : Private) (ch : ProcessChannel) :
    (d.out.outReady = true → (readLoop d ch).out.outReady = true) ∧
      (d.err.outReady = true → (readLoop d ch).err.outReady = true) := by
  cases ch with
  | StandardOutput =>
    refine ⟨?_, fun h => h⟩
    intro h
    show (readLines d.out d.process.unreadOut).1.outReady = true
    rw [readLines_ready d.out h]; exact h
  | StandardError =>
    refine ⟨fun h => h, ?_⟩
    intro h
    show (readLines d.err d.process.unreadErr).1.outReady = true
    rw [readLines_ready d.err h]; exact h

theorem both_ready_mono (d : Private) (ch : ProcessChannel)
    (h : ((readLoop d ch).out.outReady && (readLoop d ch).err.outReady) = false) :
    (d.out.outReady && d.err.outReady) = false := by
  obtain ⟨m1, m2⟩ := readLoop_ready_mono d ch
  cases ho : d.out.outReady with
  | false => rfl
  | true =>
    cases he : d.err.outReady with
    | false => rfl
    | true => rw [m1 ho, m2 he] at h; exact h

theorem SinceLaunch_readOutput {base : List QByteArray} (w : World) (ch : ProcessChannel)
    (now : Int) (h : SinceLaunch base w.d w.s_nextCmdId) :
    SinceLaunch base (readOutput w ch now).d (readOutput w ch now).s_nextCmdId := by
  obtain ⟨_, f2, f3, f4⟩ := readLoop_flags w.d ch
  obtain ⟨fc, _⟩ := readLoop_cmdRunning w.d ch
  obtain ⟨s1, s2, hqz, extra, j0, j3, j1, j2⟩ := h
  cases hb : ((readLoop w.d ch).out.outReady && (readLoop w.d ch).err.outReady) with
  | false =>
    rw [readOutput_not_ready w ch now hb]
    refine ⟨s1, s2, ?_, extra, ?_, ?_, ?_, ?_⟩
    · intro c hc
      exact hqz c (by rw [← f4]; exact hc)
    · show scriptsWritten (readLoop w.d ch).process.written = _
      rw [f3]; exact j0
    · intro hst
      exact j3 (f2 ▸ hst)
    · intro hr
      have hr2 : w.d.cmdRunning ≠ 0 := by rw [← fc]; exact hr
      obtain ⟨a1, a2, _⟩ := j1 hr2
      exact ⟨f2.trans a1, a2, hb⟩
    · intro hst hex _
      show (readLoop w.d ch).cmdRunning ≠ 0
      rw [fc]
      exact j2 (f2 ▸ hst) hex (both_ready_mono w.d ch hb)
  | true =>
    simp only [Bool.and_eq_true] at hb
    have hd := readOutput_ready w ch now hb.1 hb.2
    have hs : (readOutput w ch now).s_nextCmdId = w.s_nextCmdId := by
      simp only [readOutput]
      split <;> rfl
    rw [hd, hs]
    refine SinceLaunch_execNextCmd now ⟨s1, s2, ?_, extra, ?_, ?_, ?_, ?_⟩
    · intro c hc
      exact hqz c (by rw [← f4]; exact hc)
    · show scriptsWritten (readLoop w.d ch).process.written = _
      rw [f3]; exact j0
    · intro hst
      exact j3 (f2 ▸ hst)
    · intro hr
      exact absurd rfl hr
    · intro _ _ hnb
      have : ((readLoop w.d ch).out.outReady && (readLoop w.d ch).err.outReady) = false := hnb
      rw [hb.1, hb.2] at this
      exact absurd this (by decide)

theorem readOutput_launched (w : World) (ch : ProcessChannel) (now : Int) :
    (readOutput w ch now).d.process.launched = w.d.process.launched := by
  have hl : (readLoop w.d ch).process.launched = w.d.process.launched := by
    cases ch <;> rfl
  simp only [readOutput]
  split
  · exact hl
  · rw [execNextCmd_launched]; exact hl

theorem SinceLaunch_step (base : List QByteArray) (e : Execution) (op : Op)
    (h : SinceLaunch base e.world.d e.world.s_nextCmdId) :
    ((step e op).world.d.process.launched.length = e.world.d.process.launched.length ∧
        SinceLaunch base (step e op).world.d (step e op).world.s_nextCmdId) ∨
      ((step e op).world.d.process.launched.length ≠ e.world.d.process.launched.length ∧
        SinceLaunch (scriptsWritten (step e op).world.d.process.written)
          (step e op).world.d (step e op).world.s_nextCmdId) := by
  cases op with
  | setProgram a b =>
    left
    simp only [step, setProgram]
    split
    · exact ⟨rfl, h⟩
    · exact ⟨rfl, SinceLaunch_weaken h rfl rfl rfl rfl rfl (fun c hc => hc)⟩
  | start f g =>
    simp only [step, start]
    split
    · exact Or.inl ⟨rfl, h⟩
    · split
      · exact Or.inl ⟨rfl, SinceLaunch_weaken h rfl rfl rfl rfl rfl (fun c hc => hc)⟩
      · split
        · exact Or.inl ⟨rfl, SinceLaunch_weaken h rfl rfl rfl rfl rfl (fun c hc => hc)⟩
        · right
          refine ⟨by simp, ?_⟩
          obtain ⟨s1, s2, _, _⟩ := h
          refine ⟨s1, s2, ?_, [], ?_, fun _ => rfl, ?_, ?_⟩
          · intro c hc
            exact absurd hc (List.not_mem_nil c)
          · simp
          · intro hr
            exact absurd rfl hr
          · intro hrun
            exact ProcessState.noConfusion hrun
  | terminate =>
    left
    simp only [step, terminate]
    split
    · exact ⟨rfl, SinceLaunch_weaken h rfl (scriptsWritten_terminate _) rfl rfl rfl
        (fun c hc => absurd hc (List.not_mem_nil c))⟩
    · exact ⟨rfl, SinceLaunch_weaken h rfl rfl rfl rfl rfl (fun c hc => hc)⟩
  | kill =>
    exact Or.inl ⟨rfl, SinceLaunch_weaken h rfl rfl rfl rfl rfl (fun c hc => hc)⟩
  | command now args =>
    left
    cases hacc : accepts e.world args with
    | false =>
      simp only [step, hacc, Bool.false_eq_true, if_false,
        command_refused_eq e.world now args hacc]
      exact ⟨trivial, h⟩
    | true =>
      simp only [step, hacc, if_true, command_accepted e.world now args hacc]
      refine ⟨by rw [execNextCmd_launched],
        SinceLaunch_counter (SinceLaunch_execNextCmd now (SinceLaunch_enqueue _ h ?_ ?_))⟩
      · show e.world.s_nextCmdId ≠ 0
        have := h.1
        omega
      · exact buildScript_ne_stayOpenFalse _ _
  | otherInstanceCommand => exact Or.inl ⟨rfl, SinceLaunch_counter h⟩
  | processStarted =>
    left
    simp only [step]
    split
    · rename_i hst
      refine ⟨rfl, ?_⟩
      obtain ⟨s1, s2, hqz, extra, j0, j3, j1, _⟩ := h
      have hex := j3 hst
      refine ⟨s1, s2, hqz, extra, j0, ?_, ?_, ?_⟩
      · intro h2
        exact ProcessState.noConfusion h2
      · intro hr
        have := (j1 hr).1
        rw [hst] at this
        exact ProcessState.noConfusion this
      · intro _ hne
        exact absurd hex hne
    · exact ⟨rfl, h⟩
  | processFailedToStart desc =>
    left
    simp only [step]
    split
    · rename_i hst
      refine ⟨rfl, ?_⟩
      obtain ⟨s1, s2, hqz, extra, j0, _, j1, _⟩ := h
      refine ⟨s1, s2, hqz, extra, j0, ?_, ?_, ?_⟩
      · intro h2
        exact ProcessState.noConfusion h2
      · intro hr
        have := (j1 hr).1
        rw [hst] at this
        exact ProcessState.noConfusion this
      · intro h2
        exact ProcessState.noConfusion h2
    · exact ⟨rfl, h⟩
  | processError err desc =>
    exact Or.inl ⟨rfl, SinceLaunch_weaken h rfl rfl rfl rfl rfl (fun c hc => hc)⟩
  | processFinished code status =>
    left
    simp only [step]
    split
    · obtain ⟨s1, s2, hqz, extra, j0, _, _, _⟩ := h
      have hq2 : ∀ w : World, w.d.cmdQueue = e.world.d.cmdQueue →
          w.d.process.written = e.world.d.process.written → w.s_nextCmdId = e.world.s_nextCmdId →
          SinceLaunch base
            (slotFinished (slotStateChanged
              { w with d := { w.d with process :=
                { w.d.process with state := ProcessState.NotRunning } } }
              ProcessState.NotRunning) code status).d
            (slotFinished (slotStateChanged
              { w with d := { w.d with process :=
                { w.d.process with state := ProcessState.NotRunning } } }
              ProcessState.NotRunning) code status).s_nextCmdId := by
        intro w hq hw hs
        refine ⟨by rw [← hs] at s1; exact s1, by rw [← hs] at s2; exact s2, ?_, extra, ?_, ?_,
          ?_, ?_⟩
        · intro c hc
          exact hqz c (hq ▸ hc)
        · show scriptsWritten w.d.process.written = _
          rw [hw]; exact j0
        · intro h2
          exact ProcessState.noConfusion h2
        · intro hr
          exact absurd rfl hr
        · intro h2
          exact ProcessState.noConfusion h2
      split
      · exact ⟨rfl, hq2 _ rfl rfl rfl⟩
      · exact ⟨rfl, hq2 _ rfl rfl rfl⟩
    · exact ⟨rfl, h⟩
  | childOutput ch lines =>
    left
    simp only [step]
    split
    · refine ⟨by cases ch <;> rfl, SinceLaunch_weaken h ?_ ?_ rfl rfl rfl (fun c hc => hc)⟩
      · cases ch <;> rfl
      · cases ch <;> rfl
    · exact ⟨rfl, h⟩
  | readyRead ch now =>
    left
    simp only [step]
    exact ⟨by rw [readOutput_launched], SinceLaunch_readOutput e.world ch now h⟩

theorem SinceLaunch_run (ops : List Op) :
    ∀ e mark : Execution,
      SinceLaunch (scriptsWritten mark.world.d.process.written) e.world.d e.world.s_nextCmdId →
        SinceLaunch (scriptsWritten (lastLaunch e mark ops).world.d.process.written)
          (run e ops).world.d (run e ops).world.s_nextCmdId := by
  induction ops with
  | nil => intro e mark h; exact h
  | cons op ops ih =>
    intro e mark h
    show SinceLaunch _ (run (step e op) ops).world.d (run (step e op) ops).world.s_nextCmdId
    unfold lastLaunch
    rcases SinceLaunch_step _ e op h with ⟨hl, hs⟩ | ⟨hl, hs⟩
    · rw [if_pos hl]
      exact ih (step e op) mark hs
    · rw [if_neg hl]
      exact ih (step e op) (step e op) hs

theorem SinceLaunch_new :
    SinceLaunch (scriptsWritten Execution.new.world.d.process.written) Execution.new.world.d
      Execution.new.world.s_nextCmdId :=
  ⟨by decide, by decide, fun c hc => absurd hc (List.not_mem_nil c), [], rfl, fun _ => rfl,
    fun h => absurd rfl h, fun h => absurd h (by decide)⟩

/-- C24 (as stated, refuted): a command is dispatched and the child exits before answering. In
the state reached a script has been written since the last start and both ready flags are
false, yet `cmdRunning` is 0. -/
theorem idle_after_exit :
    (run Execution.new
        [Op.setProgram "exiftool" "", Op.start (fun _ => true) (fun _ => true),
          Op.processStarted, Op.command 0 ["-ver".toList],
          Op.processFinished 0 ExitStatus.NormalExit]).world.d.cmdRunning = 0 ∧
      scriptsSinceStart
        [Op.setProgram "exiftool" "", Op.start (fun _ => true) (fun _ => true),
          Op.processStarted, Op.command 0 ["-ver".toList],
          Op.processFinished 0 ExitStatus.NormalExit] = [buildScript 1 ["-ver".toList]] ∧
      (run Execution.new
        [Op.setProgram "exiftool" "", Op.start (fun _ => true) (fun _ => true),
          Op.processStarted, Op.command 0 ["-ver".toList],
          Op.processFinished 0 ExitStatus.NormalExit]).world.d.out.outReady = false ∧
      (run Execution.new
        [Op.setProgram "exiftool" "", Op.start (fun _ => true) (fun _ => true),
          Op.processStarted, Op.command 0 ["-ver".toList],
          Op.processFinished 0 ExitStatus.NormalExit]).world.d.err.outReady = false := by
  decide

/-- C24 (amended): in every reachable state between two operations, a non-zero `cmdRunning`
implies that the child is running, that a script has been written since the last launch and that
at least one of the two ready flags is false; and in every reachable state in which the child is
running (it has not exited since its launch), `cmdRunning` is non-zero if and only if a script
has been written since the last launch and at least one of the two ready flags is false. -/
theorem running_iff_in_flight (ops : List Op) :
    ((run Execution.new ops).world.d.cmdRunning ≠ 0 →
        (run Execution.new ops).world.d.process.state = ProcessState.Running ∧
          scriptsSinceStart ops ≠ [] ∧
          ((run Execution.new ops).world.d.out.outReady = false ∨
            (run Execution.new ops).world.d.err.outReady = false)) ∧
      ((run Execution.new ops).world.d.process.state = ProcessState.Running →
        ((run Execution.new ops).world.d.cmdRunning ≠ 0 ↔
          scriptsSinceStart ops ≠ [] ∧
            ((run Execution.new ops).world.d.out.outReady = false ∨
              (run Execution.new ops).world.d.err.outReady = false))) := by
  obtain ⟨_, _, _, extra, j0, _, j1, j2⟩ :=
    SinceLaunch_run ops Execution.new Execution.new SinceLaunch_new
  have hex : scriptsSinceStart ops = extra := by
    unfold scriptsSinceStart
    rw [j0, List.drop_left]
  have hflags : ∀ a b : Bool, (a && b) = false ↔ (a = false ∨ b = false) := by
    intro a b; cases a <;> cases b <;> simp
  rw [hex]
  constructor
  · intro hr
    obtain ⟨a1, a2, a3⟩ := j1 hr
    exact ⟨a1, a2, (hflags _ _).mp a3⟩
  · intro hst
    constructor
    · intro hr
      obtain ⟨_, a2, a3⟩ := j1 hr
      exact ⟨a2, (hflags _ _).mp a3⟩
    · rintro ⟨a2, a3⟩
      exact j2 hst a2 ((hflags _ _).mpr a3)

theorem running_iff_in_flight_witness :
    (run Execution.new
        [Op.setProgram "exiftool" "", Op.start (fun _ => true) (fun _ => true),
          Op.processStarted, Op.command 0 ["-ver".toList]]).world.d.cmdRunning ≠ 0 ∧
      scriptsSinceStart
        [Op.setProgram "exiftool" "", Op.start (fun _ => true) (fun _ => true),
          Op.processStarted, Op.command 0 ["-ver".toList]] ≠ [] :=
  ⟨by decide,
    ((running_iff_in_flight
      [Op.setProgram "exiftool" "", Op.start (fun _ => true) (fun _ => true),
        Op.processStarted, Op.command 0 ["-ver".toList]]).1 (by decide)).2.1⟩

/-! ## Frames arriving in pieces -/

theorem readLines_nil (c : ChannelState) : readLines c [] = (c, []) := by
  unfold readLines
  rfl

theorem readLines_append (l1 l2 : List QByteArray) :
    ∀ c : ChannelState,
      readLines c (l1 ++ l2) = readLines (readLines c l1).1 ((readLines c l1).2 ++ l2) := by
  induction l1 with
  | nil => intro c; rw [readLines_nil]
  | cons raw rest ih =>
    intro c
    cases hr : c.outReady with
    | true =>
      rw [readLines_ready c hr (raw :: rest), readLines_ready c hr _]
    | false =>
      rw [List.cons_append, readLines, readLines]
      simp only [hr, Bool.false_eq_true, if_false]
      split
      · split
        · exact ih _
        · exact ih _
      · split
        · simp only
          rw [readLines_ready _ rfl]
        · exact ih _

theorem readLines_idem (c : ChannelState) (u : List QByteArray) :
    readLines (readLines c u).1 (readLines c u).2 = readLines c u := by
  have h := readLines_append u [] c
  rw [List.append_nil, List.append_nil] at h
  exact h.symm

theorem readLines_ready_append (c : ChannelState) (u more : List QByteArray)
    (h : (readLines c u).1.outReady = true) :
    (readLines c (u ++ more)).1 = (readLines c u).1 := by
  rw [readLines_append, readLines_ready _ h]

theorem Arriving_childOutput (d : Private) (ch2 : ProcessChannel) (lines : List QByteArray)
    (ch : ProcessChannel) (p : Bool) (ops : List Op) (target : ChannelState)
    (h : Arriving d ch p (Op.childOutput ch2 lines :: ops) target) :
    Arriving { d with process := d.process.setUnread ch2 (d.process.unread ch2 ++ lines) } ch
      (p || decide (ch2 = ch)) ops target := by
  obtain ⟨h1, h2, h3⟩ := h
  cases ch <;> cases ch2
  · refine ⟨?_, fun hp => absurd hp (by simp), by simpa [readAfter] using h3⟩
    show (readLines d.out ((d.process.unreadOut ++ lines) ++ _)).1 = target
    rw [List.append_assoc]
    simpa [delivered] using h1
  · refine ⟨by simpa [delivered] using h1, fun hp => h2 (by simpa using hp),
      by simpa [readAfter] using h3⟩
  · refine ⟨by simpa [delivered] using h1, fun hp => h2 (by simpa using hp),
      by simpa [readAfter] using h3⟩
  · refine ⟨?_, fun hp => absurd hp (by simp), by simpa [readAfter] using h3⟩
    show (readLines d.err ((d.process.unreadErr ++ lines) ++ _)).1 = target
    rw [List.append_assoc]
    simpa [delivered] using h1

theorem Arriving_readLoop (d : Private) (ch2 : ProcessChannel) (t : Int)
    (ch : ProcessChannel) (p : Bool) (ops : List Op) (target : ChannelState)
    (h : Arriving d ch p (Op.readyRead ch2 t :: ops) target) :
    Arriving (readLoop d ch2) ch (p && decide (ch2 ≠ ch)) ops target := by
  obtain ⟨h1, h2, h3⟩ := h
  cases ch <;> cases ch2
  · refine ⟨?_, fun _ => readLines_idem _ _, by simpa [readAfter] using h3⟩
    show (readLines (readLines d.out d.process.unreadOut).1
      ((readLines d.out d.process.unreadOut).2 ++ _)).1 = target
    rw [← readLines_append]
    simpa [delivered] using h1
  · exact ⟨by simpa [delivered] using h1, fun hp => h2 (by simpa using hp),
      by simpa [readAfter] using h3⟩
  · exact ⟨by simpa [delivered] using h1, fun hp => h2 (by simpa using hp),
      by simpa [readAfter] using h3⟩
  · refine ⟨?_, fun _ => readLines_idem _ _, by simpa [readAfter] using h3⟩
    show (readLines (readLines d.err d.process.unreadErr).1
      ((readLines d.err d.process.unreadErr).2 ++ _)).1 = target
    rw [← readLines_append]
    simpa [delivered] using h1

theorem Arriving_ready (d : Private) (ch2 : ProcessChannel) (t : Int) (ch : ProcessChannel)
    (p : Bool) (ops : List Op) (target : ChannelState)
    (h : Arriving d ch p (Op.readyRead ch2 t :: ops) target)
    (hr : ((readLoop d ch2).chan ch).outReady = true) : (readLoop d ch2).chan ch = target := by
  obtain ⟨h1, _, _⟩ := h
  cases ch <;> cases ch2 <;> simp only [delivered] at h1
  · rw [← h1]
    exact (readLines_ready_append d.out d.process.unreadOut _ hr).symm
  · rw [← h1]
    have hr2 : d.out.outReady = true := hr
    show d.out = (readLines d.out _).1
    rw [readLines_ready d.out hr2]
  · rw [← h1]
    have hr2 : d.err.outReady = true := hr
    show d.err = (readLines d.err _).1
    rw [readLines_ready d.err hr2]
  · rw [← h1]
    exact (readLines_ready_append d.err d.process.unreadErr _ hr).symm

theorem step_childOutput_running (e : Execution) (ch : ProcessChannel)
    (lines : List QByteArray) (hs : e.world.d.process.state = ProcessState.Running) :
    step e (Op.childOutput ch lines) =
      { e with
        world :=
          { e.world with
            d := { e.world.d with
              process := e.world.d.process.setUnread ch (e.world.d.process.unread ch ++ lines) } } } := by
  simp only [step, hs, if_true]

theorem io_completion (C : Int) (bo be : QByteArray) (ios : List Op) :
    ∀ (e : Execution) (po pe : Bool),
      e.world.d.cmdRunning = C → e.world.d.process.state = ProcessState.Running →
      (e.world.d.out.outReady && e.world.d.err.outReady) = false →
      Arriving e.world.d ProcessChannel.StandardOutput po ios
        { outAwait := C, outReady := true, outBuff := bo } →
      Arriving e.world.d ProcessChannel.StandardError pe ios
        { outAwait := C, outReady := true, outBuff := be } →
      (∀ op ∈ ios, op.isIo = true) →
      ∃ (pre : List Op) (ch : ProcessChannel) (t : Int) (post : List Op),
        ios = pre ++ Op.readyRead ch t :: post ∧
          (run e pre).world.emitted = e.world.emitted ∧
          (run e pre).world.d.process.written = e.world.d.process.written ∧
          (run e pre).world.d.cmdQueue = e.world.d.cmdQueue ∧
          (run e pre).world.d.cmdRunning = C ∧
          (readLoop (run e pre).world.d ch).out =
            { outAwait := C, outReady := true, outBuff := bo } ∧
          (readLoop (run e pre).world.d ch).err =
            { outAwait := C, outReady := true, outBuff := be } ∧
          (step (run e pre) (Op.readyRead ch t)).world.emitted =
            e.world.emitted ++
              [Signal.CmdCompleted C (toInt32 (t - e.world.d.execTimer)) bo be] := by
  induction ios with
  | nil =>
    intro e po pe _ _ hnb ho he _
    obtain ⟨o1, o2, o3⟩ := ho
    obtain ⟨e1, e2, e3⟩ := he
    have hpo : po = false := by simpa [readAfter] using o3
    have hpe : pe = false := by simpa [readAfter] using e3
    have ho2 := o2 hpo
    have he2 := e2 hpe
    simp only [delivered, List.append_nil] at o1 e1
    rw [ho2] at o1
    rw [he2] at e1
    have a1 : e.world.d.out.outReady = true := by
      have : e.world.d.out = _ := o1
      rw [this]
    have a2 : e.world.d.err.outReady = true := by
      have : e.world.d.err = _ := e1
      rw [this]
    rw [a1, a2] at hnb
    exact absurd hnb (by decide)
  | cons op ios ih =>
    intro e po pe hC hs hnb ho he hio
    have hio2 : ∀ o ∈ ios, o.isIo = true := fun o ho => hio o (List.mem_cons_of_mem _ ho)
    cases op with
    | childOutput ch lines =>
      have hstep := step_childOutput_running e ch lines hs
      obtain ⟨pre, c2, t, post, r1, r2, r3, r4, r5, r6, r7, r8⟩ :=
        ih (step e (Op.childOutput ch lines)) _ _ (by rw [hstep]; exact hC)
          (by rw [hstep]; cases ch <;> exact hs)
          (by rw [hstep]; cases ch <;> exact hnb)
          (by rw [hstep]; exact Arriving_childOutput e.world.d ch lines _ po ios _ ho)
          (by rw [hstep]; exact Arriving_childOutput e.world.d ch lines _ pe ios _ he) hio2
      refine ⟨Op.childOutput ch lines :: pre, c2, t, post, by rw [r1]; rfl, ?_, ?_, ?_, r5, r6,
        r7, ?_⟩
      · show (run (step e (Op.childOutput ch lines)) pre).world.emitted = _
        rw [r2, hstep]
      · show (run (step e (Op.childOutput ch lines)) pre).world.d.process.written = _
        rw [r3, hstep]; cases ch <;> rfl
      · show (run (step e (Op.childOutput ch lines)) pre).world.d.cmdQueue = _
        rw [r4, hstep]
      · show (step (run (step e (Op.childOutput ch lines)) pre) _).world.emitted = _
        rw [r8, hstep]
    | readyRead ch t =>
      cases hb : ((readLoop e.world.d ch).out.outReady && (readLoop e.world.d ch).err.outReady) with
      | true =>
        simp only [Bool.and_eq_true] at hb
        have t1 := Arriving_ready e.world.d ch t ProcessChannel.StandardOutput po ios _ ho hb.1
        have t2 := Arriving_ready e.world.d ch t ProcessChannel.StandardError pe ios _ he hb.2
        have t1b : (readLoop e.world.d ch).out =
            { outAwait := C, outReady := true, outBuff := bo } := t1
        have t2b : (readLoop e.world.d ch).err =
            { outAwait := C, outReady := true, outBuff := be } := t2
        refine ⟨[], ch, t, ios, rfl, rfl, rfl, rfl, hC, t1b, t2b, ?_⟩
        have hem := readOutput_emits e.world ch t hb.1 hb.2 (by rw [t1b]; exact hC.symm)
          (by rw [t2b]; exact hC.symm)
        show (readOutput e.world ch t).emitted = _
        rw [hem, t1b, t2b, hC]
      | false =>
        have hro := readOutput_not_ready e.world ch t hb
        have hstep : step e (Op.readyRead ch t) =
            { e with world := { e.world with d := readLoop e.world.d ch } } := by
          simp only [step, hro]
        obtain ⟨fc, ft⟩ := readLoop_cmdRunning e.world.d ch
        obtain ⟨_, f2, f3, f4⟩ := readLoop_flags e.world.d ch
        obtain ⟨pre, c2, t', post, r1, r2, r3, r4, r5, r6, r7, r8⟩ :=
          ih (step e (Op.readyRead ch t)) _ _ (by rw [hstep]; exact fc.trans hC)
            (by rw [hstep]; exact f2.trans hs) (by rw [hstep]; exact hb)
            (by rw [hstep]; exact Arriving_readLoop e.world.d ch t _ po ios _ ho)
            (by rw [hstep]; exact Arriving_readLoop e.world.d ch t _ pe ios _ he) hio2
        refine ⟨Op.readyRead ch t :: pre, c2, t', post, by rw [r1]; rfl, ?_, ?_, ?_, r5, r6, r7,
          ?_⟩
        · show (run (step e (Op.readyRead ch t)) pre).world.emitted = _
          rw [r2, hstep]
        · show (run (step e (Op.readyRead ch t)) pre).world.d.process.written = _
          rw [r3, hstep]; exact f3
        · show (run (step e (Op.readyRead ch t)) pre).world.d.cmdQueue = _
          rw [r4, hstep]; exact f4
        · show (step (run (step e (Op.readyRead ch t)) pre) _).world.emitted = _
          rw [r8, hstep]
          show _ ++ [Signal.CmdCompleted C (toInt32 (t' - (readLoop e.world.d ch).execTimer)) bo be] = _
          rw [ft]
    | setProgram a b => exact absurd (hio _ (List.mem_cons_self _ _)) (by simp [Op.isIo])
    | start f g => exact absurd (hio _ (List.mem_cons_self _ _)) (by simp [Op.isIo])
    | terminate => exact absurd (hio _ (List.mem_cons_self _ _)) (by decide)
    | kill => exact absurd (hio _ (List.mem_cons_self _ _)) (by decide)
    | command now args => exact absurd (hio _ (List.mem_cons_self _ _)) (by simp [Op.isIo])
    | otherInstanceCommand => exact absurd (hio _ (List.mem_cons_self _ _)) (by decide)
    | processStarted => exact absurd (hio _ (List.mem_cons_self _ _)) (by decide)
    | processFailedToStart desc =>
      exact absurd (hio _ (List.mem_cons_self _ _)) (by simp [Op.isIo])
    | processError err desc => exact absurd (hio _ (List.mem_cons_self _ _)) (by simp [Op.isIo])
    | processFinished code status =>
      exact absurd (hio _ (List.mem_cons_self _ _)) (by simp [Op.isIo])

theorem io_idle (ios : List Op) :
    ∀ e : Execution, e.world.d.cmdRunning = 0 → e.world.d.cmdQueue = [] →
      e.world.d.out.outReady = true → e.world.d.err.outReady = true →
      e.world.d.out.outAwait ≠ 0 → (∀ op ∈ ios, op.isIo = true) →
        (run e ios).world.emitted = e.world.emitted := by
  induction ios with
  | nil => intro e _ _ _ _ _ _; rfl
  | cons op ios ih =>
    intro e hr hq ho he hne hio
    have hio2 : ∀ o ∈ ios, o.isIo = true := fun o ho => hio o (List.mem_cons_of_mem _ ho)
    cases op with
    | childOutput ch lines =>
      show (run (step e (Op.childOutput ch lines)) ios).world.emitted = _
      have hstep : (step e (Op.childOutput ch lines)).world.d.cmdRunning = 0 ∧
          (step e (Op.childOutput ch lines)).world.d.cmdQueue = [] ∧
          (step e (Op.childOutput ch lines)).world.d.out = e.world.d.out ∧
          (step e (Op.childOutput ch lines)).world.d.err = e.world.d.err ∧
          (step e (Op.childOutput ch lines)).world.emitted = e.world.emitted := by
        simp only [step]
        split
        · cases ch <;> exact ⟨hr, hq, rfl, rfl, rfl⟩
        · exact ⟨hr, hq, rfl, rfl, rfl⟩
      obtain ⟨s1, s2, s3, s4, s5⟩ := hstep
      rw [ih _ s1 s2 (by rw [s3]; exact ho) (by rw [s4]; exact he) (by rw [s3]; exact hne) hio2,
        s5]
    | readyRead ch t =>
      show (run (step e (Op.readyRead ch t)) ios).world.emitted = _
      have hl : readLoop e.world.d ch = e.world.d := by
        cases ch
        · simp only [readLoop, Private.chan, QProcess.unread, readLines_ready _ ho,
            Private.setChan, QProcess.setUnread]
        · simp only [readLoop, Private.chan, QProcess.unread, readLines_ready _ he,
            Private.setChan, QProcess.setUnread]
      have hro : readOutput e.world ch t = e.world := by
        have hne2 : e.world.d.cmdRunning ≠ e.world.d.out.outAwait := by
          rw [hr]; exact fun h => hne h.symm
        have hidle : execNextCmd e.world.d t = e.world.d :=
          execNextCmd_idle _ t (Or.inr (Or.inr hq))
        have hsame : ({ e.world.d with cmdRunning := 0 } : Private) = e.world.d := by
          rw [← hr]
        simp only [readOutput, hl, ho, he, Bool.and_self, Bool.not_true, Bool.false_eq_true,
          if_false, if_pos (Or.inl hne2), hsame, hidle]
      have hstep : step e (Op.readyRead ch t) = e := by
        simp only [step, hro]
      rw [hstep]
      exact ih e hr hq ho he hne hio2
    | setProgram a b => exact absurd (hio _ (List.mem_cons_self _ _)) (by simp [Op.isIo])
    | start f g => exact absurd (hio _ (List.mem_cons_self _ _)) (by simp [Op.isIo])
    | terminate => exact absurd (hio _ (List.mem_cons_self _ _)) (by decide)
    | kill => exact absurd (hio _ (List.mem_cons_self _ _)) (by decide)
    | command now args => exact absurd (hio _ (List.mem_cons_self _ _)) (by simp [Op.isIo])
    | otherInstanceCommand => exact absurd (hio _ (List.mem_cons_self _ _)) (by decide)
    | processStarted => exact absurd (hio _ (List.mem_cons_self _ _)) (by decide)
    | processFailedToStart desc =>
      exact absurd (hio _ (List.mem_cons_self _ _)) (by simp [Op.isIo])
    | processError err desc => exact absurd (hio _ (List.mem_cons_self _ _)) (by simp [Op.isIo])
    | processFinished code status =>
      exact absurd (hio _ (List.mem_cons_self _ _)) (by simp [Op.isIo])

theorem frames_arrive (w : World) (acc : List Command) (n : Nat) (C : Int) (ios : List Op)
    (buffOut buffErr : QByteArray) (hC : C ≠ 0) (hrun : w.d.cmdRunning = C)
    (hs : w.d.process.state = ProcessState.Running)
    (hout : w.d.out = { outAwait := 0, outReady := false, outBuff := [] })
    (herr : w.d.err = { outAwait := 0, outReady := false, outBuff := [] })
    (hio : ∀ io ∈ ios, io.isIo = true)
    (hfo : Frame (w.d.process.unreadOut ++ delivered ProcessChannel.StandardOutput ios) C buffOut)
    (hfe : Frame (w.d.process.unreadErr ++ delivered ProcessChannel.StandardError ios) C buffErr)
    (hro : readAfter ProcessChannel.StandardOutput true ios = true)
    (hre : readAfter ProcessChannel.StandardError true ios = true) :
    ∃ (pre : List Op) (ch : ProcessChannel) (t : Int) (post : List Op),
      ios = pre ++ Op.readyRead ch t :: post ∧
        (run { world := w, accepted := acc, allocated := n } pre).world.emitted = w.emitted ∧
        (run { world := w, accepted := acc, allocated := n } pre).world.d.process.written =
          w.d.process.written ∧
        (step (run { world := w, accepted := acc, allocated := n } pre)
            (Op.readyRead ch t)).world.emitted =
          w.emitted ++ [Signal.CmdCompleted C (toInt32 (t - w.d.execTimer)) buffOut buffErr] ∧
        (w.d.cmdQueue = [] →
          (run { world := w, accepted := acc, allocated := n } ios).world.emitted =
            w.emitted ++ [Signal.CmdCompleted C (toInt32 (t - w.d.execTimer)) buffOut buffErr]) := by
  have ao : Arriving w.d ProcessChannel.StandardOutput true ios
      { outAwait := C, outReady := true, outBuff := buffOut } := by
    refine ⟨?_, fun h => absurd h (by decide), hro⟩
    show (readLines w.d.out _).1 = _
    rw [hout]
    exact Frame_readLines _ C buffOut hC hfo
  have ae : Arriving w.d ProcessChannel.StandardError true ios
      { outAwait := C, outReady := true, outBuff := buffErr } := by
    refine ⟨?_, fun h => absurd h (by decide), hre⟩
    show (readLines w.d.err _).1 = _
    rw [herr]
    exact Frame_readLines _ C buffErr hC hfe
  obtain ⟨pre, ch, t, post, r1, r2, r3, r4, r5, r6, r7, r8⟩ :=
    io_completion C buffOut buffErr ios { world := w, accepted := acc, allocated := n } true true
      hrun hs (by show (w.d.out.outReady && w.d.err.outReady) = false; rw [hout]; rfl) ao ae hio
  refine ⟨pre, ch, t, post, r1, r2, r3, r8, ?_⟩
  intro hq
  have hsplit : run { world := w, accepted := acc, allocated := n } ios =
      run (step (run { world := w, accepted := acc, allocated := n } pre) (Op.readyRead ch t))
        post := by
    rw [r1, run_append]; rfl
  have hpost : ∀ o ∈ post, o.isIo = true := by
    intro o ho
    exact hio o (by rw [r1]; simp [ho])
  obtain ⟨_, _, _, f4⟩ := readLoop_flags
    (run { world := w, accepted := acc, allocated := n } pre).world.d ch
  have hd : (step (run { world := w, accepted := acc, allocated := n } pre)
      (Op.readyRead ch t)).world.d =
      { readLoop (run { world := w, accepted := acc, allocated := n } pre).world.d ch with
        cmdRunning := 0 } := by
    show (readOutput _ ch t).d = _
    rw [readOutput_ready _ ch t (by rw [r6]) (by rw [r7])]
    exact execNextCmd_idle _ t (Or.inr (Or.inr (f4.trans (r4.trans hq))))
  rw [hsplit, io_idle post _ (by rw [hd]) (by rw [hd]; exact f4.trans (r4.trans hq))
    (by rw [hd]; show (readLoop _ ch).out.outReady = true; rw [r6])
    (by rw [hd]; show (readLoop _ ch).err.outReady = true; rw [r7])
    (by rw [hd]; show (readLoop _ ch).out.outAwait ≠ 0; rw [r6]; exact hC) hpost]
  exact r8

/-- C11: a completion signal is emitted exactly once per in-flight command. From any reachable
state, as long as no script is dispatched (during `ops`) and including the operation `op` that
may perform the next dispatch, at most one command-completed signal is emitted, whatever lines
arrive and whatever else happens, and it carries the id that was running at the start, which is
not 0 (right after a dispatch this is the id of the dispatched command). Exactly one is emitted
when each channel delivers a frame for `C` (an await marker of `C` followed by a ready marker):
the lines may arrive in any number of pieces, interleaved in any way with the deliveries of
`readyRead` on the two channels, as long as every arrival is followed by a `readyRead` of its
channel. Starting right after the dispatch of `C` (empty slots), nothing is emitted and nothing
is written until one `readyRead` finds both channels ready; that call emits the signal for `C`
with the two payloads and the elapsed time converted to `int`, and when the queue is empty no
further signal follows. -/
theorem completion_once (ops0 ops : List Op) (op : Op)
    (hnd : scriptsWritten (run (run Execution.new ops0) ops).world.d.process.written =
      scriptsWritten (run Execution.new ops0).world.d.process.written) :
    (∃ newIds : List Int,
        completedIds (step (run (run Execution.new ops0) ops) op).world.emitted =
          completedIds (run Execution.new ops0).world.emitted ++ newIds ∧
        newIds.length ≤ 1 ∧
        ∀ id ∈ newIds, id = (run Execution.new ops0).world.d.cmdRunning ∧ id ≠ 0) ∧
      ∀ (w : World) (acc : List Command) (n : Nat) (C : Int) (ios : List Op)
        (buffOut buffErr : QByteArray),
        C ≠ 0 → w.d.cmdRunning = C → w.d.process.state = ProcessState.Running →
        w.d.out = { outAwait := 0, outReady := false, outBuff := [] } →
        w.d.err = { outAwait := 0, outReady := false, outBuff := [] } →
        (∀ io ∈ ios, io.isIo = true) →
        Frame (w.d.process.unreadOut ++ delivered ProcessChannel.StandardOutput ios) C buffOut →
        Frame (w.d.process.unreadErr ++ delivered ProcessChannel.StandardError ios) C buffErr →
        readAfter ProcessChannel.StandardOutput true ios = true →
        readAfter ProcessChannel.StandardError true ios = true →
        ∃ (pre : List Op) (ch : ProcessChannel) (t : Int) (post : List Op),
          ios = pre ++ Op.readyRead ch t :: post ∧
            (run { world := w, accepted := acc, allocated := n } pre).world.emitted =
              w.emitted ∧
            (run { world := w, accepted := acc, allocated := n } pre).world.d.process.written =
              w.d.process.written ∧
            (step (run { world := w, accepted := acc, allocated := n } pre)
                (Op.readyRead ch t)).world.emitted =
              w.emitted ++
                [Signal.CmdCompleted C (toInt32 (t - w.d.execTimer)) buffOut buffErr] ∧
            (w.d.cmdQueue = [] →
              (run { world := w, accepted := acc, allocated := n } ios).world.emitted =
                w.emitted ++
                  [Signal.CmdCompleted C (toInt32 (t - w.d.execTimer)) buffOut buffErr]) := by
  refine ⟨?_, fun w acc n C ios buffOut buffErr hC hrun hs hout herr hio hfo hfe hro hre =>
    frames_arrive w acc n C ios buffOut buffErr hC hrun hs hout herr hio hfo hfe hro hre⟩
  obtain ⟨h1, h2, disp, later, newIds, _, _, h5, _, h7, h8, h9⟩ :=
    InOrderFrom_reachable ops0 ops
  have hd : disp = [] := by
    rw [hnd] at h5
    have : disp.map Command.argsStr = [] := by
      have h := congrArg List.length h5
      simp only [Execution.baseline, List.length_append, List.length_map] at h
      have hl : disp.length = 0 := by omega
      rw [List.length_eq_zero.mp hl]
      rfl
    exact List.map_eq_nil_iff.mp this
  rw [hd] at h8 h9
  simp only [List.map_nil, List.append_nil] at h8
  have hfl : ∀ l : List Int, l.Sublist (run Execution.new ops0).baseline.inFlight →
      l.length ≤ 1 ∧ ∀ id ∈ l, id = (run Execution.new ops0).world.d.cmdRunning ∧ id ≠ 0 := by
    intro l hl
    unfold Baseline.inFlight at hl
    split at hl
    · rename_i hr
      refine ⟨by simpa using hl.length_le, fun id hid => ?_⟩
      have := hl.subset hid
      rw [List.mem_singleton] at this
      exact ⟨this, this ▸ hr⟩
    · rw [List.sublist_nil.mp hl]
      exact ⟨by simp, fun id hid => absurd hid (List.not_mem_nil id)⟩
  rcases step_completion (run (run Execution.new ops0) ops) op h1 with hs | ⟨hne, hs⟩
  · exact ⟨newIds, by rw [hs, h7]; rfl, (hfl newIds h8).1, (hfl newIds h8).2⟩
  · rcases h9 hne with ⟨_, hrun, hnew⟩ | ⟨init, last, hcontra, _, _⟩
    · refine ⟨[(run Execution.new ops0).world.d.cmdRunning], ?_, by simp, ?_⟩
      · rw [hs, h7, hnew, hrun]
        simp [Execution.baseline]
      · intro id hid
        rw [List.mem_singleton] at hid
        rw [hid]
        refine ⟨rfl, ?_⟩
        have : (run (run Execution.new ops0) ops).world.d.cmdRunning =
            (run Execution.new ops0).world.d.cmdRunning := hrun
        rw [← this]; exact hne
    · exact absurd hcontra (by simp)

theorem completion_once_witness :
    scriptsWritten (run (run Execution.new
          [Op.setProgram "exiftool" "", Op.start (fun _ => true) (fun _ => true),
            Op.processStarted, Op.command 0 ["-ver".toList]])
          [Op.childOutput ProcessChannel.StandardOutput
              ["\x7bawait0000000001\x7d\n".toList, "12.60\n".toList, "\x7bready\x7d\n".toList],
            Op.childOutput ProcessChannel.StandardError
              ["\x7bawait0000000001\x7d\n".toList, "\x7bready\x7d\n".toList],
            Op.readyRead ProcessChannel.StandardOutput 2]).world.d.process.written =
        scriptsWritten (run Execution.new
          [Op.setProgram "exiftool" "", Op.start (fun _ => true) (fun _ => true),
            Op.processStarted, Op.command 0 ["-ver".toList]]).world.d.process.written ∧
      (∃ newIds : List Int,
        completedIds (step (run (run Execution.new
            [Op.setProgram "exiftool" "", Op.start (fun _ => true) (fun _ => true),
              Op.processStarted, Op.command 0 ["-ver".toList]])
            [Op.childOutput ProcessChannel.StandardOutput
                ["\x7bawait0000000001\x7d\n".toList, "12.60\n".toList,
                  "\x7bready\x7d\n".toList],
              Op.childOutput ProcessChannel.StandardError
                ["\x7bawait0000000001\x7d\n".toList, "\x7bready\x7d\n".toList],
              Op.readyRead ProcessChannel.StandardOutput 2])
            (Op.readyRead ProcessChannel.StandardError 3)).world.emitted =
          completedIds (run Execution.new
            [Op.setProgram "exiftool" "", Op.start (fun _ => true) (fun _ => true),
              Op.processStarted, Op.command 0 ["-ver".toList]]).world.emitted ++ newIds ∧
        newIds.length ≤ 1 ∧
        ∀ id ∈ newIds, id = (run Execution.new
            [Op.setProgram "exiftool" "", Op.start (fun _ => true) (fun _ => true),
              Op.processStarted, Op.command 0 ["-ver".toList]]).world.d.cmdRunning ∧ id ≠ 0) ∧
      (run { world := World.busy, accepted := [], allocated := 1 }
          [Op.childOutput ProcessChannel.StandardOutput ["\x7bawait0000000001\x7d\n".toList],
            Op.readyRead ProcessChannel.StandardOutput 2,
            Op.childOutput ProcessChannel.StandardError
              ["\x7bawait0000000001\x7d\n".toList, "\x7bready\x7d\n".toList],
            Op.childOutput ProcessChannel.StandardOutput ["12.60\n".toList],
            Op.readyRead ProcessChannel.StandardError 3,
            Op.readyRead ProcessChannel.StandardOutput 4,
            Op.childOutput ProcessChannel.StandardOutput ["\x7bready\x7d\n".toList],
            Op.readyRead ProcessChannel.StandardOutput 9,
            Op.readyRead ProcessChannel.StandardError 10]).world.emitted =
        World.busy.emitted ++ [Signal.CmdCompleted 1 9 "12.60\n".toList []] ∧
      ∃ (pre : List Op) (ch : ProcessChannel) (t : Int) (post : List Op),
        [Op.childOutput ProcessChannel.StandardOutput ["\x7bawait0000000001\x7d\n".toList],
            Op.readyRead ProcessChannel.StandardOutput 2,
            Op.childOutput ProcessChannel.StandardError
              ["\x7bawait0000000001\x7d\n".toList, "\x7bready\x7d\n".toList],
            Op.childOutput ProcessChannel.StandardOutput ["12.60\n".toList],
            Op.readyRead ProcessChannel.StandardError 3,
            Op.readyRead ProcessChannel.StandardOutput 4,
            Op.childOutput ProcessChannel.StandardOutput ["\x7bready\x7d\n".toList],
            Op.readyRead ProcessChannel.StandardOutput 9,
            Op.readyRead ProcessChannel.StandardError 10] = pre ++ Op.readyRead ch t :: post ∧
          (run { world := World.busy, accepted := [], allocated := 1 } pre).world.emitted =
            World.busy.emitted ∧
          (run { world := World.busy, accepted := [], allocated := 1 }
              pre).world.d.process.written = World.busy.d.process.written ∧
          (step (run { world := World.busy, accepted := [], allocated := 1 } pre)
              (Op.readyRead ch t)).world.emitted =
            World.busy.emitted ++
              [Signal.CmdCompleted 1 (toInt32 (t - World.busy.d.execTimer)) "12.60\n".toList []] ∧
          (World.busy.d.cmdQueue = [] →
            (run { world := World.busy, accepted := [], allocated := 1 }
                [Op.childOutput ProcessChannel.StandardOutput
                    ["\x7bawait0000000001\x7d\n".toList],
                  Op.readyRead ProcessChannel.StandardOutput 2,
                  Op.childOutput ProcessChannel.StandardError
                    ["\x7bawait0000000001\x7d\n".toList, "\x7bready\x7d\n".toList],
                  Op.childOutput ProcessChannel.StandardOutput ["12.60\n".toList],
                  Op.readyRead ProcessChannel.StandardError 3,
                  Op.readyRead ProcessChannel.StandardOutput 4,
                  Op.childOutput ProcessChannel.StandardOutput ["\x7bready\x7d\n".toList],
                  Op.readyRead ProcessChannel.StandardOutput 9,
                  Op.readyRead ProcessChannel.StandardError 10]).world.emitted =
              World.busy.emitted ++
                [Signal.CmdCompleted 1 (toInt32 (t - World.busy.d.execTimer))
                  "12.60\n".toList []]) :=
  ⟨by decide,
    (completion_once
      [Op.setProgram "exiftool" "", Op.start (fun _ => true) (fun _ => true),
        Op.processStarted, Op.command 0 ["-ver".toList]]
      [Op.childOutput ProcessChannel.StandardOutput
          ["\x7bawait0000000001\x7d\n".toList, "12.60\n".toList, "\x7bready\x7d\n".toList],
        Op.childOutput ProcessChannel.StandardError
          ["\x7bawait0000000001\x7d\n".toList, "\x7bready\x7d\n".toList],
        Op.readyRead ProcessChannel.StandardOutput 2]
      (Op.readyRead ProcessChannel.StandardError 3) (by decide)).1,
    by decide,
    (completion_once [] [] Op.kill rfl).2 World.busy [] 1 1
      [Op.childOutput ProcessChannel.StandardOutput ["\x7bawait0000000001\x7d\n".toList],
        Op.readyRead ProcessChannel.StandardOutput 2,
        Op.childOutput ProcessChannel.StandardError
          ["\x7bawait0000000001\x7d\n".toList, "\x7bready\x7d\n".toList],
        Op.childOutput ProcessChannel.StandardOutput ["12.60\n".toList],
        Op.readyRead ProcessChannel.StandardError 3,
        Op.readyRead ProcessChannel.StandardOutput 4,
        Op.childOutput ProcessChannel.StandardOutput ["\x7bready\x7d\n".toList],
        Op.readyRead ProcessChannel.StandardOutput 9,
        Op.readyRead ProcessChannel.StandardError 10]
      "12.60\n".toList [] (by decide) (by decide) (by decide) (by decide) (by decide)
      (by decide)
      ⟨[], ["12.60\n".toList], [], "\x7bawait0000000001\x7d\n".toList,
        "\x7bready\x7d\n".toList, "0000000001".toList, [], by decide, by decide, by decide,
        by decide, by decide, by decide, by decide⟩
      ⟨[], [], [], "\x7bawait0000000001\x7d\n".toList, "\x7bready\x7d\n".toList,
        "0000000001".toList, [], by decide, by decide, by decide, by decide, by decide,
        by decide, by decide⟩
      (by decide) (by decide)⟩

/-! ## Pending ids within one round of the counter -/

theorem idAt_range (n : Nat) : 1 ≤ idAt n ∧ idAt n ≤ 2000000000 := by
  unfold idAt
  constructor <;> omega

theorem idAt_ne_zero (n : Nat) : idAt n ≠ 0 := by
  have := (idAt_range n).1
  omega

theorem nextCmdId_idAt (n : Nat) : nextCmdId (idAt n) = idAt (n + 1) := by
  unfold nextCmdId idAt CMD_ID_MAX CMD_ID_MIN
  split <;> omega

theorem idAt_eq_iff (i n : Nat) (h : i < n) :
    idAt n = idAt i ↔ (n - i) % 2000000000 = 0 := by
  unfold idAt
  constructor <;> intro h2 <;> omega

theorem idAt_ne_of_window (i n : Nat) (h : i < n) (hw : n - i < 2000000000) :
    idAt n ≠ idAt i := by
  intro h2
  have := (idAt_eq_iff i n h).mp h2
  omega

theorem pendingIds_execNextCmd_eq (d : Private) (now : Int)
    (h : ∀ c ∈ d.cmdQueue, c.id ≠ 0) : pendingIds (execNextCmd d now) = pendingIds d := by
  rcases execNextCmd_cases d now with he | ⟨c, q, _, _, hr, hq, he⟩
  · rw [he]
  · rw [he]
    have hc : c.id ≠ 0 := h c (by rw [hq]; exact List.mem_cons_self _ _)
    simp [pendingIds, hr, hq, hc]

theorem pendingIds_split (d : Private) :
    pendingIds { d with cmdRunning := 0 } =
        (pendingIds d).drop (if d.cmdRunning ≠ 0 then 1 else 0) ∧
      pendingIds { d with cmdQueue := [] } =
        (pendingIds d).take (if d.cmdRunning ≠ 0 then 1 else 0) := by
  by_cases hr : d.cmdRunning = 0
  · simp [pendingIds, hr]
  · simp [pendingIds, hr]

theorem Indexed_same {e e2 : Execution} {since : List Nat} (h : Indexed e since)
    (hs : e2.world.s_nextCmdId = e.world.s_nextCmdId) (ha : e2.allocated = e.allocated)
    (hp : pendingIds e2.world.d = pendingIds e.world.d) : Indexed e2 since := by
  obtain ⟨h1, h2, h3, h4⟩ := h
  exact ⟨by rw [hs, ha, h1], by rw [hp, h2], h3, by rw [ha]; exact h4⟩

theorem Indexed_drop {e e2 : Execution} {since : List Nat} (k : Nat) (h : Indexed e since)
    (hs : e2.world.s_nextCmdId = e.world.s_nextCmdId) (ha : e2.allocated = e.allocated)
    (hp : pendingIds e2.world.d = (pendingIds e.world.d).drop k) :
    Indexed e2 (since.drop k) := by
  obtain ⟨h1, h2, h3, h4⟩ := h
  refine ⟨by rw [hs, ha, h1], by rw [hp, h2, List.map_drop], h3.sublist (List.drop_sublist _ _),
    ?_⟩
  intro i hi
  rw [ha]
  exact h4 i (List.mem_of_mem_drop hi)

theorem Indexed_take {e e2 : Execution} {since : List Nat} (k : Nat) (h : Indexed e since)
    (hs : e2.world.s_nextCmdId = e.world.s_nextCmdId) (ha : e2.allocated = e.allocated)
    (hp : pendingIds e2.world.d = (pendingIds e.world.d).take k) :
    Indexed e2 (since.take k) := by
  obtain ⟨h1, h2, h3, h4⟩ := h
  refine ⟨by rw [hs, ha, h1], by rw [hp, h2, List.map_take], h3.sublist (List.take_sublist _ _),
    ?_⟩
  intro i hi
  rw [ha]
  exact h4 i (List.mem_of_mem_take hi)

theorem Indexed_queue_ne_zero {e : Execution} {since : List Nat} (h : Indexed e since) :
    ∀ c ∈ e.world.d.cmdQueue, c.id ≠ 0 := by
  intro c hc
  have hm : c.id ∈ pendingIds e.world.d := by
    simp only [pendingIds, List.mem_append, List.mem_map]
    exact Or.inr ⟨c, hc, rfl⟩
  rw [h.2.1, List.mem_map] at hm
  obtain ⟨i, _, hi⟩ := hm
  rw [← hi]
  exact idAt_ne_zero i

theorem start_launch_cases (w : World) (f g : String → Bool) :
    ((start w f g).d.process.launched = w.d.process.launched ∧
        pendingIds (start w f g).d = pendingIds w.d ∧
        (start w f g).s_nextCmdId = w.s_nextCmdId) ∨
      ((start w f g).d.process.launched.length ≠ w.d.process.launched.length ∧
        pendingIds (start w f g).d = [] ∧ (start w f g).s_nextCmdId = w.s_nextCmdId) := by
  unfold start
  split
  · exact Or.inl ⟨rfl, rfl, rfl⟩
  · split
    · exact Or.inl ⟨rfl, rfl, rfl⟩
    · split
      · exact Or.inl ⟨rfl, rfl, rfl⟩
      · exact Or.inr ⟨by simp, by simp [pendingIds], rfl⟩

theorem Indexed_step (e : Execution) (since : List Nat) (op : Op) (h : Indexed e since) :
    Indexed (step e op) (stepSince e since op) := by
  cases op with
  | setProgram a b =>
    refine Indexed_same h ?_ rfl ?_
    · simp only [step, setProgram]; split <;> rfl
    · simp only [step, setProgram]; split <;> rfl
  | start f g =>
    show Indexed { e with world := start e.world f g }
      (if (start e.world f g).d.process.launched.length = e.world.d.process.launched.length
        then since else [])
    rcases start_launch_cases e.world f g with ⟨hl, hp, hs⟩ | ⟨hl, hp, hs⟩
    · rw [if_pos (by rw [hl])]
      exact Indexed_same h hs rfl hp
    · rw [if_neg hl]
      exact ⟨hs.trans h.1, by rw [hp]; rfl, List.Pairwise.nil,
        fun i hi => absurd hi (List.not_mem_nil i)⟩
  | terminate =>
    simp only [stepSince, step, terminate]
    split
    · refine Indexed_take _ h rfl rfl ?_
      exact (pendingIds_split e.world.d).2
    · exact Indexed_same h rfl rfl rfl
  | kill => exact Indexed_same h rfl rfl rfl
  | command now args =>
    cases hacc : accepts e.world args with
    | false =>
      simp only [stepSince, step, hacc, Bool.false_eq_true, if_false,
        command_refused_eq e.world now args hacc]
      exact h
    | true =>
      simp only [stepSince, step, hacc, if_true, command_accepted e.world now args hacc]
      obtain ⟨h1, h2, h3, h4⟩ := h
      have hq := Indexed_queue_ne_zero ⟨h1, h2, h3, h4⟩
      refine ⟨?_, ?_, ?_, ?_⟩
      · show nextCmdId e.world.s_nextCmdId = idAt (e.allocated + 1)
        rw [h1, nextCmdId_idAt]
      · show pendingIds (execNextCmd _ now) = _
        rw [pendingIds_execNextCmd_eq]
        · simp only [pendingIds, List.map_append, List.map_cons, List.map_nil] at h2 ⊢
          rw [← List.append_assoc, h2, h1]
        · intro c hc
          have hc2 : c ∈ e.world.d.cmdQueue ++
              [{ id := e.world.s_nextCmdId, argsStr := buildScript e.world.s_nextCmdId args }] := hc
          rw [List.mem_append, List.mem_singleton] at hc2
          rcases hc2 with hc2 | hc2
          · exact hq c hc2
          · rw [hc2]
            show e.world.s_nextCmdId ≠ 0
            rw [h1]; exact idAt_ne_zero _
      · rw [List.pairwise_append]
        exact ⟨h3, List.pairwise_singleton _ _, fun a ha b hb => by
          rw [List.mem_singleton.mp hb]; exact h4 a ha⟩
      · intro i hi
        rw [List.mem_append, List.mem_singleton] at hi
        show i < e.allocated + 1
        rcases hi with hi | hi
        · have := h4 i hi; omega
        · omega
  | otherInstanceCommand =>
    obtain ⟨h1, h2, h3, h4⟩ := h
    refine ⟨?_, h2, h3, ?_⟩
    · show nextCmdId e.world.s_nextCmdId = idAt (e.allocated + 1)
      rw [h1, nextCmdId_idAt]
    · intro i hi
      show i < e.allocated + 1
      have := h4 i hi
      omega
  | processStarted =>
    refine Indexed_same h ?_ ?_ ?_ <;> simp only [step] <;> split <;> rfl
  | processFailedToStart desc =>
    refine Indexed_same h ?_ ?_ ?_ <;> simp only [step] <;> split <;> rfl
  | processError err desc => exact Indexed_same h rfl rfl rfl
  | processFinished code status =>
    simp only [stepSince, step]
    split
    · refine Indexed_drop _ h ?_ rfl ?_
      · split <;> rfl
      · split
        · exact (pendingIds_split _).1
        · exact (pendingIds_split _).1
    · exact h
  | childOutput ch lines =>
    refine Indexed_same h ?_ ?_ ?_ <;> simp only [step] <;> split <;> rfl
  | readyRead ch now =>
    have hs := (pendingIds_readOutput e.world ch now).2
    obtain ⟨fc, _⟩ := readLoop_cmdRunning e.world.d ch
    cases hb : ((readLoop e.world.d ch).out.outReady && (readLoop e.world.d ch).err.outReady) with
    | false =>
      simp only [stepSince, step, hb, Bool.false_eq_true, if_false]
      refine Indexed_same h hs rfl ?_
      rw [readOutput_not_ready e.world ch now hb]
      exact readLoop_pending e.world.d ch
    | true =>
      simp only [stepSince, step, hb, if_true]
      refine Indexed_drop _ h hs rfl ?_
      simp only [Bool.and_eq_true] at hb
      show pendingIds (readOutput e.world ch now).d = _
      rw [readOutput_ready e.world ch now hb.1 hb.2, pendingIds_execNextCmd_eq]
      · rw [(pendingIds_split (readLoop e.world.d ch)).1, readLoop_pending, fc]
      · intro c hc
        obtain ⟨_, _, _, f4⟩ := readLoop_flags e.world.d ch
        exact Indexed_queue_ne_zero h c (by rw [← f4]; exact hc)

theorem Indexed_run (ops : List Op) :
    ∀ (e : Execution) (since : List Nat), Indexed e since →
      Indexed (run e ops) (pendingSince e since ops) := by
  induction ops with
  | nil => intro e since h; exact h
  | cons op ops ih =>
    intro e since h
    exact ih (step e op) (stepSince e since op) (Indexed_step e since op h)

theorem Indexed_new : Indexed Execution.new [] :=
  ⟨by decide, by decide, List.Pairwise.nil, fun i hi => absurd hi (List.not_mem_nil i)⟩

theorem nodup_map_idAt (since : List Nat) (bound : Nat) (hp : since.Pairwise (· < ·))
    (hb : ∀ i ∈ since, i < bound) (hw : ∀ i ∈ since, bound - i ≤ 2000000000) :
    (since.map idAt).Nodup := by
  unfold List.Nodup
  rw [List.pairwise_map]
  refine List.Pairwise.imp_of_mem ?_ hp
  intro a b ha hb2 hab
  have h1 := hb b hb2
  have h2 := hw a ha
  exact fun h => idAt_ne_of_window a b hab (by omega) h.symm

theorem nodup_map_idAt_iff (since : List Nat) (hp : since.Pairwise (· < ·)) :
    (since.map idAt).Nodup ↔ since.Pairwise (fun i j => (j - i) % 2000000000 ≠ 0) := by
  unfold List.Nodup
  rw [List.pairwise_map]
  constructor
  · intro h
    refine (h.and hp).imp ?_
    intro a b hab h2
    exact hab.1 ((idAt_eq_iff a b hab.2).mpr h2).symm
  · intro h
    refine (h.and hp).imp ?_
    intro a b hab h2
    exact hab.1 ((idAt_eq_iff a b hab.2).mp h2.symm)

theorem pendingIds_command (w : World) (now : Int) (args : List QByteArray)
    (hacc : accepts w args = true) (hq : ∀ c ∈ w.d.cmdQueue, c.id ≠ 0)
    (hs : w.s_nextCmdId ≠ 0) :
    (command w now args).1 = w.s_nextCmdId ∧
      pendingIds (command w now args).2.d = pendingIds w.d ++ [w.s_nextCmdId] := by
  rw [command_accepted w now args hacc]
  refine ⟨rfl, ?_⟩
  show pendingIds (execNextCmd _ now) = _
  rw [pendingIds_execNextCmd_eq]
  · simp [pendingIds]
  · intro c hc
    have hc2 : c ∈ w.d.cmdQueue ++
        [{ id := w.s_nextCmdId, argsStr := buildScript w.s_nextCmdId args }] := hc
    rw [List.mem_append, List.mem_singleton] at hc2
    rcases hc2 with hc2 | hc2
    · exact hq c hc2
    · rw [hc2]; exact hs

/-- C6 (amended): in every reachable state the shared counter and the pending ids are determined
by allocation counts: after `n` ids have been taken from the counter (by all instances) the next
id is `idAt n`, and a pending command accepted when `i` ids had been taken has id `idAt i`.
Whenever fewer than 2000000000 ids have been taken from the counter since each pending command was
accepted (its own id included), the pending ids are pairwise distinct and the id returned by an
accepted `command()` differs from the running id and from the id of every queued command, and
the pending ids are pairwise distinct after the call as well. The returned id equals a pending id
exactly when the number of ids taken since that pending command was accepted is a multiple of
2000000000, and the pending ids are pairwise distinct exactly when no two pending commands were
accepted a multiple of 2000000000 ids apart. The condition holds in particular while fewer than
2000000000 ids have been taken in all. -/
theorem pending_ids_distinct_within_window (ops : List Op) (now : Int)
    (args : List QByteArray) :
    ((run Execution.new ops).world.s_nextCmdId = idAt (run Execution.new ops).allocated ∧
        pendingIds (run Execution.new ops).world.d =
          (pendingSince Execution.new [] ops).map idAt ∧
        (pendingSince Execution.new [] ops).Pairwise (· < ·) ∧
        ∀ i ∈ pendingSince Execution.new [] ops, i < (run Execution.new ops).allocated) ∧
      ((∀ i ∈ pendingSince Execution.new [] ops,
          (run Execution.new ops).allocated - i < 2000000000) →
        (pendingIds (run Execution.new ops).world.d).Nodup ∧
          (accepts (run Execution.new ops).world args = true →
            (command (run Execution.new ops).world now args).1 ≠
                (run Execution.new ops).world.d.cmdRunning ∧
              (∀ c ∈ (run Execution.new ops).world.d.cmdQueue,
                (command (run Execution.new ops).world now args).1 ≠ c.id) ∧
              (pendingIds (command (run Execution.new ops).world now args).2.d).Nodup)) ∧
      (accepts (run Execution.new ops).world args = true →
        ((command (run Execution.new ops).world now args).1 ∈
            pendingIds (run Execution.new ops).world.d ↔
          ∃ i ∈ pendingSince Execution.new [] ops,
            ((run Execution.new ops).allocated - i) % 2000000000 = 0)) ∧
      ((run Execution.new ops).allocated < 2000000000 →
        ∀ i ∈ pendingSince Execution.new [] ops,
          (run Execution.new ops).allocated - i < 2000000000) ∧
      ((pendingIds (run Execution.new ops).world.d).Nodup ↔
        (pendingSince Execution.new [] ops).Pairwise
          (fun i j => (j - i) % 2000000000 ≠ 0)) := by
  have hind := Indexed_run ops Execution.new [] Indexed_new
  have hq := Indexed_queue_ne_zero hind
  obtain ⟨h1, h2, h3, h4⟩ := hind
  generalize run Execution.new ops = e at h1 h2 h4 hq
  generalize pendingSince Execution.new [] ops = since at h2 h3 h4
  have hs0 : e.world.s_nextCmdId ≠ 0 := by rw [h1]; exact idAt_ne_zero _
  refine ⟨⟨h1, h2, h3, h4⟩, ?_, ?_, ?_, by rw [h2]; exact nodup_map_idAt_iff since h3⟩
  · intro hw
    have hnew : ∀ p ∈ pendingIds e.world.d, e.world.s_nextCmdId ≠ p := by
      intro p hp
      rw [h2, List.mem_map] at hp
      obtain ⟨i, hi, hpi⟩ := hp
      rw [← hpi, h1]
      exact idAt_ne_of_window i e.allocated (h4 i hi) (hw i hi)
    refine ⟨?_, fun hacc => ?_⟩
    · rw [h2]
      exact nodup_map_idAt since e.allocated h3 h4 (fun i hi => by have := hw i hi; omega)
    · obtain ⟨c1, c2⟩ := pendingIds_command e.world now args hacc hq hs0
      rw [c1, c2]
      refine ⟨?_, ?_, ?_⟩
      · by_cases hr : e.world.d.cmdRunning = 0
        · rw [hr]; exact hs0
        · exact hnew _ (by simp [pendingIds, hr])
      · intro c hc
        refine hnew _ ?_
        simp only [pendingIds, List.mem_append, List.mem_map]
        exact Or.inr ⟨c, hc, rfl⟩
      · have e1 : pendingIds e.world.d ++ [e.world.s_nextCmdId] =
            (since ++ [e.allocated]).map idAt := by
          rw [h2, h1]; simp
        rw [e1]
        refine nodup_map_idAt (since ++ [e.allocated]) (e.allocated + 1) ?_ ?_ ?_
        · rw [List.pairwise_append]
          exact ⟨h3, List.pairwise_singleton _ _, fun a ha b hb => by
            rw [List.mem_singleton.mp hb]; exact h4 a ha⟩
        · intro i hi
          rw [List.mem_append, List.mem_singleton] at hi
          rcases hi with hi | hi
          · have := h4 i hi; omega
          · omega
        · intro i hi
          rw [List.mem_append, List.mem_singleton] at hi
          rcases hi with hi | hi
          · have := hw i hi; have := h4 i hi; omega
          · omega
  · intro hacc
    obtain ⟨c1, _⟩ := pendingIds_command e.world now args hacc hq hs0
    rw [c1, h2, h1, List.mem_map]
    constructor
    · rintro ⟨i, hi, hpi⟩
      exact ⟨i, hi, (idAt_eq_iff i e.allocated (h4 i hi)).mp hpi.symm⟩
    · rintro ⟨i, hi, hm⟩
      exact ⟨i, hi, ((idAt_eq_iff i e.allocated (h4 i hi)).mpr hm).symm⟩
  · intro hlt i _
    omega

theorem pending_ids_distinct_within_window_witness :
    pendingSince Execution.new []
        [Op.setProgram "exiftool" "", Op.start (fun _ => true) (fun _ => true),
          Op.processStarted, Op.otherInstanceCommand, Op.command 0 ["-ver".toList],
          Op.otherInstanceCommand, Op.command 1 ["-json".toList, "a.jpg".toList]] = [1, 3] ∧
      pendingIds (run Execution.new
        [Op.setProgram "exiftool" "", Op.start (fun _ => true) (fun _ => true),
          Op.processStarted, Op.otherInstanceCommand, Op.command 0 ["-ver".toList],
          Op.otherInstanceCommand,
          Op.command 1 ["-json".toList, "a.jpg".toList]]).world.d = [2, 4] ∧
      (pendingIds (run Execution.new
        [Op.setProgram "exiftool" "", Op.start (fun _ => true) (fun _ => true),
          Op.processStarted, Op.otherInstanceCommand, Op.command 0 ["-ver".toList],
          Op.otherInstanceCommand,
          Op.command 1 ["-json".toList, "a.jpg".toList]]).world.d).Nodup ∧
      (command (run Execution.new
        [Op.setProgram "exiftool" "", Op.start (fun _ => true) (fun _ => true),
          Op.processStarted, Op.otherInstanceCommand, Op.command 0 ["-ver".toList],
          Op.otherInstanceCommand,
          Op.command 1 ["-json".toList, "a.jpg".toList]]).world 2 ["-ver".toList]).1 ≠
        (run Execution.new
          [Op.setProgram "exiftool" "", Op.start (fun _ => true) (fun _ => true),
            Op.processStarted, Op.otherInstanceCommand, Op.command 0 ["-ver".toList],
            Op.otherInstanceCommand,
            Op.command 1 ["-json".toList, "a.jpg".toList]]).world.d.cmdRunning :=
  ⟨by decide, by decide,
    ((pending_ids_distinct_within_window
      [Op.setProgram "exiftool" "", Op.start (fun _ => true) (fun _ => true),
        Op.processStarted, Op.otherInstanceCommand, Op.command 0 ["-ver".toList],
        Op.otherInstanceCommand, Op.command 1 ["-json".toList, "a.jpg".toList]] 2
      ["-ver".toList]).2.1 (by decide)).1,
    (((pending_ids_distinct_within_window
      [Op.setProgram "exiftool" "", Op.start (fun _ => true) (fun _ => true),
        Op.processStarted, Op.otherInstanceCommand, Op.command 0 ["-ver".toList],
        Op.otherInstanceCommand, Op.command 1 ["-json".toList, "a.jpg".toList]] 2
      ["-ver".toList]).2.1 (by decide)).2 (by decide)).1⟩

end Digikam
